import Mathlib

/-!
# CacheTest: FIFO, LRU, LFU and ARC caches

A shallow embedding of the four cache classes of the repository
(`FifoCache.h`, `LRUCache.h`, `LFUCache.h`, `ARCCache.h`) and of the record
`CacheItem` of `CachePolicy.h`, followed by theorems about them.

Modelling conventions.

* `std::unordered_map<std::string, V>` is an association list `UMap V`.  The
  iteration order of an unordered map is unspecified; the model keeps the
  entries in the order of their last assignment.
* A `std::list` whose iterators are stored in a map is a list of `Node`s: a
  node carries the identity the iterator refers to.  Identities are handed out
  from the counter `fresh` of the owning cache, one per `push_back`.
* A `shared_ptr` that is held by one container at a time (ARC, LRU) is
  modelled by the value it points to.  In `FIFOCache` the same pointer is held
  by the map and by the list, so there the objects live in a `heap` and the
  containers hold addresses.
* `std::chrono::steady_clock::now()` is a logical clock: the field `clock` of
  the cache is returned and advanced by one at each reading.
* `size_t` is `Nat`.  The lists of a cache hold at most `2 * capacity` entries
  and `p` is at most `capacity`, so with a capacity below `2^63` no `size_t`
  expression of the program overflows; with a larger one an overflow needs
  lists of `2^63` entries.  The `int` frequency counter of `LFUCache` is an `Int` reduced to
  32 bits, two's complement, after every increment: the language leaves the
  overflow of an `int` undefined, and the model takes the wrap of the usual
  targets, so that every call has a result.
* Every operation returns an `Option`: `none` stands for an execution with no
  defined result (reading `front()` of an empty list, dereferencing or erasing
  an iterator that refers to no node, dividing by zero, a loop that does not
  exit).
-/

namespace CacheTest

/-! ## Containers -/

/-- A `std::unordered_map` with `std::string` keys. -/
abbrev UMap (α : Type) := List (String × α)

namespace UMap

variable {α : Type}

/-- The value of `m.find(k)`, when it is not `m.end()`. -/
def find : UMap α → String → Option α
  | [], _ => none
  | e :: rest, k => if e.1 = k then some e.2 else find rest k

/-- The map after `m.erase(k)`. -/
def erase (m : UMap α) (k : String) : UMap α :=
  List.filter (fun e => decide (e.1 ≠ k)) m

/-- The map after `m[k] = v`. -/
def assign (m : UMap α) (k : String) (v : α) : UMap α :=
  erase m k ++ [(k, v)]

/-- The value read by `m[k]` and the map afterwards: `operator[]` inserts the
default `d` under a key that is absent. -/
def index (m : UMap α) (k : String) (d : α) : α × UMap α :=
  match find m k with
  | some v => (v, m)
  | none => (d, m ++ [(k, d)])

/-- The value of `m.size()`. -/
def size (m : UMap α) : Nat := List.length m

end UMap

/-- An object with an identity: a node of a `std::list`, where `id` is what an
iterator to the node refers to, or a cell of the heap, where `id` is the
address. -/
structure Node (α : Type) where
  id : Nat
  item : α
deriving DecidableEq

namespace StdList

variable {α : Type}

/-- The element `*it`. -/
def deref : List (Node α) → Nat → Option α
  | [], _ => none
  | n :: rest, it => if n.id = it then some n.item else deref rest it

/-- The list after `l.erase(it)`. -/
def erase : List (Node α) → Nat → Option (List (Node α))
  | [], _ => none
  | n :: rest, it => if n.id = it then some rest else (erase rest it).map (fun r => n :: r)

/-- The element `l.front()`. -/
def front : List (Node α) → Option α
  | [] => none
  | n :: _ => some n.item

/-- The list after `l.pop_front()`. -/
def pop_front : List (Node α) → Option (List (Node α))
  | [] => none
  | _ :: rest => some rest

end StdList

/-! ## CachePolicy.h -/

/-- The record `CacheItem<T>`. -/
structure CacheItem (T : Type) where
  key : String
  value : T
  frequency : Int
  last_accessed : Nat
deriving DecidableEq

/-- The constructor `CacheItem(k, v)`, run when the clock shows `now`. -/
def CacheItem.new {T : Type} (k : String) (v : T) (now : Nat) : CacheItem T :=
  { key := k, value := v, frequency := 1, last_accessed := now }

/-! ## ARCCache.h -/

/-- The record `ARCItem`. -/
structure ARCItem (T : Type) where
  key : String
  value : T
  is_ghost : Bool
deriving DecidableEq

/-- The fields of `ARCCache<T>`, and the counter `fresh` of node identities. -/
structure ARCCache (T : Type) where
  t1 : List (Node (ARCItem T))
  t2 : List (Node (ARCItem T))
  b1 : List (Node (ARCItem T))
  b2 : List (Node (ARCItem T))
  t1_map : UMap Nat
  t2_map : UMap Nat
  b1_map : UMap Nat
  b2_map : UMap Nat
  capacity : Nat
  p : Nat
  fresh : Nat
deriving DecidableEq

namespace ARCCache

variable {T : Type}

/-- The constructor `ARCCache(cap)`. -/
def new (cap : Nat) : ARCCache T :=
  { t1 := [], t2 := [], b1 := [], b2 := [], t1_map := [], t2_map := [], b1_map := [],
    b2_map := [], capacity := cap, p := 0, fresh := 0 }

/-- The constructor `ARCCache(cap)` as an operation that may fail, `none`
standing for an exception: its body is empty, nothing is checked and nothing
is thrown. -/
def construct (cap : Nat) : Option (ARCCache T) := some (new cap)

/-- The statements `t1.push_back(item); t1_map[key] = --t1.end();`. -/
def pushT1 (s : ARCCache T) (key : String) (item : ARCItem T) : ARCCache T :=
  { s with t1 := s.t1 ++ [⟨s.fresh, item⟩], t1_map := UMap.assign s.t1_map key s.fresh,
           fresh := s.fresh + 1 }

/-- The statements `t2.push_back(item); t2_map[key] = --t2.end();`. -/
def pushT2 (s : ARCCache T) (key : String) (item : ARCItem T) : ARCCache T :=
  { s with t2 := s.t2 ++ [⟨s.fresh, item⟩], t2_map := UMap.assign s.t2_map key s.fresh,
           fresh := s.fresh + 1 }

/-- The statements `b1.push_back(item); b1_map[item->key] = --b1.end();`. -/
def pushB1 (s : ARCCache T) (item : ARCItem T) : ARCCache T :=
  { s with b1 := s.b1 ++ [⟨s.fresh, item⟩], b1_map := UMap.assign s.b1_map item.key s.fresh,
           fresh := s.fresh + 1 }

/-- The statements `b2.push_back(item); b2_map[item->key] = --b2.end();`. -/
def pushB2 (s : ARCCache T) (item : ARCItem T) : ARCCache T :=
  { s with b2 := s.b2 ++ [⟨s.fresh, item⟩], b2_map := UMap.assign s.b2_map item.key s.fresh,
           fresh := s.fresh + 1 }

/-- The statements `item = t1.front(); t1.pop_front(); t1_map.erase(item->key);`. -/
def popT1 (s : ARCCache T) : Option (ARCItem T × ARCCache T) :=
  match StdList.front s.t1, StdList.pop_front s.t1 with
  | some item, some rest =>
    some (item, { s with t1 := rest, t1_map := UMap.erase s.t1_map item.key })
  | _, _ => none

/-- The statements `item = t2.front(); t2.pop_front(); t2_map.erase(item->key);`. -/
def popT2 (s : ARCCache T) : Option (ARCItem T × ARCCache T) :=
  match StdList.front s.t2, StdList.pop_front s.t2 with
  | some item, some rest =>
    some (item, { s with t2 := rest, t2_map := UMap.erase s.t2_map item.key })
  | _, _ => none

/-- The statements `item = b1.front(); b1.pop_front(); b1_map.erase(item->key);`. -/
def popB1 (s : ARCCache T) : Option (ARCItem T × ARCCache T) :=
  match StdList.front s.b1, StdList.pop_front s.b1 with
  | some item, some rest =>
    some (item, { s with b1 := rest, b1_map := UMap.erase s.b1_map item.key })
  | _, _ => none

/-- The statements `item = b2.front(); b2.pop_front(); b2_map.erase(item->key);`. -/
def popB2 (s : ARCCache T) : Option (ARCItem T × ARCCache T) :=
  match StdList.front s.b2, StdList.pop_front s.b2 with
  | some item, some rest =>
    some (item, { s with b2 := rest, b2_map := UMap.erase s.b2_map item.key })
  | _, _ => none

/-- The method `replace(is_b2)`. -/
def replace (s : ARCCache T) (is_b2 : Bool) : Option (ARCCache T) :=
  if s.t1.isEmpty = false ∧ (s.t1.length > s.p ∨ (is_b2 = true ∧ s.t1.length = s.p)) then
    match popT1 s with
    | none => none
    | some (item, s1) =>
      if item.is_ghost = false then some (pushB1 s1 { item with is_ghost := true })
      else some s1
  else if s.t2.isEmpty = false then
    match popT2 s with
    | none => none
    | some (item, s1) =>
      if item.is_ghost = false then some (pushB2 s1 { item with is_ghost := true })
      else some s1
  else some s

/-- The loop of `removeGhostEntries()`, run for at most `fuel` evaluations of
its condition. -/
def removeGhostLoop : Nat → ARCCache T → Option (ARCCache T)
  | 0, _ => none
  | fuel + 1, s =>
    if s.b1.length + s.b2.length ≥ s.capacity then
      if s.b1.isEmpty = false ∧ (s.b1.length > s.b2.length ∨
          (s.b1.length = s.b2.length ∧ s.b2.isEmpty = false)) then
        match popB1 s with
        | none => none
        | some (_, s1) => removeGhostLoop fuel s1
      else if s.b2.isEmpty = false then
        match popB2 s with
        | none => none
        | some (_, s1) => removeGhostLoop fuel s1
      else removeGhostLoop fuel s
    else some s

/-- The method `removeGhostEntries()`.  Every pass of the loop that changes
the state removes one ghost, so `|B1| + |B2| + 1` evaluations of the condition
are reached only by a loop that no longer changes the state. -/
def removeGhostEntries (s : ARCCache T) : Option (ARCCache T) :=
  removeGhostLoop (s.b1.length + s.b2.length + 1) s

/-- The quotient `a / b` of two `size_t`; undefined for `b = 0`. -/
def udiv (a b : Nat) : Option Nat :=
  if b = 0 then none else some (a / b)

/-- The second half of `get`: the lookup in `t2_map`. -/
def getT2 (s : ARCCache T) (key : String) : Option (ARCCache T × Option T) :=
  match UMap.find s.t2_map key with
  | some it2 =>
    match StdList.deref s.t2 it2 with
    | none => none
    | some item =>
      if item.is_ghost = false then
        match StdList.erase s.t2 it2 with
        | none => none
        | some rest =>
          some (pushT2 { s with t2 := rest, t2_map := UMap.erase s.t2_map key } key item,
                some item.value)
      else some (s, none)
  | none => some (s, none)

/-- The method `get(key, value)`: the state afterwards, and `some v` when it
returns `true` having stored `v` in `value`, `none` when it returns `false`. -/
def get (s : ARCCache T) (key : String) : Option (ARCCache T × Option T) :=
  match UMap.find s.t1_map key with
  | some it1 =>
    match StdList.deref s.t1 it1 with
    | none => none
    | some item =>
      if item.is_ghost = false then
        match StdList.erase s.t1 it1 with
        | none => none
        | some rest =>
          some (pushT2 { s with t1 := rest, t1_map := UMap.erase s.t1_map key } key item,
                some item.value)
      else getT2 s key
  | none => getT2 s key

/-- The last part of `put`, for a key found in no map: room is made, then the
new entry is appended to `t1`. -/
def putNew (s : ARCCache T) (key : String) (value : T) : Option (ARCCache T) :=
  let made : Option (ARCCache T) :=
    if s.t1.length + s.b1.length = s.capacity then
      if s.t1.length < s.capacity then
        let trimmed : Option (ARCCache T) :=
          if s.b1.isEmpty = false then (popB1 s).map (fun r => r.2) else some s
        match trimmed with
        | none => none
        | some s1 => replace s1 false
      else (popT1 s).map (fun r => r.2)
    else
      let total := s.t1.length + s.t2.length + s.b1.length + s.b2.length
      if total ≥ s.capacity then
        if s.t1.length + s.t2.length < 2 * s.capacity then
          match removeGhostEntries s with
          | none => none
          | some s1 => replace s1 false
        else if s.t1.isEmpty = false then (popT1 s).map (fun r => r.2)
        else if s.t2.isEmpty = false then (popT2 s).map (fun r => r.2)
        else some s
      else some s
  match made with
  | none => none
  | some s2 => some (pushT1 s2 key { key := key, value := value, is_ghost := false })

/-- The part of `put` from the lookup in `b2_map` on. -/
def putB2 (s : ARCCache T) (key : String) (value : T) : Option (ARCCache T) :=
  match UMap.find s.b2_map key with
  | some ib2 =>
    let delta : Option Nat :=
      if s.b1.length > 0 then (udiv s.b1.length s.b2.length).map (fun q => max q 1)
      else some 1
    match delta with
    | none => none
    | some d =>
      match replace { s with p := if s.p > d then s.p - d else 0 } true with
      | none => none
      | some s1 =>
        match StdList.erase s1.b2 ib2 with
        | none => none
        | some rest =>
          some (pushT2 { s1 with b2 := rest, b2_map := UMap.erase s1.b2_map key } key
                  { key := key, value := value, is_ghost := false })
  | none => putNew s key value

/-- The part of `put` from the lookup in `b1_map` on. -/
def putB1 (s : ARCCache T) (key : String) (value : T) : Option (ARCCache T) :=
  match UMap.find s.b1_map key with
  | some ib1 =>
    let delta : Option Nat :=
      if s.b2.length > 0 then (udiv s.b2.length s.b1.length).map (fun q => max q 1)
      else some 1
    match delta with
    | none => none
    | some d =>
      match replace { s with p := min (s.p + d) s.capacity } false with
      | none => none
      | some s1 =>
        match StdList.erase s1.b1 ib1 with
        | none => none
        | some rest =>
          some (pushT2 { s1 with b1 := rest, b1_map := UMap.erase s1.b1_map key } key
                  { key := key, value := value, is_ghost := false })
  | none => putB2 s key value

/-- The part of `put` from the lookup in `t2_map` on. -/
def putT2 (s : ARCCache T) (key : String) (value : T) : Option (ARCCache T) :=
  match UMap.find s.t2_map key with
  | some it2 =>
    match StdList.deref s.t2 it2 with
    | none => none
    | some item =>
      if item.is_ghost = false then
        match StdList.erase s.t2 it2 with
        | none => none
        | some rest =>
          some (pushT2 { s with t2 := rest, t2_map := UMap.erase s.t2_map key } key
                  { item with value := value })
      else
        let p1 : Option Nat :=
          if s.b1.length > 0 then
            (udiv s.b2.length s.b1.length).map
              (fun q => if s.p > q + 1 then s.p - (q + 1) else 0)
          else some (if s.p > 1 then s.p - 1 else 0)
        match p1, StdList.erase s.t2 it2 with
        | some p1, some rest =>
          putB1 { s with p := p1, t2 := rest, t2_map := UMap.erase s.t2_map key } key value
        | _, _ => none
  | none => putB1 s key value

/-- The method `put(key, value)`. -/
def put (s : ARCCache T) (key : String) (value : T) : Option (ARCCache T) :=
  match UMap.find s.t1_map key with
  | some it1 =>
    match StdList.deref s.t1 it1 with
    | none => none
    | some item =>
      if item.is_ghost = false then
        match StdList.erase s.t1 it1 with
        | none => none
        | some rest =>
          some (pushT2 { s with t1 := rest, t1_map := UMap.erase s.t1_map key } key
                  { item with value := value })
      else
        match StdList.erase s.t1 it1 with
        | none => none
        | some rest =>
          putT2 { s with p := min (s.p + 1) s.capacity, t1 := rest,
                         t1_map := UMap.erase s.t1_map key } key value
  | none => putT2 s key value

/-- The method `size()`. -/
def size (s : ARCCache T) : Nat :=
  UMap.size s.t1_map + UMap.size s.t2_map

end ARCCache

/-! ## FifoCache.h -/

/-- The objects owned through `shared_ptr`: the `id` of a cell is the address
of the object `item`. -/
abbrev Heap (α : Type) := List (Node α)

namespace Heap

variable {α : Type}

/-- The object `*ptr`. -/
def read : Heap α → Nat → Option α
  | [], _ => none
  | c :: rest, a => if c.id = a then some c.item else read rest a

/-- The heap after an assignment through `ptr` that leaves the object `x`. -/
def write (h : Heap α) (a : Nat) (x : α) : Heap α :=
  List.map (fun c => if c.id = a then { id := a, item := x } else c) h

/-- The heap after a `shared_ptr` to `a` is destroyed while the pointers
`held` remain: the object is deleted with its last owner. -/
def release (h : Heap α) (a : Nat) (held : List Nat) : Heap α :=
  if a ∈ held then h else List.filter (fun c => decide (c.id ≠ a)) h

end Heap

/-- The fields of `FIFOCache<T>`, the heap of its `CacheItem`s with the next
free address `fresh`, and the clock. -/
structure FIFOCache (T : Type) where
  heap : Heap (CacheItem T)
  cache_map : UMap Nat
  cache_list : List Nat
  capacity : Nat
  fresh : Nat
  clock : Nat
deriving DecidableEq

namespace FIFOCache

variable {T : Type}

/-- The constructor `FIFOCache(cap)`. -/
def new (cap : Nat) : FIFOCache T :=
  { heap := [], cache_map := [], cache_list := [], capacity := cap, fresh := 0, clock := 0 }

/-- The constructor `FIFOCache(cap)` as an operation that may fail, `none`
standing for an exception: its body is empty, nothing is checked and nothing
is thrown. -/
def construct (cap : Nat) : Option (FIFOCache T) := some (new cap)

/-- The method `get(key, value)`: the state afterwards, and `some v` when it
returns `true` having stored `v` in `value`, `none` when it returns `false`. -/
def get (s : FIFOCache T) (key : String) : Option (FIFOCache T × Option T) :=
  match UMap.find s.cache_map key with
  | some ptr =>
    match Heap.read s.heap ptr with
    | none => none
    | some item => some (s, some item.value)
  | none => some (s, none)

/-- The eviction block of `put`:
`oldest = cache_list.front(); cache_list.pop_front(); cache_map.erase(oldest->key);`,
after which the local pointer `oldest` is destroyed. -/
def evict (s : FIFOCache T) : Option (FIFOCache T) :=
  match s.cache_list with
  | [] => none
  | oldest :: rest =>
    match Heap.read s.heap oldest with
    | none => none
    | some item =>
      let m := UMap.erase s.cache_map item.key
      some { s with cache_list := rest, cache_map := m,
                    heap := Heap.release s.heap oldest (rest ++ List.map Prod.snd m) }

/-- The method `put(key, value)`. -/
def put (s : FIFOCache T) (key : String) (value : T) : Option (FIFOCache T) :=
  match UMap.find s.cache_map key with
  | some ptr =>
    match Heap.read s.heap ptr with
    | none => none
    | some item => some { s with heap := Heap.write s.heap ptr { item with value := value } }
  | none =>
    let made : Option (FIFOCache T) :=
      if UMap.size s.cache_map ≥ s.capacity then evict s else some s
    match made with
    | none => none
    | some s1 =>
      some { s1 with heap := s1.heap ++ [⟨s1.fresh, CacheItem.new key value s1.clock⟩],
                     cache_list := s1.cache_list ++ [s1.fresh],
                     cache_map := UMap.assign s1.cache_map key s1.fresh,
                     fresh := s1.fresh + 1, clock := s1.clock + 1 }

/-- The method `size()`. -/
def size (s : FIFOCache T) : Nat := UMap.size s.cache_map

end FIFOCache

/-! ## LRUCache.h -/

/-- The fields of `LRUCache<T>`, the counter `fresh` of node identities, and
the clock. -/
structure LRUCache (T : Type) where
  cache_map : UMap Nat
  cache_list : List (Node (CacheItem T))
  capacity : Nat
  fresh : Nat
  clock : Nat
deriving DecidableEq

namespace LRUCache

variable {T : Type}

/-- The constructor `LRUCache(cap)`. -/
def new (cap : Nat) : LRUCache T :=
  { cache_map := [], cache_list := [], capacity := cap, fresh := 0, clock := 0 }

/-- The constructor `LRUCache(cap)` as an operation that may fail, `none`
standing for an exception: its body is empty, nothing is checked and nothing
is thrown. -/
def construct (cap : Nat) : Option (LRUCache T) := some (new cap)

/-- The statements `cache_list.push_back(item); cache_map[key] = --cache_list.end();`. -/
def pushBack (s : LRUCache T) (key : String) (item : CacheItem T) : LRUCache T :=
  { s with cache_list := s.cache_list ++ [⟨s.fresh, item⟩],
           cache_map := UMap.assign s.cache_map key s.fresh, fresh := s.fresh + 1 }

/-- The method `get(key, value)`: the state afterwards, and `some v` when it
returns `true` having stored `v` in `value`, `none` when it returns `false`. -/
def get (s : LRUCache T) (key : String) : Option (LRUCache T × Option T) :=
  match UMap.find s.cache_map key with
  | some it =>
    match StdList.deref s.cache_list it with
    | none => none
    | some item =>
      match StdList.erase s.cache_list it with
      | none => none
      | some rest =>
        some (pushBack { s with cache_list := rest, clock := s.clock + 1 } key
                { item with last_accessed := s.clock },
              some item.value)
  | none => some (s, none)

/-- The eviction block of `put`:
`oldest = cache_list.front(); cache_map.erase(oldest->key); cache_list.pop_front();`. -/
def evict (s : LRUCache T) : Option (LRUCache T) :=
  match StdList.front s.cache_list, StdList.pop_front s.cache_list with
  | some oldest, some rest =>
    some { s with cache_map := UMap.erase s.cache_map oldest.key, cache_list := rest }
  | _, _ => none

/-- The method `put(key, value)`. -/
def put (s : LRUCache T) (key : String) (value : T) : Option (LRUCache T) :=
  match UMap.find s.cache_map key with
  | some it =>
    match StdList.deref s.cache_list it with
    | none => none
    | some item =>
      match StdList.erase s.cache_list it with
      | none => none
      | some rest =>
        some (pushBack { s with cache_list := rest, clock := s.clock + 1 } key
                { item with value := value, last_accessed := s.clock })
  | none =>
    let made : Option (LRUCache T) :=
      if UMap.size s.cache_map ≥ s.capacity then evict s else some s
    match made with
    | none => none
    | some s1 =>
      some (pushBack { s1 with clock := s1.clock + 1 } key (CacheItem.new key value s1.clock))

/-- The method `size()`. -/
def size (s : LRUCache T) : Nat := UMap.size s.cache_map

end LRUCache

/-! ## LFUCache.h -/

/-- The value `std::numeric_limits<int>::max()`. -/
def INT_MAX : Int := 2147483647

/-- The value an `int` holds after a computation with the mathematical result
`x`: two's complement, 32 bits. -/
def wrapInt (x : Int) : Int := (x + 2147483648) % 4294967296 - 2147483648

/-- The fields of `LFUCache<T>`, and the clock. -/
structure LFUCache (T : Type) where
  cache_map : UMap T
  frequency_map : UMap Int
  access_time_map : UMap Nat
  capacity : Nat
  clock : Nat
deriving DecidableEq

/-- The local variables of the eviction scan of `LFUCache::put`, and the map
`access_time_map` its condition reads with `operator[]`. -/
structure LFUScan where
  evict_key : String
  min_freq : Int
  oldest_time : Nat
  access_time_map : UMap Nat
deriving DecidableEq

namespace LFUCache

variable {T : Type}

/-- The constructor `LFUCache(cap)`. -/
def new (cap : Nat) : LFUCache T :=
  { cache_map := [], frequency_map := [], access_time_map := [], capacity := cap, clock := 0 }

/-- The constructor `LFUCache(cap)` as an operation that may fail, `none`
standing for an exception: its body is empty, nothing is checked and nothing
is thrown. -/
def construct (cap : Nat) : Option (LFUCache T) := some (new cap)

/-- The statements `frequency_map[key]++; access_time_map[key] = now();`. -/
def touch (s : LFUCache T) (key : String) : LFUCache T :=
  { s with frequency_map :=
             UMap.assign s.frequency_map key (wrapInt ((UMap.index s.frequency_map key 0).1 + 1)),
           access_time_map := UMap.assign s.access_time_map key s.clock,
           clock := s.clock + 1 }

/-- The method `get(key, value)`: the state afterwards, and `some v` when it
returns `true` having stored `v` in `value`, `none` when it returns `false`. -/
def get (s : LFUCache T) (key : String) : Option (LFUCache T × Option T) :=
  match UMap.find s.cache_map key with
  | some v => some (touch s key, some v)
  | none => some (s, none)

/-- One pass of the loop over `frequency_map` in `put`, at the pair `e`. -/
def scanStep (st : LFUScan) (e : String × Int) : LFUScan :=
  if e.2 < st.min_freq then
    let r := UMap.index st.access_time_map e.1 0
    { evict_key := e.1, min_freq := e.2, oldest_time := r.1, access_time_map := r.2 }
  else if e.2 = st.min_freq then
    let c := UMap.index st.access_time_map e.1 0
    if c.1 < st.oldest_time then
      let r := UMap.index c.2 e.1 0
      { evict_key := e.1, min_freq := e.2, oldest_time := r.1, access_time_map := r.2 }
    else { st with access_time_map := c.2 }
  else st

/-- The eviction block of `put`: the scan for the victim and its removal from
the three maps. -/
def evict (s : LFUCache T) : LFUCache T :=
  let st := List.foldl scanStep
    { evict_key := "", min_freq := INT_MAX, oldest_time := s.clock,
      access_time_map := s.access_time_map } s.frequency_map
  { s with cache_map := UMap.erase s.cache_map st.evict_key,
           frequency_map := UMap.erase s.frequency_map st.evict_key,
           access_time_map := UMap.erase st.access_time_map st.evict_key,
           clock := s.clock + 1 }

/-- The method `put(key, value)`. -/
def put (s : LFUCache T) (key : String) (value : T) : Option (LFUCache T) :=
  match UMap.find s.cache_map key with
  | some _ => some (touch { s with cache_map := UMap.assign s.cache_map key value } key)
  | none =>
    let s1 := if UMap.size s.cache_map ≥ s.capacity then evict s else s
    some { s1 with cache_map := UMap.assign s1.cache_map key value,
                   frequency_map := UMap.assign s1.frequency_map key 1,
                   access_time_map := UMap.assign s1.access_time_map key s1.clock,
                   clock := s1.clock + 1 }

/-- The method `size()`. -/
def size (s : LFUCache T) : Nat := UMap.size s.cache_map

end LFUCache

/-! ## Sequences of calls -/

/-- A call of one of the two methods that change a cache. -/
inductive Op (T : Type) where
  | get (key : String)
  | put (key : String) (value : T)
deriving DecidableEq

/-- The value given by the last `put` on key `k` in a sequence of calls. -/
def lastPut {T : Type} : List (Op T) → String → Option T
  | [], _ => none
  | Op.get _ :: rest, k => lastPut rest k
  | Op.put k1 v :: rest, k =>
    match lastPut rest k with
    | some w => some w
    | none => if k1 = k then some v else none

namespace ARCCache

variable {T : Type}

/-- The state after one call. -/
def step (s : ARCCache T) : Op T → Option (ARCCache T)
  | Op.get k => (get s k).map (fun r => r.1)
  | Op.put k v => put s k v

/-- The state after a sequence of calls. -/
def run (s : ARCCache T) : List (Op T) → Option (ARCCache T)
  | [] => some s
  | op :: rest =>
    match step s op with
    | none => none
    | some s1 => run s1 rest

/-- The states a cache built with capacity `cap` takes under `get` and `put`. -/
def Reachable (cap : Nat) (s : ARCCache T) : Prop :=
  ∃ ops : List (Op T), run (new cap) ops = some s

/-- The key is live: `t1_map` or `t2_map` holds it. -/
def live (s : ARCCache T) (k : String) : Prop :=
  UMap.find s.t1_map k ≠ none ∨ UMap.find s.t2_map k ≠ none

/-- The key is a ghost: `b1_map` or `b2_map` holds it. -/
def ghost (s : ARCCache T) (k : String) : Prop :=
  UMap.find s.b1_map k ≠ none ∨ UMap.find s.b2_map k ≠ none

/-- The value `get` reports for the key, if it reports one. -/
def lookup (s : ARCCache T) (k : String) : Option T :=
  match get s k with
  | some r => r.2
  | none => none

end ARCCache

namespace FIFOCache

variable {T : Type}

/-- The state after one call. -/
def step (s : FIFOCache T) : Op T → Option (FIFOCache T)
  | Op.get k => (get s k).map (fun r => r.1)
  | Op.put k v => put s k v

/-- The state after a sequence of calls. -/
def run (s : FIFOCache T) : List (Op T) → Option (FIFOCache T)
  | [] => some s
  | op :: rest =>
    match step s op with
    | none => none
    | some s1 => run s1 rest

/-- The states a cache built with capacity `cap` takes under `get` and `put`. -/
def Reachable (cap : Nat) (s : FIFOCache T) : Prop :=
  ∃ ops : List (Op T), run (new cap) ops = some s

/-- The key is present: `cache_map` holds it. -/
def present (s : FIFOCache T) (k : String) : Prop :=
  UMap.find s.cache_map k ≠ none

/-- The value `get` reports for the key, if it reports one. -/
def lookup (s : FIFOCache T) (k : String) : Option T :=
  match get s k with
  | some r => r.2
  | none => none

end FIFOCache

namespace LRUCache

variable {T : Type}

/-- The state after one call. -/
def step (s : LRUCache T) : Op T → Option (LRUCache T)
  | Op.get k => (get s k).map (fun r => r.1)
  | Op.put k v => put s k v

/-- The state after a sequence of calls. -/
def run (s : LRUCache T) : List (Op T) → Option (LRUCache T)
  | [] => some s
  | op :: rest =>
    match step s op with
    | none => none
    | some s1 => run s1 rest

/-- The states a cache built with capacity `cap` takes under `get` and `put`. -/
def Reachable (cap : Nat) (s : LRUCache T) : Prop :=
  ∃ ops : List (Op T), run (new cap) ops = some s

/-- The key is present: `cache_map` holds it. -/
def present (s : LRUCache T) (k : String) : Prop :=
  UMap.find s.cache_map k ≠ none

/-- The value `get` reports for the key, if it reports one. -/
def lookup (s : LRUCache T) (k : String) : Option T :=
  match get s k with
  | some r => r.2
  | none => none

end LRUCache

namespace LFUCache

variable {T : Type}

/-- The state after one call. -/
def step (s : LFUCache T) : Op T → Option (LFUCache T)
  | Op.get k => (get s k).map (fun r => r.1)
  | Op.put k v => put s k v

/-- The state after a sequence of calls. -/
def run (s : LFUCache T) : List (Op T) → Option (LFUCache T)
  | [] => some s
  | op :: rest =>
    match step s op with
    | none => none
    | some s1 => run s1 rest

/-- The states a cache built with capacity `cap` takes under `get` and `put`. -/
def Reachable (cap : Nat) (s : LFUCache T) : Prop :=
  ∃ ops : List (Op T), run (new cap) ops = some s

/-- The key is present: `cache_map` holds it. -/
def present (s : LFUCache T) (k : String) : Prop :=
  UMap.find s.cache_map k ≠ none

/-- The value `get` reports for the key, if it reports one. -/
def lookup (s : LFUCache T) (k : String) : Option T :=
  match get s k with
  | some r => r.2
  | none => none

end LFUCache

/-! ## Invariants

The definitions below state the invariants of the four caches and name the
intermediate states of the proofs. -/

section Linked

variable {α : Type}

/-- The keys of the elements of a list, in order. -/
def keysOf (kf : α → String) (l : List (Node α)) : List String :=
  List.map (fun n => kf n.item) l

/-- The identities of the nodes of a list, in order. -/
def idsOf (l : List (Node α)) : List Nat :=
  List.map (fun n => n.id) l

/-- The map that sends the key of every element of `l` to its node. -/
def entriesOf (kf : α → String) (l : List (Node α)) : UMap Nat :=
  List.map (fun n => (kf n.item, n.id)) l

/-- The list without the elements whose key is `k`. -/
def without (kf : α → String) (k : String) (l : List (Node α)) : List (Node α) :=
  List.filter (fun n => decide (kf n.item ≠ k)) l

/-- The first element of the list with key `k`. -/
def itemOf (kf : α → String) : List (Node α) → String → Option α
  | [], _ => none
  | n :: rest, k => if kf n.item = k then some n.item else itemOf kf rest k

/-- A list and the map of iterators into it agree, and the node identities
are distinct and below the counter. -/
structure ListOK (kf : α → String) (l : List (Node α)) (m : UMap Nat) (fresh : Nat) :
    Prop where
  map_eq : m = entriesOf kf l
  ids_nodup : (idsOf l).Nodup
  ids_lt : ∀ n ∈ l, n.id < fresh

end Linked

namespace ARCCache

variable {T : Type}

/-- How often a key occurs in the four lists together. -/
def occ (s : ARCCache T) (k : String) : Nat :=
  (keysOf ARCItem.key s.t1).count k + (keysOf ARCItem.key s.t2).count k +
    (keysOf ARCItem.key s.b1).count k + (keysOf ARCItem.key s.b2).count k

/-- The structural invariant of `ARCCache`: each map mirrors its list, no key
occurs twice in the four lists, and the ghost flag tells the live lists from
the ghost lists. -/
structure WF (s : ARCCache T) : Prop where
  ok1 : ListOK ARCItem.key s.t1 s.t1_map s.fresh
  ok2 : ListOK ARCItem.key s.t2 s.t2_map s.fresh
  okb1 : ListOK ARCItem.key s.b1 s.b1_map s.fresh
  okb2 : ListOK ARCItem.key s.b2 s.b2_map s.fresh
  uniq : ∀ k, occ s k ≤ 1
  live1 : ∀ n ∈ s.t1, n.item.is_ghost = false
  live2 : ∀ n ∈ s.t2, n.item.is_ghost = false
  ghost1 : ∀ n ∈ s.b1, n.item.is_ghost = true
  ghost2 : ∀ n ∈ s.b2, n.item.is_ghost = true

/-- The numeric invariant of `ARCCache`. -/
structure Bounds (s : ARCCache T) : Prop where
  cap_pos : 1 ≤ s.capacity
  p_le : s.p ≤ s.capacity
  l1_le : s.t1.length + s.b1.length ≤ s.capacity
  live_le : s.t1.length + s.t2.length ≤ s.capacity
  ghost_le : s.b1.length + s.b2.length ≤ s.capacity
  full : s.b1.length + s.b2.length = 0 ∨ s.t1.length + s.t2.length = s.capacity

/-- The state after the entry of key `k` is taken out of `t1` and `t1_map`. -/
def dropT1 (s : ARCCache T) (k : String) : ARCCache T :=
  { s with t1 := without ARCItem.key k s.t1, t1_map := UMap.erase s.t1_map k }

/-- The state after the entry of key `k` is taken out of `t2` and `t2_map`. -/
def dropT2 (s : ARCCache T) (k : String) : ARCCache T :=
  { s with t2 := without ARCItem.key k s.t2, t2_map := UMap.erase s.t2_map k }

/-- The state after the entry of key `k` is taken out of `b1` and `b1_map`. -/
def dropB1 (s : ARCCache T) (k : String) : ARCCache T :=
  { s with b1 := without ARCItem.key k s.b1, b1_map := UMap.erase s.b1_map k }

/-- The state after the entry of key `k` is taken out of `b2` and `b2_map`. -/
def dropB2 (s : ARCCache T) (k : String) : ARCCache T :=
  { s with b2 := without ARCItem.key k s.b2, b2_map := UMap.erase s.b2_map k }

/-- The live entry of a key: the one in `t1`, else the one in `t2`. -/
def liveItem (s : ARCCache T) (k : String) : Option (ARCItem T) :=
  match itemOf ARCItem.key s.t1 k with
  | some x => some x
  | none => itemOf ARCItem.key s.t2 k

/-- The value of the live entry of a key. -/
def liveVal (s : ARCCache T) (k : String) : Option T :=
  (liveItem s k).map (fun x => x.value)

/-- What `replace` leaves when it moves the live entry of key `k0` to a ghost
list. -/
structure Evicted (s s1 : ARCCache T) (k0 : String) : Prop where
  wf : WF s1
  p_eq : s1.p = s.p
  cap_eq : s1.capacity = s.capacity
  live_len : s1.t1.length + s1.t2.length + 1 = s.t1.length + s.t2.length
  l1_len : s1.t1.length + s1.b1.length = s.t1.length + s.b1.length
  ghost_len : s1.b1.length + s1.b2.length = s.b1.length + s.b2.length + 1
  t1_len : s1.t1.length ≤ s.t1.length
  was_live : (keysOf ARCItem.key s.t1).count k0 + (keysOf ARCItem.key s.t2).count k0 = 1
  cnt1 : ∀ a, a ≠ k0 → (keysOf ARCItem.key s1.t1).count a = (keysOf ARCItem.key s.t1).count a
  cnt2 : ∀ a, a ≠ k0 → (keysOf ARCItem.key s1.t2).count a = (keysOf ARCItem.key s.t2).count a
  cntb1 : ∀ a, a ≠ k0 → (keysOf ARCItem.key s1.b1).count a = (keysOf ARCItem.key s.b1).count a
  cntb2 : ∀ a, a ≠ k0 → (keysOf ARCItem.key s1.b2).count a = (keysOf ARCItem.key s.b2).count a
  findb1 : ∀ a, a ≠ k0 → UMap.find s1.b1_map a = UMap.find s.b1_map a
  findb2 : ∀ a, a ≠ k0 → UMap.find s1.b2_map a = UMap.find s.b2_map a
  live : ∀ a, liveVal s1 a = if a = k0 then none else liveVal s a

/-- What `removeGhostEntries` leaves. -/
structure Trimmed (s s1 : ARCCache T) : Prop where
  wf : WF s1
  t1_eq : s1.t1 = s.t1
  t2_eq : s1.t2 = s.t2
  t1_map_eq : s1.t1_map = s.t1_map
  t2_map_eq : s1.t2_map = s.t2_map
  p_eq : s1.p = s.p
  cap_eq : s1.capacity = s.capacity
  fresh_eq : s1.fresh = s.fresh
  b1_suffix : s1.b1 <:+ s.b1
  b2_suffix : s1.b2 <:+ s.b2
  lt : s1.b1.length + s1.b2.length < s.capacity
  same : s.b1.length + s.b2.length < s.capacity → s1 = s

/-- What `get` leaves. -/
structure GetOK (s s1 : ARCCache T) : Prop where
  wf : WF s1
  bounds : Bounds s1
  cap_eq : s1.capacity = s.capacity
  live : ∀ a, liveVal s1 a = liveVal s a
  live_len : s1.t1.length + s1.t2.length = s.t1.length + s.t2.length

/-- What `put` leaves: `victim` is the key of the live entry that was evicted,
if one was. -/
structure PutOK (s s1 : ARCCache T) (k : String) (v : T) (victim : Option String) : Prop where
  wf : WF s1
  bounds : Bounds s1
  cap_eq : s1.capacity = s.capacity
  live : ∀ a, liveVal s1 a =
    if a = k then some v else if victim = some a then none else liveVal s a
  victim_full : victim ≠ none →
    liveVal s k = none ∧ s.t1.length + s.t2.length = s.capacity
  victim_live : ∀ a, victim = some a → liveVal s a ≠ none

end ARCCache

/-- The time stamps of the elements of a list, in order. -/
def stampsOf {T : Type} (l : List (Node (CacheItem T))) : List Nat :=
  List.map (fun n => n.item.last_accessed) l

namespace FIFOCache

variable {T : Type}

/-- The invariant of `FIFOCache`: the list holds the addresses of the heap in
order, the map sends the key of every object to its address, the keys are
distinct, at most `capacity` objects are held, and the objects are in the
order of their time stamps. -/
structure Inv (s : FIFOCache T) : Prop where
  list_eq : s.cache_list = idsOf s.heap
  ok : ListOK CacheItem.key s.heap s.cache_map s.fresh
  keys_nodup : (keysOf CacheItem.key s.heap).Nodup
  size_le : s.heap.length ≤ s.capacity
  cap_pos : 1 ≤ s.capacity
  sorted : (stampsOf s.heap).Pairwise (fun a b => a < b)
  stamps_lt : ∀ c ∈ s.heap, c.item.last_accessed < s.clock

/-- The value held for a key. -/
def val (s : FIFOCache T) (k : String) : Option T :=
  (itemOf CacheItem.key s.heap k).map (fun x => x.value)

/-- What `put` leaves: `victim` is the key that was evicted, if one was. -/
structure PutOK (s s1 : FIFOCache T) (k : String) (v : T) (victim : Option String) : Prop where
  inv : Inv s1
  cap_eq : s1.capacity = s.capacity
  vals : ∀ a, val s1 a = if a = k then some v else if victim = some a then none else val s a
  victim_full : victim ≠ none → val s k = none ∧ s.heap.length = s.capacity
  victim_live : ∀ a, victim = some a → val s a ≠ none
  victim_first : ∀ a, victim = some a → ∃ c rest, s.heap = c :: rest ∧ c.item.key = a

end FIFOCache

namespace LRUCache

variable {T : Type}

/-- The invariant of `LRUCache`: the map mirrors the list, the keys are
distinct, at most `capacity` entries are held, and the entries are in the
order of their time stamps. -/
structure Inv (s : LRUCache T) : Prop where
  ok : ListOK CacheItem.key s.cache_list s.cache_map s.fresh
  keys_nodup : (keysOf CacheItem.key s.cache_list).Nodup
  size_le : s.cache_list.length ≤ s.capacity
  cap_pos : 1 ≤ s.capacity
  sorted : (stampsOf s.cache_list).Pairwise (fun a b => a < b)
  stamps_lt : ∀ c ∈ s.cache_list, c.item.last_accessed < s.clock

/-- The value held for a key. -/
def val (s : LRUCache T) (k : String) : Option T :=
  (itemOf CacheItem.key s.cache_list k).map (fun x => x.value)

/-- The state after the entry of key `k`, if there is one, is taken out of the
list and `y` is appended under `k`, the clock having been read once. -/
def touched (s : LRUCache T) (k : String) (y : CacheItem T) : LRUCache T :=
  pushBack { s with cache_list := without CacheItem.key k s.cache_list,
                    clock := s.clock + 1 } k y

/-- What `put` leaves: `victim` is the key that was evicted, if one was. -/
structure PutOK (s s1 : LRUCache T) (k : String) (v : T) (victim : Option String) : Prop where
  inv : Inv s1
  cap_eq : s1.capacity = s.capacity
  vals : ∀ a, val s1 a = if a = k then some v else if victim = some a then none else val s a
  victim_full : victim ≠ none → val s k = none ∧ s.cache_list.length = s.capacity
  victim_live : ∀ a, victim = some a → val s a ≠ none
  victim_first : ∀ a, victim = some a →
    ∃ c rest, s.cache_list = c :: rest ∧ c.item.key = a

end LRUCache

/-- The keys of a map, in the order of its entries. -/
def UMap.keys {α : Type} (m : UMap α) : List String :=
  List.map Prod.fst m

namespace LFUCache

variable {T : Type}

/-- The invariant of `LFUCache`: the three maps have the same keys, each once,
at most `capacity` of them; no counter exceeds `INT_MAX`; the access times are
distinct and earlier than the clock. -/
structure Inv (s : LFUCache T) : Prop where
  nodup_c : (UMap.keys s.cache_map).Nodup
  nodup_f : (UMap.keys s.frequency_map).Nodup
  nodup_t : (UMap.keys s.access_time_map).Nodup
  keys_f : ∀ k, k ∈ UMap.keys s.frequency_map ↔ k ∈ UMap.keys s.cache_map
  keys_t : ∀ k, k ∈ UMap.keys s.access_time_map ↔ k ∈ UMap.keys s.cache_map
  size_le : s.cache_map.length ≤ s.capacity
  cap_pos : 1 ≤ s.capacity
  freq_le : ∀ e ∈ s.frequency_map, e.2 ≤ INT_MAX
  times_lt : ∀ e ∈ s.access_time_map, e.2 < s.clock
  times_nodup : (List.map Prod.snd s.access_time_map).Nodup

/-- The value held for a key. -/
def val (s : LFUCache T) (k : String) : Option T :=
  UMap.find s.cache_map k

/-- The state after the key `victim` is erased from the three maps, the clock
having been read once. -/
def evicted (s : LFUCache T) (victim : String) : LFUCache T :=
  { s with cache_map := UMap.erase s.cache_map victim,
           frequency_map := UMap.erase s.frequency_map victim,
           access_time_map := UMap.erase s.access_time_map victim,
           clock := s.clock + 1 }

/-- The state after `key` is entered in the three maps with the value `value`,
the frequency 1 and the current time. -/
def inserted (s : LFUCache T) (key : String) (value : T) : LFUCache T :=
  { s with cache_map := UMap.assign s.cache_map key value,
           frequency_map := UMap.assign s.frequency_map key 1,
           access_time_map := UMap.assign s.access_time_map key s.clock,
           clock := s.clock + 1 }

/-- The state of the eviction scan after the pairs `seen`: a pair of `seen` is
selected, with its access time, and no pair of `seen` comes before it. -/
structure Scanned (atm : UMap Nat) (seen : UMap Int) (st : LFUScan) : Prop where
  atm_eq : st.access_time_map = atm
  mem : (st.evict_key, st.min_freq) ∈ seen
  time : UMap.find atm st.evict_key = some st.oldest_time
  least : ∀ e ∈ seen, ∀ t, UMap.find atm e.1 = some t →
    st.min_freq < e.2 ∨ (st.min_freq = e.2 ∧ st.oldest_time ≤ t)

/-- What `put` leaves: `victim` is the key that was evicted, if one was. -/
structure PutOK (s s1 : LFUCache T) (k : String) (v : T) (victim : Option String) : Prop where
  inv : Inv s1
  cap_eq : s1.capacity = s.capacity
  vals : ∀ a, val s1 a = if a = k then some v else if victim = some a then none else val s a
  victim_full : victim ≠ none → val s k = none ∧ s.cache_map.length = s.capacity
  victim_live : ∀ a, victim = some a → val s a ≠ none

end LFUCache

/-! ### The states of the traces -/

/-- The ARC cache of capacity 2 after `put(a,1); put(b,2); get(a); put(c,3)`. -/
def arcTrace : ARCCache Nat :=
  { t1 := [⟨4, ⟨"c", 3, false⟩⟩], t2 := [⟨2, ⟨"a", 1, false⟩⟩],
    b1 := [⟨3, ⟨"b", 2, true⟩⟩], b2 := [],
    t1_map := [("c", 4)], t2_map := [("a", 2)], b1_map := [("b", 3)], b2_map := [],
    capacity := 2, p := 0, fresh := 5 }

/-- The state `arcTrace` after `get(c)`. -/
def arcTraceC : ARCCache Nat :=
  { t1 := [], t2 := [⟨2, ⟨"a", 1, false⟩⟩, ⟨5, ⟨"c", 3, false⟩⟩],
    b1 := [⟨3, ⟨"b", 2, true⟩⟩], b2 := [],
    t1_map := [], t2_map := [("a", 2), ("c", 5)], b1_map := [("b", 3)], b2_map := [],
    capacity := 2, p := 0, fresh := 6 }

/-- The state `arcTraceC` after `get(a)`. -/
def arcTraceA : ARCCache Nat :=
  { t1 := [], t2 := [⟨5, ⟨"c", 3, false⟩⟩, ⟨6, ⟨"a", 1, false⟩⟩],
    b1 := [⟨3, ⟨"b", 2, true⟩⟩], b2 := [],
    t1_map := [], t2_map := [("c", 5), ("a", 6)], b1_map := [("b", 3)], b2_map := [],
    capacity := 2, p := 0, fresh := 7 }

/-- The FIFO cache of capacity 2 after `put(a,1); put(b,2)`. -/
def fifoFull : FIFOCache Nat :=
  { heap := [⟨0, ⟨"a", 1, 1, 0⟩⟩, ⟨1, ⟨"b", 2, 1, 1⟩⟩],
    cache_map := [("a", 0), ("b", 1)], cache_list := [0, 1],
    capacity := 2, fresh := 2, clock := 2 }

/-- The FIFO cache of capacity 2 after `put(a,1); put(b,2); put(c,3)`. -/
def fifoTrace : FIFOCache Nat :=
  { heap := [⟨1, ⟨"b", 2, 1, 1⟩⟩, ⟨2, ⟨"c", 3, 1, 2⟩⟩],
    cache_map := [("b", 1), ("c", 2)], cache_list := [1, 2],
    capacity := 2, fresh := 3, clock := 3 }

/-- The LRU cache of capacity 2 after `put(a,1); put(b,2); get(a)`. -/
def lruFull : LRUCache Nat :=
  { cache_map := [("b", 1), ("a", 2)],
    cache_list := [⟨1, ⟨"b", 2, 1, 1⟩⟩, ⟨2, ⟨"a", 1, 1, 2⟩⟩],
    capacity := 2, fresh := 3, clock := 3 }

/-- The LRU cache of capacity 2 after `put(a,1); put(b,2); get(a); put(c,3)`. -/
def lruTrace : LRUCache Nat :=
  { cache_map := [("a", 2), ("c", 3)],
    cache_list := [⟨2, ⟨"a", 1, 1, 2⟩⟩, ⟨3, ⟨"c", 3, 1, 3⟩⟩],
    capacity := 2, fresh := 4, clock := 4 }

/-- The state `lruTrace` after `get(a)`. -/
def lruTraceA : LRUCache Nat :=
  { cache_map := [("c", 3), ("a", 4)],
    cache_list := [⟨3, ⟨"c", 3, 1, 3⟩⟩, ⟨4, ⟨"a", 1, 1, 4⟩⟩],
    capacity := 2, fresh := 5, clock := 5 }

/-- The LFU cache of capacity 2 after `put(a,1); put(b,2); get(a)`. -/
def lfuFull : LFUCache Nat :=
  { cache_map := [("a", 1), ("b", 2)], frequency_map := [("b", 1), ("a", 2)],
    access_time_map := [("b", 1), ("a", 2)], capacity := 2, clock := 3 }

/-- The LFU cache of capacity 2 after `put(a,1); put(b,2); get(a); put(c,3)`. -/
def lfuTrace : LFUCache Nat :=
  { cache_map := [("a", 1), ("c", 3)], frequency_map := [("a", 2), ("c", 1)],
    access_time_map := [("a", 2), ("c", 4)], capacity := 2, clock := 5 }

/-- The state `lfuTrace` after `get(a)`. -/
def lfuTraceA : LFUCache Nat :=
  { cache_map := [("a", 1), ("c", 3)], frequency_map := [("c", 1), ("a", 3)],
    access_time_map := [("c", 4), ("a", 5)], capacity := 2, clock := 6 }

/-! ### The states `put` leaves -/

namespace FIFOCache

variable {T : Type}

/-- The state after the value of the object with key `k` is set to `v`. -/
def overwritten (s : FIFOCache T) (k : String) (v : T) : FIFOCache T :=
  let set := fun (c : Node (CacheItem T)) =>
    if c.item.key = k then { c with item := { c.item with value := v } } else c
  { s with heap := List.map set s.heap }

/-- The state after the first pointer of the list is taken out, with the map
entry of the key `victim` and the object. -/
def dropped (s : FIFOCache T) (victim : String) : FIFOCache T :=
  { s with heap := s.heap.tail, cache_list := s.cache_list.tail,
           cache_map := UMap.erase s.cache_map victim }

/-- The state after an object for `k` with value `v` is made and appended. -/
def appended (s : FIFOCache T) (k : String) (v : T) : FIFOCache T :=
  { s with heap := s.heap ++ [⟨s.fresh, CacheItem.new k v s.clock⟩],
           cache_list := s.cache_list ++ [s.fresh],
           cache_map := UMap.assign s.cache_map k s.fresh,
           fresh := s.fresh + 1, clock := s.clock + 1 }

end FIFOCache

namespace LRUCache

variable {T : Type}

/-- The state after the first entry of the list is taken out, with the map
entry of the key `victim`. -/
def dropped (s : LRUCache T) (victim : String) : LRUCache T :=
  { s with cache_map := UMap.erase s.cache_map victim, cache_list := s.cache_list.tail }

/-- The state after an entry for `k` with value `v` is made and appended. -/
def appended (s : LRUCache T) (k : String) (v : T) : LRUCache T :=
  pushBack { s with clock := s.clock + 1 } k (CacheItem.new k v s.clock)

end LRUCache

/-! ### The frequency of the specification -/

namespace LFUCache

variable {T : Type}

/-- The frequency of the key `a` after the call `op` on the state `s`, where
it was `n`, as the specification defines it: 1 at insertion, one more on a
`get` hit and on a `put` on an existing key. -/
def bump (s : LFUCache T) (a : String) (n : Nat) : Op T → Nat
  | Op.get k => if k = a ∧ (UMap.find s.cache_map k).isSome then n + 1 else n
  | Op.put k _ =>
    if k = a then (if (UMap.find s.cache_map k).isSome then n + 1 else 1) else n

/-- The frequency of the key `a`, as the specification defines it, after the
calls `ops` on the state `s`, where it was `n`. -/
def specFrequency (a : String) : LFUCache T → Nat → List (Op T) → Nat
  | _, n, [] => n
  | s, n, op :: rest =>
    match step s op with
    | none => n
    | some s1 => specFrequency a s1 (bump s a n op) rest

/-- The cache of capacity 2 that holds the key `a` alone after `x` touches. -/
def hot (x : Nat) : LFUCache Nat :=
  { cache_map := [("a", 1)], frequency_map := [("a", wrapInt x)],
    access_time_map := [("a", x - 1)], capacity := 2, clock := x }

end LFUCache

/-- The LFU cache of capacity 2 after `put(a,1)`, 2147483647 calls `get(a)`
and `put(b,2)`. -/
def lfuHot : LFUCache Nat :=
  { cache_map := [("a", 1), ("b", 2)], frequency_map := [("a", -2147483648), ("b", 1)],
    access_time_map := [("a", 2147483647), ("b", 2147483648)], capacity := 2,
    clock := 2147483649 }

/-- The state `lfuHot` after `put(c,3)`. -/
def lfuHotC : LFUCache Nat :=
  { cache_map := [("b", 2), ("c", 3)], frequency_map := [("b", 1), ("c", 1)],
    access_time_map := [("b", 2147483648), ("c", 2147483650)], capacity := 2,
    clock := 2147483651 }

/-! ### Further definitions for `ARCCache` -/

namespace ARCCache

variable {T : Type}

/-- The index map `m` mirrors the list `l`: it has the keys of the list, the
nodes of the list have distinct identities, and every key is mapped to the
node that holds it. -/
def Mirrors (l : List (Node (ARCItem T))) (m : UMap Nat) : Prop :=
  UMap.keys m = keysOf ARCItem.key l ∧ (idsOf l).Nodup ∧
    ∀ k i, UMap.find m k = some i → ∃ x, StdList.deref l i = some x ∧ x.key = k

/-- The condition under which `replace(is_b2)` takes the front of `t1`. -/
def fromT1 (s : ARCCache T) (is_b2 : Bool) : Prop :=
  s.t1 ≠ [] ∧ (s.t1.length > s.p ∨ (is_b2 = true ∧ s.t1.length = s.p))

end ARCCache

namespace ARCCache

variable {T : Type}

/-- The condition under which a pass of the loop of `removeGhostEntries()`
takes the front of `b1`. -/
def fromB1 (s : ARCCache T) : Prop :=
  s.b1.length > s.b2.length ∨ (s.b1.length = s.b2.length ∧ s.b2 ≠ [])

end ARCCache

/-- The state `arcTrace` after `put(b,9)`, a hit on the ghost `b` of `B1`. -/
def arcTraceB : ARCCache Nat :=
  { t1 := [⟨4, ⟨"c", 3, false⟩⟩], t2 := [⟨6, ⟨"b", 9, false⟩⟩], b1 := [],
    b2 := [⟨5, ⟨"a", 1, true⟩⟩], t1_map := [("c", 4)], t2_map := [("b", 6)], b1_map := [],
    b2_map := [("a", 5)], capacity := 2, p := 1, fresh := 7 }

/-- A state of capacity 2 with three ghosts, `x` and `y` in `b1` and `z` in
`b2`. -/
def arcGhosts : ARCCache Nat :=
  { t1 := [], t2 := [], b1 := [⟨0, ⟨"x", 1, true⟩⟩, ⟨1, ⟨"y", 2, true⟩⟩],
    b2 := [⟨2, ⟨"z", 3, true⟩⟩], t1_map := [], t2_map := [],
    b1_map := [("x", 0), ("y", 1)], b2_map := [("z", 2)], capacity := 2, p := 0, fresh := 3 }

namespace ARCCache

variable {T : Type}

/-- The state after the live entry of key `k` is taken out of its list and `y`
is appended to `t2` under `k`. -/
def promoted (s : ARCCache T) (k : String) (y : ARCItem T) : ARCCache T :=
  { s with t1 := without ARCItem.key k s.t1, t1_map := UMap.erase s.t1_map k,
           t2 := without ARCItem.key k s.t2 ++ [⟨s.fresh, y⟩],
           t2_map := UMap.assign (UMap.erase s.t2_map k) k s.fresh,
           fresh := s.fresh + 1 }

end ARCCache

/-! ## Theorems -/

section ContainerLemmas

variable {α : Type}

@[simp] theorem umap_find_nil (k : String) : UMap.find ([] : UMap α) k = none := rfl

theorem umap_find_cons (e : String × α) (m : UMap α) (k : String) :
    UMap.find (e :: m) k = if e.1 = k then some e.2 else UMap.find m k := rfl

@[simp] theorem umap_erase_nil (k : String) : UMap.erase ([] : UMap α) k = [] := rfl

theorem umap_erase_cons (e : String × α) (m : UMap α) (k : String) :
    UMap.erase (e :: m) k = if e.1 = k then UMap.erase m k else e :: UMap.erase m k := by
  by_cases h : e.1 = k <;> simp [UMap.erase, List.filter_cons, h]

@[simp] theorem deref_nil (i : Nat) : StdList.deref ([] : List (Node α)) i = none := rfl

theorem deref_cons (n : Node α) (l : List (Node α)) (i : Nat) :
    StdList.deref (n :: l) i = if n.id = i then some n.item else StdList.deref l i := rfl

@[simp] theorem erase_nil (i : Nat) : StdList.erase ([] : List (Node α)) i = none := rfl

theorem erase_cons (n : Node α) (l : List (Node α)) (i : Nat) :
    StdList.erase (n :: l) i =
      if n.id = i then some l else (StdList.erase l i).map (fun r => n :: r) := rfl

end ContainerLemmas

section LinkedLemmas

variable {α : Type} (kf : α → String)

@[simp] theorem keysOf_nil : keysOf kf ([] : List (Node α)) = [] := rfl

@[simp] theorem keysOf_cons (n : Node α) (l : List (Node α)) :
    keysOf kf (n :: l) = kf n.item :: keysOf kf l := rfl

@[simp] theorem keysOf_append (l l2 : List (Node α)) :
    keysOf kf (l ++ l2) = keysOf kf l ++ keysOf kf l2 := by
  simp [keysOf]

@[simp] theorem idsOf_nil : idsOf ([] : List (Node α)) = [] := rfl

@[simp] theorem idsOf_cons (n : Node α) (l : List (Node α)) :
    idsOf (n :: l) = n.id :: idsOf l := rfl

@[simp] theorem idsOf_append (l l2 : List (Node α)) :
    idsOf (l ++ l2) = idsOf l ++ idsOf l2 := by
  simp [idsOf]

@[simp] theorem entriesOf_nil : entriesOf kf ([] : List (Node α)) = [] := rfl

@[simp] theorem entriesOf_cons (n : Node α) (l : List (Node α)) :
    entriesOf kf (n :: l) = (kf n.item, n.id) :: entriesOf kf l := rfl

@[simp] theorem entriesOf_append (l l2 : List (Node α)) :
    entriesOf kf (l ++ l2) = entriesOf kf l ++ entriesOf kf l2 := by
  simp [entriesOf]

@[simp] theorem length_keysOf (l : List (Node α)) : (keysOf kf l).length = l.length := by
  simp [keysOf]

@[simp] theorem length_entriesOf (l : List (Node α)) : (entriesOf kf l).length = l.length := by
  simp [entriesOf]

@[simp] theorem without_nil (k : String) : without kf k ([] : List (Node α)) = [] := rfl

theorem without_cons (k : String) (n : Node α) (l : List (Node α)) :
    without kf k (n :: l) = if kf n.item = k then without kf k l else n :: without kf k l := by
  by_cases h : kf n.item = k <;> simp [without, List.filter_cons, h]

theorem mem_without {k : String} {l : List (Node α)} {n : Node α} :
    n ∈ without kf k l ↔ n ∈ l ∧ kf n.item ≠ k := by
  simp [without, List.mem_filter]

theorem without_sublist (k : String) (l : List (Node α)) : (without kf k l).Sublist l :=
  List.filter_sublist l

theorem without_eq_self {k : String} {l : List (Node α)} (h : k ∉ keysOf kf l) :
    without kf k l = l := by
  induction l with
  | nil => rfl
  | cons n l ih =>
    simp only [keysOf_cons, List.mem_cons, not_or] at h
    rw [without_cons, if_neg (fun e => h.1 e.symm), ih h.2]

theorem count_keysOf_without (k a : String) (l : List (Node α)) :
    (keysOf kf (without kf k l)).count a = if a = k then 0 else (keysOf kf l).count a := by
  induction l with
  | nil => simp
  | cons n l ih =>
    rw [without_cons]
    by_cases h : kf n.item = k
    · rw [if_pos h, ih]
      by_cases ha : a = k
      · simp [ha]
      · have : kf n.item ≠ a := fun e => ha (e ▸ h)
        simp [ha, List.count_cons, this]
    · rw [if_neg h, keysOf_cons, keysOf_cons, List.count_cons, List.count_cons, ih]
      by_cases ha : a = k
      · have : ¬ kf n.item = a := fun e => h (e.trans ha)
        simp [ha, h]
      · simp [ha]

theorem length_without {k : String} {l : List (Node α)} (h : (keysOf kf l).Nodup) :
    (without kf k l).length + (keysOf kf l).count k = l.length := by
  induction l with
  | nil => simp
  | cons n l ih =>
    simp only [keysOf_cons, List.nodup_cons] at h
    rw [without_cons]
    by_cases e : kf n.item = k
    · subst e
      rw [if_pos rfl, keysOf_cons, List.count_cons_self, without_eq_self kf h.1,
        List.count_eq_zero_of_not_mem h.1]
      simp
    · rw [if_neg e, keysOf_cons, List.count_cons_of_ne (Ne.symm e)]
      simp only [List.length_cons]
      have := ih h.2
      omega

/-- Looking a key up in the map of a list. -/
theorem find_entriesOf_none {k : String} {l : List (Node α)} :
    UMap.find (entriesOf kf l) k = none ↔ k ∉ keysOf kf l := by
  induction l with
  | nil => simp
  | cons n l ih =>
    simp only [entriesOf_cons, umap_find_cons, keysOf_cons, List.mem_cons, not_or]
    by_cases e : kf n.item = k
    · simp [e]
    · simp [e, ih, Ne.symm e]

theorem erase_entriesOf (k : String) (l : List (Node α)) :
    UMap.erase (entriesOf kf l) k = entriesOf kf (without kf k l) := by
  induction l with
  | nil => rfl
  | cons n l ih =>
    rw [without_cons]
    by_cases e : kf n.item = k
    · rw [if_pos e, ← ih, entriesOf_cons, umap_erase_cons, if_pos e]
    · rw [if_neg e, entriesOf_cons, entriesOf_cons, ← ih, umap_erase_cons, if_neg e]

theorem assign_entriesOf {k : String} {l : List (Node α)} (h : k ∉ keysOf kf l) (n : Node α)
    (hn : kf n.item = k) :
    UMap.assign (entriesOf kf l) k n.id = entriesOf kf (l ++ [n]) := by
  rw [UMap.assign, erase_entriesOf, without_eq_self kf h]
  simp [hn]

/-- An iterator found in the map of a list refers to the one node with that
key, and erasing it removes that node. -/
theorem find_entriesOf_some {k : String} {l : List (Node α)} {i : Nat}
    (hk : (keysOf kf l).Nodup) (hi : (idsOf l).Nodup)
    (h : UMap.find (entriesOf kf l) k = some i) :
    ∃ x, StdList.deref l i = some x ∧ kf x = k ∧ (⟨i, x⟩ : Node α) ∈ l ∧
      StdList.erase l i = some (without kf k l) := by
  induction l with
  | nil => simp at h
  | cons n l ih =>
    simp only [keysOf_cons, List.nodup_cons] at hk
    simp only [idsOf_cons, List.nodup_cons] at hi
    simp only [entriesOf_cons, umap_find_cons] at h
    by_cases e : kf n.item = k
    · rw [if_pos e] at h
      simp only [Option.some.injEq] at h
      refine ⟨n.item, ?_, e, ?_, ?_⟩
      · simp [deref_cons, h]
      · rw [← h]; exact List.mem_cons_self _ _
      · rw [without_cons, if_pos e, without_eq_self kf (e ▸ hk.1)]
        simp [erase_cons, h]
    · rw [if_neg e] at h
      obtain ⟨x, hx1, hx2, hx3, hx4⟩ := ih hk.2 hi.2 h
      have hne : n.id ≠ i := by
        intro hid
        apply hi.1
        rw [hid]
        exact List.mem_map.2 ⟨_, hx3, rfl⟩
      refine ⟨x, ?_, hx2, List.mem_cons_of_mem _ hx3, ?_⟩
      · simp [deref_cons, hne, hx1]
      · rw [without_cons, if_neg e]
        simp [erase_cons, hne, hx4]

end LinkedLemmas

section LinkedLemmas2

variable {α : Type} (kf : α → String)

theorem ListOK.nil (fresh : Nat) : ListOK kf ([] : List (Node α)) [] fresh :=
  ⟨rfl, List.nodup_nil, by simp⟩

theorem ListOK.mono {l : List (Node α)} {m : UMap Nat} {f g : Nat} (h : ListOK kf l m f)
    (hfg : f ≤ g) : ListOK kf l m g :=
  ⟨h.map_eq, h.ids_nodup, fun n hn => Nat.lt_of_lt_of_le (h.ids_lt n hn) hfg⟩

theorem ListOK.drop {l : List (Node α)} {m : UMap Nat} {f : Nat} (h : ListOK kf l m f)
    (k : String) : ListOK kf (without kf k l) (UMap.erase m k) f := by
  refine ⟨?_, ?_, ?_⟩
  · rw [h.map_eq, erase_entriesOf]
  · exact h.ids_nodup.sublist ((without_sublist kf k l).map _)
  · intro n hn
    exact h.ids_lt n ((mem_without kf).1 hn).1

theorem ListOK.push {l : List (Node α)} {m : UMap Nat} {f : Nat} (h : ListOK kf l m f)
    {k : String} (hk : k ∉ keysOf kf l) (x : α) (hx : kf x = k) :
    ListOK kf (l ++ [⟨f, x⟩]) (UMap.assign m k f) (f + 1) := by
  refine ⟨?_, ?_, ?_⟩
  · rw [h.map_eq]
    exact assign_entriesOf kf hk ⟨f, x⟩ hx
  · rw [idsOf_append, List.nodup_append]
    refine ⟨h.ids_nodup, by simp [idsOf], ?_⟩
    intro a ha hb
    simp only [idsOf, List.map_cons, List.map_nil, List.mem_singleton] at hb
    obtain ⟨n, hn, rfl⟩ := List.mem_map.1 ha
    have := h.ids_lt n hn
    omega
  · intro n hn
    rcases List.mem_append.1 hn with hn | hn
    · have := h.ids_lt n hn
      omega
    · simp only [List.mem_singleton] at hn
      subst hn
      exact Nat.lt_succ_self _

end LinkedLemmas2

namespace ARCCache

variable {T : Type}

theorem arc_wf_new (cap : Nat) : WF (new cap : ARCCache T) := by
  refine ⟨ListOK.nil _ _, ListOK.nil _ _, ListOK.nil _ _, ListOK.nil _ _, ?_, ?_, ?_, ?_, ?_⟩ <;>
    simp [new, occ]

theorem arc_nodup1 {s : ARCCache T} (h : WF s) : (keysOf ARCItem.key s.t1).Nodup := by
  rw [List.nodup_iff_count_le_one]
  intro a
  have := h.uniq a
  unfold occ at this
  omega

theorem arc_nodup2 {s : ARCCache T} (h : WF s) : (keysOf ARCItem.key s.t2).Nodup := by
  rw [List.nodup_iff_count_le_one]
  intro a
  have := h.uniq a
  unfold occ at this
  omega

theorem arc_nodupb1 {s : ARCCache T} (h : WF s) : (keysOf ARCItem.key s.b1).Nodup := by
  rw [List.nodup_iff_count_le_one]
  intro a
  have := h.uniq a
  unfold occ at this
  omega

theorem arc_nodupb2 {s : ARCCache T} (h : WF s) : (keysOf ARCItem.key s.b2).Nodup := by
  rw [List.nodup_iff_count_le_one]
  intro a
  have := h.uniq a
  unfold occ at this
  omega

theorem arc_wf_setP {s : ARCCache T} (h : WF s) (q : Nat) : WF { s with p := q } :=
  ⟨h.ok1, h.ok2, h.okb1, h.okb2, h.uniq, h.live1, h.live2, h.ghost1, h.ghost2⟩

theorem arc_wf_dropT1 {s : ARCCache T} (h : WF s) (k : String) : WF (dropT1 s k) := by
  refine ⟨h.ok1.drop _ k, h.ok2, h.okb1, h.okb2, ?_, ?_, h.live2, h.ghost1, h.ghost2⟩
  · intro a
    have := h.uniq a
    simp only [occ, dropT1, count_keysOf_without] at this ⊢
    split_ifs <;> omega
  · intro n hn
    exact h.live1 n ((mem_without _).1 hn).1

theorem arc_wf_dropT2 {s : ARCCache T} (h : WF s) (k : String) : WF (dropT2 s k) := by
  refine ⟨h.ok1, h.ok2.drop _ k, h.okb1, h.okb2, ?_, h.live1, ?_, h.ghost1, h.ghost2⟩
  · intro a
    have := h.uniq a
    simp only [occ, dropT2, count_keysOf_without] at this ⊢
    split_ifs <;> omega
  · intro n hn
    exact h.live2 n ((mem_without _).1 hn).1

theorem arc_wf_dropB1 {s : ARCCache T} (h : WF s) (k : String) : WF (dropB1 s k) := by
  refine ⟨h.ok1, h.ok2, h.okb1.drop _ k, h.okb2, ?_, h.live1, h.live2, ?_, h.ghost2⟩
  · intro a
    have := h.uniq a
    simp only [occ, dropB1, count_keysOf_without] at this ⊢
    split_ifs <;> omega
  · intro n hn
    exact h.ghost1 n ((mem_without _).1 hn).1

theorem arc_wf_dropB2 {s : ARCCache T} (h : WF s) (k : String) : WF (dropB2 s k) := by
  refine ⟨h.ok1, h.ok2, h.okb1, h.okb2.drop _ k, ?_, h.live1, h.live2, h.ghost1, ?_⟩
  · intro a
    have := h.uniq a
    simp only [occ, dropB2, count_keysOf_without] at this ⊢
    split_ifs <;> omega
  · intro n hn
    exact h.ghost2 n ((mem_without _).1 hn).1

theorem arc_occ_zero {s : ARCCache T} {k : String} (h : occ s k = 0) :
    k ∉ keysOf ARCItem.key s.t1 ∧ k ∉ keysOf ARCItem.key s.t2 ∧
      k ∉ keysOf ARCItem.key s.b1 ∧ k ∉ keysOf ARCItem.key s.b2 := by
  unfold occ at h
  refine ⟨?_, ?_, ?_, ?_⟩ <;> apply List.count_eq_zero.1 <;> omega

theorem arc_wf_pushT1 {s : ARCCache T} (h : WF s) {k : String} (hk : occ s k = 0)
    (x : ARCItem T) (hx : x.key = k) (hg : x.is_ghost = false) : WF (pushT1 s k x) := by
  obtain ⟨h1, -, -, -⟩ := arc_occ_zero hk
  refine ⟨h.ok1.push _ h1 x hx, h.ok2.mono _ (Nat.le_succ _), h.okb1.mono _ (Nat.le_succ _),
    h.okb2.mono _ (Nat.le_succ _), ?_, ?_, h.live2, h.ghost1, h.ghost2⟩
  · intro a
    have := h.uniq a
    simp only [occ, pushT1, keysOf_append, List.count_append, keysOf_cons, keysOf_nil,
      List.count_cons, List.count_nil] at this hk ⊢
    by_cases e : x.key = a
    · subst hx; subst e; simp; omega
    · simp [e]; omega
  · intro n hn
    rcases List.mem_append.1 hn with hn | hn
    · exact h.live1 n hn
    · simp only [List.mem_singleton] at hn
      subst hn
      exact hg

theorem arc_wf_pushT2 {s : ARCCache T} (h : WF s) {k : String} (hk : occ s k = 0)
    (x : ARCItem T) (hx : x.key = k) (hg : x.is_ghost = false) : WF (pushT2 s k x) := by
  obtain ⟨-, h2, -, -⟩ := arc_occ_zero hk
  refine ⟨h.ok1.mono _ (Nat.le_succ _), h.ok2.push _ h2 x hx, h.okb1.mono _ (Nat.le_succ _),
    h.okb2.mono _ (Nat.le_succ _), ?_, h.live1, ?_, h.ghost1, h.ghost2⟩
  · intro a
    have := h.uniq a
    simp only [occ, pushT2, keysOf_append, List.count_append, keysOf_cons, keysOf_nil,
      List.count_cons, List.count_nil] at this hk ⊢
    by_cases e : x.key = a
    · subst hx; subst e; simp; omega
    · simp [e]; omega
  · intro n hn
    rcases List.mem_append.1 hn with hn | hn
    · exact h.live2 n hn
    · simp only [List.mem_singleton] at hn
      subst hn
      exact hg

theorem arc_wf_pushB1 {s : ARCCache T} (h : WF s) (x : ARCItem T) (hk : occ s x.key = 0)
    (hg : x.is_ghost = true) : WF (pushB1 s x) := by
  obtain ⟨-, -, h3, -⟩ := arc_occ_zero hk
  refine ⟨h.ok1.mono _ (Nat.le_succ _), h.ok2.mono _ (Nat.le_succ _), h.okb1.push _ h3 x rfl,
    h.okb2.mono _ (Nat.le_succ _), ?_, h.live1, h.live2, ?_, h.ghost2⟩
  · intro a
    have := h.uniq a
    simp only [occ, pushB1, keysOf_append, List.count_append, keysOf_cons, keysOf_nil,
      List.count_cons, List.count_nil] at this hk ⊢
    by_cases e : x.key = a
    · subst e; simp; omega
    · simp [e]; omega
  · intro n hn
    rcases List.mem_append.1 hn with hn | hn
    · exact h.ghost1 n hn
    · simp only [List.mem_singleton] at hn
      subst hn
      exact hg

theorem arc_wf_pushB2 {s : ARCCache T} (h : WF s) (x : ARCItem T) (hk : occ s x.key = 0)
    (hg : x.is_ghost = true) : WF (pushB2 s x) := by
  obtain ⟨-, -, -, h4⟩ := arc_occ_zero hk
  refine ⟨h.ok1.mono _ (Nat.le_succ _), h.ok2.mono _ (Nat.le_succ _),
    h.okb1.mono _ (Nat.le_succ _), h.okb2.push _ h4 x rfl, ?_, h.live1, h.live2, h.ghost1, ?_⟩
  · intro a
    have := h.uniq a
    simp only [occ, pushB2, keysOf_append, List.count_append, keysOf_cons, keysOf_nil,
      List.count_cons, List.count_nil] at this hk ⊢
    by_cases e : x.key = a
    · subst e; simp; omega
    · simp [e]; omega
  · intro n hn
    rcases List.mem_append.1 hn with hn | hn
    · exact h.ghost2 n hn
    · simp only [List.mem_singleton] at hn
      subst hn
      exact hg

end ARCCache

section ValueLemmas

variable {α : Type} (kf : α → String)

@[simp] theorem itemOf_nil (k : String) : itemOf kf ([] : List (Node α)) k = none := rfl

theorem itemOf_cons (n : Node α) (l : List (Node α)) (k : String) :
    itemOf kf (n :: l) k = if kf n.item = k then some n.item else itemOf kf l k := rfl

theorem itemOf_eq_none {l : List (Node α)} {k : String} :
    itemOf kf l k = none ↔ k ∉ keysOf kf l := by
  induction l with
  | nil => simp
  | cons n l ih =>
    rw [itemOf_cons, keysOf_cons, List.mem_cons, not_or]
    by_cases e : kf n.item = k
    · simp [e]
    · simp [e, ih, Ne.symm e]

theorem itemOf_key {l : List (Node α)} {k : String} {x : α} (h : itemOf kf l k = some x) :
    kf x = k := by
  induction l with
  | nil => simp at h
  | cons n l ih =>
    rw [itemOf_cons] at h
    by_cases e : kf n.item = k
    · rw [if_pos e] at h
      cases h
      exact e
    · rw [if_neg e] at h
      exact ih h

theorem itemOf_without (l : List (Node α)) (k a : String) :
    itemOf kf (without kf k l) a = if a = k then none else itemOf kf l a := by
  induction l with
  | nil => simp
  | cons n l ih =>
    rw [without_cons]
    by_cases e : kf n.item = k
    · rw [if_pos e, ih, itemOf_cons]
      by_cases ha : a = k
      · simp [ha]
      · have : ¬ kf n.item = a := fun e2 => ha (e2 ▸ e)
        simp [ha, this]
    · rw [if_neg e, itemOf_cons, ih, itemOf_cons]
      by_cases ha : a = k
      · have : ¬ kf n.item = a := fun e2 => e (e2.trans ha)
        simp [ha, e]
      · simp [ha]

theorem itemOf_append (l : List (Node α)) (n : Node α) (a : String) :
    itemOf kf (l ++ [n]) a =
      match itemOf kf l a with
      | some x => some x
      | none => if kf n.item = a then some n.item else none := by
  induction l with
  | nil => simp [itemOf_cons]
  | cons m l ih =>
    rw [List.cons_append, itemOf_cons, itemOf_cons]
    by_cases e : kf m.item = a
    · simp [e]
    · simp [e, ih]

/-- The map finds the node of the first element with the key. -/
theorem find_some_of_itemOf {l : List (Node α)} {k : String} {x : α}
    (h : itemOf kf l k = some x) : ∃ i, UMap.find (entriesOf kf l) k = some i := by
  cases hf : UMap.find (entriesOf kf l) k with
  | some i => exact ⟨i, rfl⟩
  | none =>
    rw [find_entriesOf_none, ← itemOf_eq_none, h] at hf
    cases hf

theorem without_head {n : Node α} {l : List (Node α)} (h : (keysOf kf (n :: l)).Nodup) :
    without kf (kf n.item) (n :: l) = l := by
  rw [keysOf_cons, List.nodup_cons] at h
  rw [without_cons, if_pos rfl, without_eq_self kf h.1]

theorem count_keysOf_pos {l : List (Node α)} {k : String} {x : α}
    (h : itemOf kf l k = some x) : 1 ≤ (keysOf kf l).count k := by
  rw [List.one_le_count_iff]
  by_contra hc
  rw [← itemOf_eq_none, h] at hc
  cases hc

theorem itemOf_of_mem {l : List (Node α)} {n : Node α} (hk : (keysOf kf l).Nodup)
    (hn : n ∈ l) : itemOf kf l (kf n.item) = some n.item := by
  induction l with
  | nil => cases hn
  | cons m l ih =>
    simp only [keysOf_cons, List.nodup_cons] at hk
    rw [itemOf_cons]
    rcases List.mem_cons.1 hn with rfl | hn
    · simp
    · have : kf m.item ≠ kf n.item := by
        intro e
        apply hk.1
        rw [e]
        exact List.mem_map.2 ⟨n, hn, rfl⟩
      rw [if_neg this]
      exact ih hk.2 hn

theorem mem_of_itemOf {l : List (Node α)} {k : String} {x : α} (h : itemOf kf l k = some x) :
    ∃ i, (⟨i, x⟩ : Node α) ∈ l := by
  induction l with
  | nil => simp at h
  | cons n l ih =>
    rw [itemOf_cons] at h
    by_cases e : kf n.item = k
    · rw [if_pos e] at h
      cases h
      exact ⟨n.id, List.mem_cons_self _ _⟩
    · rw [if_neg e] at h
      obtain ⟨i, hi⟩ := ih h
      exact ⟨i, List.mem_cons_of_mem _ hi⟩

/-- With distinct keys and identities, the iterator found in the map refers
to the element found by key. -/
theorem find_entriesOf_itemOf {k : String} {l : List (Node α)} {i : Nat}
    (hk : (keysOf kf l).Nodup) (hi : (idsOf l).Nodup)
    (h : UMap.find (entriesOf kf l) k = some i) :
    ∃ x, itemOf kf l k = some x ∧ StdList.deref l i = some x ∧
      StdList.erase l i = some (without kf k l) := by
  obtain ⟨x, hx1, hx2, hx3, hx4⟩ := find_entriesOf_some kf hk hi h
  refine ⟨x, ?_, hx1, hx4⟩
  have := itemOf_of_mem kf hk hx3
  simpa [hx2] using this

end ValueLemmas

namespace ARCCache

variable {T : Type}

theorem arc_find1 {s : ARCCache T} (h : WF s) {k : String} {i : Nat}
    (hf : UMap.find s.t1_map k = some i) :
    ∃ x, itemOf ARCItem.key s.t1 k = some x ∧ StdList.deref s.t1 i = some x ∧
      StdList.erase s.t1 i = some (without ARCItem.key k s.t1) := by
  rw [h.ok1.map_eq] at hf
  exact find_entriesOf_itemOf _ (arc_nodup1 h) h.ok1.ids_nodup hf

theorem arc_find2 {s : ARCCache T} (h : WF s) {k : String} {i : Nat}
    (hf : UMap.find s.t2_map k = some i) :
    ∃ x, itemOf ARCItem.key s.t2 k = some x ∧ StdList.deref s.t2 i = some x ∧
      StdList.erase s.t2 i = some (without ARCItem.key k s.t2) := by
  rw [h.ok2.map_eq] at hf
  exact find_entriesOf_itemOf _ (arc_nodup2 h) h.ok2.ids_nodup hf

theorem arc_findb1 {s : ARCCache T} (h : WF s) {k : String} {i : Nat}
    (hf : UMap.find s.b1_map k = some i) :
    ∃ x, itemOf ARCItem.key s.b1 k = some x ∧ StdList.deref s.b1 i = some x ∧
      StdList.erase s.b1 i = some (without ARCItem.key k s.b1) := by
  rw [h.okb1.map_eq] at hf
  exact find_entriesOf_itemOf _ (arc_nodupb1 h) h.okb1.ids_nodup hf

theorem arc_findb2 {s : ARCCache T} (h : WF s) {k : String} {i : Nat}
    (hf : UMap.find s.b2_map k = some i) :
    ∃ x, itemOf ARCItem.key s.b2 k = some x ∧ StdList.deref s.b2 i = some x ∧
      StdList.erase s.b2 i = some (without ARCItem.key k s.b2) := by
  rw [h.okb2.map_eq] at hf
  exact find_entriesOf_itemOf _ (arc_nodupb2 h) h.okb2.ids_nodup hf

theorem arc_live_of_item {l : List (Node (ARCItem T))} {k : String} {x : ARCItem T} {b : Bool}
    (hl : ∀ n ∈ l, n.item.is_ghost = b) (hx : itemOf ARCItem.key l k = some x) :
    x.is_ghost = b := by
  obtain ⟨i, hi⟩ := mem_of_itemOf _ hx
  exact hl _ hi

theorem arc_getT2_hit {s : ARCCache T} (h : WF s) {k : String} {x : ARCItem T}
    (hx : itemOf ARCItem.key s.t2 k = some x) :
    getT2 s k = some (pushT2 (dropT2 s k) k x, some x.value) := by
  obtain ⟨i, hi⟩ := find_some_of_itemOf _ hx
  rw [← h.ok2.map_eq] at hi
  obtain ⟨y, hy1, hy2, hy3⟩ := arc_find2 h hi
  rw [hx] at hy1
  cases hy1
  have hg := arc_live_of_item h.live2 hx
  simp only [getT2, hi, hy2, hg, hy3, if_true]
  rfl

theorem arc_getT2_miss {s : ARCCache T} (h : WF s) {k : String}
    (hx : itemOf ARCItem.key s.t2 k = none) : getT2 s k = some (s, none) := by
  have : UMap.find s.t2_map k = none := by
    rw [h.ok2.map_eq, find_entriesOf_none, ← itemOf_eq_none]
    exact hx
  simp only [getT2, this]

theorem arc_get_hit1 {s : ARCCache T} (h : WF s) {k : String} {x : ARCItem T}
    (hx : itemOf ARCItem.key s.t1 k = some x) :
    get s k = some (pushT2 (dropT1 s k) k x, some x.value) := by
  obtain ⟨i, hi⟩ := find_some_of_itemOf _ hx
  rw [← h.ok1.map_eq] at hi
  obtain ⟨y, hy1, hy2, hy3⟩ := arc_find1 h hi
  rw [hx] at hy1
  cases hy1
  have hg := arc_live_of_item h.live1 hx
  simp only [get, hi, hy2, hg, hy3, if_true]
  rfl

theorem arc_get_hit2 {s : ARCCache T} (h : WF s) {k : String} {x : ARCItem T}
    (h1 : itemOf ARCItem.key s.t1 k = none) (hx : itemOf ARCItem.key s.t2 k = some x) :
    get s k = some (pushT2 (dropT2 s k) k x, some x.value) := by
  have : UMap.find s.t1_map k = none := by
    rw [h.ok1.map_eq, find_entriesOf_none, ← itemOf_eq_none]
    exact h1
  simp only [get, this]
  exact arc_getT2_hit h hx

theorem arc_get_miss {s : ARCCache T} (h : WF s) {k : String}
    (h1 : itemOf ARCItem.key s.t1 k = none) (h2 : itemOf ARCItem.key s.t2 k = none) :
    get s k = some (s, none) := by
  have : UMap.find s.t1_map k = none := by
    rw [h.ok1.map_eq, find_entriesOf_none, ← itemOf_eq_none]
    exact h1
  simp only [get, this]
  exact arc_getT2_miss h h2

end ARCCache

section MapLemmas

variable {α : Type}

theorem umap_find_erase (m : UMap α) (k a : String) :
    UMap.find (UMap.erase m k) a = if a = k then none else UMap.find m a := by
  induction m with
  | nil => simp
  | cons e m ih =>
    rw [umap_erase_cons]
    by_cases h : e.1 = k
    · rw [if_pos h, ih, umap_find_cons]
      by_cases ha : a = k
      · simp [ha]
      · have : ¬ e.1 = a := fun e2 => ha (e2 ▸ h)
        simp [ha, this]
    · rw [if_neg h, umap_find_cons, ih, umap_find_cons]
      by_cases ha : a = k
      · simp [ha, h]
      · simp [ha]

theorem umap_find_append (m : UMap α) (k : String) (v : α) (a : String) :
    UMap.find (m ++ [(k, v)]) a =
      match UMap.find m a with
      | some w => some w
      | none => if k = a then some v else none := by
  induction m with
  | nil => simp [umap_find_cons]
  | cons e m ih =>
    rw [List.cons_append, umap_find_cons, umap_find_cons]
    by_cases h : e.1 = a
    · simp [h]
    · simp [h, ih]

theorem umap_find_assign (m : UMap α) (k : String) (v : α) (a : String) :
    UMap.find (UMap.assign m k v) a = if a = k then some v else UMap.find m a := by
  rw [UMap.assign, umap_find_append, umap_find_erase]
  by_cases h : a = k
  · simp [h]
  · have : ¬ k = a := fun e => h e.symm
    simp only [h, this, if_false]
    cases UMap.find m a <;> rfl

end MapLemmas

namespace ARCCache

variable {T : Type}

theorem arc_popT1_cons {s : ARCCache T} (h : WF s) {n : Node (ARCItem T)}
    {rest : List (Node (ARCItem T))} (e : s.t1 = n :: rest) :
    popT1 s = some (n.item, dropT1 s n.item.key) ∧ (dropT1 s n.item.key).t1 = rest := by
  have hn := arc_nodup1 h
  rw [e] at hn
  have hw := without_head ARCItem.key hn
  constructor
  · simp only [popT1, e, StdList.front, StdList.pop_front, dropT1, hw]
  · simp only [dropT1, e, hw]

theorem arc_popT2_cons {s : ARCCache T} (h : WF s) {n : Node (ARCItem T)}
    {rest : List (Node (ARCItem T))} (e : s.t2 = n :: rest) :
    popT2 s = some (n.item, dropT2 s n.item.key) ∧ (dropT2 s n.item.key).t2 = rest := by
  have hn := arc_nodup2 h
  rw [e] at hn
  have hw := without_head ARCItem.key hn
  constructor
  · simp only [popT2, e, StdList.front, StdList.pop_front, dropT2, hw]
  · simp only [dropT2, e, hw]

theorem arc_popB1_cons {s : ARCCache T} (h : WF s) {n : Node (ARCItem T)}
    {rest : List (Node (ARCItem T))} (e : s.b1 = n :: rest) :
    popB1 s = some (n.item, dropB1 s n.item.key) ∧ (dropB1 s n.item.key).b1 = rest := by
  have hn := arc_nodupb1 h
  rw [e] at hn
  have hw := without_head ARCItem.key hn
  constructor
  · simp only [popB1, e, StdList.front, StdList.pop_front, dropB1, hw]
  · simp only [dropB1, e, hw]

theorem arc_popB2_cons {s : ARCCache T} (h : WF s) {n : Node (ARCItem T)}
    {rest : List (Node (ARCItem T))} (e : s.b2 = n :: rest) :
    popB2 s = some (n.item, dropB2 s n.item.key) ∧ (dropB2 s n.item.key).b2 = rest := by
  have hn := arc_nodupb2 h
  rw [e] at hn
  have hw := without_head ARCItem.key hn
  constructor
  · simp only [popB2, e, StdList.front, StdList.pop_front, dropB2, hw]
  · simp only [dropB2, e, hw]

theorem arc_evicted_t1 {s : ARCCache T} (h : WF s) {n : Node (ARCItem T)}
    {rest : List (Node (ARCItem T))} (e : s.t1 = n :: rest) :
    Evicted s (pushB1 (dropT1 s n.item.key) { n.item with is_ghost := true }) n.item.key := by
  have hu := h.uniq n.item.key
  have hc1 : (keysOf ARCItem.key s.t1).count n.item.key = 1 := by
    have : 1 ≤ (keysOf ARCItem.key s.t1).count n.item.key := by
      rw [e]; simp
    unfold occ at hu
    omega
  have hn := arc_nodup1 h
  have hlen := length_without ARCItem.key (k := n.item.key) hn
  have hocc : occ (dropT1 s n.item.key) n.item.key = 0 := by
    unfold occ at hu ⊢
    simp only [dropT1, count_keysOf_without, if_true]
    omega
  have h2none : itemOf ARCItem.key s.t2 n.item.key = none := by
    rw [itemOf_eq_none, ← List.count_eq_zero]
    unfold occ at hu
    omega
  refine ⟨arc_wf_pushB1 (arc_wf_dropT1 h _) _ hocc rfl, rfl, rfl, ?_, ?_, ?_, ?_, ?_, ?_, ?_, ?_,
    ?_, ?_, ?_, ?_⟩
  · simp only [pushB1, dropT1]; omega
  · simp only [pushB1, dropT1, List.length_append, List.length_singleton]; omega
  · simp only [pushB1, dropT1, List.length_append, List.length_singleton]; omega
  · simp only [pushB1, dropT1]; omega
  · unfold occ at hu; omega
  · intro a ha
    simp only [pushB1, dropT1, count_keysOf_without, if_neg ha]
  · intro a ha
    simp only [pushB1, dropT1]
  · intro a ha
    simp only [pushB1, dropT1, keysOf_append, List.count_append, keysOf_cons, keysOf_nil]
    rw [List.count_singleton, if_neg (by simpa using Ne.symm ha)]
    rfl
  · intro a ha
    simp only [pushB1, dropT1]
  · intro a ha
    simp only [pushB1, dropT1, umap_find_assign, if_neg ha]
  · intro a ha
    simp only [pushB1, dropT1]
  · intro a
    simp only [liveVal, liveItem, pushB1, dropT1, itemOf_without]
    by_cases ha : a = n.item.key
    · subst ha
      simp [h2none]
    · simp [ha]

theorem arc_evicted_t2 {s : ARCCache T} (h : WF s) {n : Node (ARCItem T)}
    {rest : List (Node (ARCItem T))} (e : s.t2 = n :: rest) :
    Evicted s (pushB2 (dropT2 s n.item.key) { n.item with is_ghost := true }) n.item.key := by
  have hu := h.uniq n.item.key
  have hc1 : (keysOf ARCItem.key s.t2).count n.item.key = 1 := by
    have : 1 ≤ (keysOf ARCItem.key s.t2).count n.item.key := by
      rw [e]; simp
    unfold occ at hu
    omega
  have hn := arc_nodup2 h
  have hlen := length_without ARCItem.key (k := n.item.key) hn
  have hocc : occ (dropT2 s n.item.key) n.item.key = 0 := by
    unfold occ at hu ⊢
    simp only [dropT2, count_keysOf_without, if_true]
    omega
  have h1none : itemOf ARCItem.key s.t1 n.item.key = none := by
    rw [itemOf_eq_none, ← List.count_eq_zero]
    unfold occ at hu
    omega
  refine ⟨arc_wf_pushB2 (arc_wf_dropT2 h _) _ hocc rfl, rfl, rfl, ?_, ?_, ?_, ?_, ?_, ?_, ?_, ?_,
    ?_, ?_, ?_, ?_⟩
  · simp only [pushB2, dropT2]; omega
  · simp only [pushB2, dropT2]
  · simp only [pushB2, dropT2, List.length_append, List.length_singleton]; omega
  · simp only [pushB2, dropT2]; omega
  · unfold occ at hu; omega
  · intro a ha
    simp only [pushB2, dropT2]
  · intro a ha
    simp only [pushB2, dropT2, count_keysOf_without, if_neg ha]
  · intro a ha
    simp only [pushB2, dropT2]
  · intro a ha
    simp only [pushB2, dropT2, keysOf_append, List.count_append, keysOf_cons, keysOf_nil]
    rw [List.count_singleton, if_neg (by simpa using Ne.symm ha)]
    rfl
  · intro a ha
    simp only [pushB2, dropT2]
  · intro a ha
    simp only [pushB2, dropT2, umap_find_assign, if_neg ha]
  · intro a
    simp only [liveVal, liveItem, pushB2, dropT2, itemOf_without, h1none]
    by_cases ha : a = n.item.key
    · subst ha
      simp [h1none]
    · simp [ha]

/-- The three outcomes of `replace`. -/
theorem arc_replace_cases {s : ARCCache T} (h : WF s) (b : Bool) :
    (∃ n rest, s.t1 = n :: rest ∧ (s.t1.length > s.p ∨ (b = true ∧ s.t1.length = s.p)) ∧
      replace s b = some (pushB1 (dropT1 s n.item.key) { n.item with is_ghost := true })) ∨
    (∃ n rest, s.t2 = n :: rest ∧
      ¬ (s.t1 ≠ [] ∧ (s.t1.length > s.p ∨ (b = true ∧ s.t1.length = s.p))) ∧
      replace s b = some (pushB2 (dropT2 s n.item.key) { n.item with is_ghost := true })) ∨
    (s.t2 = [] ∧ ¬ (s.t1 ≠ [] ∧ (s.t1.length > s.p ∨ (b = true ∧ s.t1.length = s.p))) ∧
      replace s b = some s) := by
  by_cases hA : s.t1 ≠ [] ∧ (s.t1.length > s.p ∨ (b = true ∧ s.t1.length = s.p))
  · left
    obtain ⟨n, rest, e⟩ := List.exists_cons_of_ne_nil hA.1
    refine ⟨n, rest, e, hA.2, ?_⟩
    have hg : n.item.is_ghost = false := h.live1 n (by rw [e]; exact List.mem_cons_self _ _)
    have hc : s.t1.isEmpty = false ∧ (s.t1.length > s.p ∨ (b = true ∧ s.t1.length = s.p)) :=
      ⟨by rw [e]; rfl, hA.2⟩
    rw [replace, if_pos hc, (arc_popT1_cons h e).1]
    simp only [hg, if_true]
  · right
    have hc : ¬ (s.t1.isEmpty = false ∧
        (s.t1.length > s.p ∨ (b = true ∧ s.t1.length = s.p))) := by
      intro hc
      apply hA
      refine ⟨?_, hc.2⟩
      intro e
      rw [e] at hc
      simp at hc
    cases e2 : s.t2 with
    | nil =>
      right
      refine ⟨rfl, hA, ?_⟩
      rw [replace, if_neg hc, if_neg (by rw [e2]; simp)]
    | cons n rest =>
      left
      refine ⟨n, rest, rfl, hA, ?_⟩
      have hg : n.item.is_ghost = false := h.live2 n (by rw [e2]; exact List.mem_cons_self _ _)
      rw [replace, if_neg hc, if_pos (by rw [e2]; rfl), (arc_popT2_cons h e2).1]
      simp only [hg, if_true]

theorem arc_replace_evicts {s : ARCCache T} (h : WF s) (b : Bool)
    (hx : s.t2 ≠ [] ∨ (s.t1 ≠ [] ∧ (s.t1.length > s.p ∨ (b = true ∧ s.t1.length = s.p)))) :
    ∃ s1 k0, replace s b = some s1 ∧ Evicted s s1 k0 := by
  rcases arc_replace_cases h b with ⟨n, rest, e, -, hr⟩ | ⟨n, rest, e, -, hr⟩ | ⟨e, hA, -⟩
  · exact ⟨_, _, hr, arc_evicted_t1 h e⟩
  · exact ⟨_, _, hr, arc_evicted_t2 h e⟩
  · rcases hx with hx | hx
    · exact absurd e hx
    · exact absurd hx hA

end ARCCache

namespace ARCCache

variable {T : Type}

theorem arc_trimmed_trans {s s2 : ARCCache T} (s1 : ARCCache T) (h1 : s1.t1 = s.t1) (h2 : s1.t2 = s.t2)
    (h3 : s1.t1_map = s.t1_map) (h4 : s1.t2_map = s.t2_map) (h5 : s1.p = s.p)
    (h6 : s1.capacity = s.capacity) (h7 : s1.fresh = s.fresh) (h8 : s1.b1 <:+ s.b1)
    (h9 : s1.b2 <:+ s.b2) (h10 : s.capacity ≤ s.b1.length + s.b2.length)
    (ht : Trimmed s1 s2) : Trimmed s s2 :=
  { wf := ht.wf
    t1_eq := ht.t1_eq.trans h1
    t2_eq := ht.t2_eq.trans h2
    t1_map_eq := ht.t1_map_eq.trans h3
    t2_map_eq := ht.t2_map_eq.trans h4
    p_eq := ht.p_eq.trans h5
    cap_eq := ht.cap_eq.trans h6
    fresh_eq := ht.fresh_eq.trans h7
    b1_suffix := ht.b1_suffix.trans h8
    b2_suffix := ht.b2_suffix.trans h9
    lt := h6 ▸ ht.lt
    same := fun hlt => absurd hlt (Nat.not_lt.2 h10) }

theorem arc_removeGhostLoop_spec (fuel : Nat) :
    ∀ s : ARCCache T, WF s → 1 ≤ s.capacity → s.b1.length + s.b2.length < fuel →
      ∃ s1, removeGhostLoop fuel s = some s1 ∧ Trimmed s s1 := by
  induction fuel with
  | zero => intro s _ _ h; omega
  | succ fuel ih =>
    intro s h hcap hfuel
    by_cases hc : s.b1.length + s.b2.length ≥ s.capacity
    · by_cases hB : s.b1.isEmpty = false ∧ (s.b1.length > s.b2.length ∨
          (s.b1.length = s.b2.length ∧ s.b2.isEmpty = false))
      · cases e : s.b1 with
        | nil => rw [e] at hB; simp at hB
        | cons n rest =>
          obtain ⟨hp, hr⟩ := arc_popB1_cons h e
          have hlen : (dropB1 s n.item.key).b1.length + (dropB1 s n.item.key).b2.length < fuel := by
            rw [hr]
            have : (dropB1 s n.item.key).b2 = s.b2 := rfl
            rw [this]
            rw [e] at hfuel
            simp only [List.length_cons] at hfuel
            omega
          obtain ⟨s1, hs1, ht⟩ := ih (dropB1 s n.item.key) (arc_wf_dropB1 h _) hcap hlen
          refine ⟨s1, ?_, ?_⟩
          · rw [removeGhostLoop, if_pos hc, if_pos hB, hp]
            exact hs1
          · refine arc_trimmed_trans (dropB1 s n.item.key) rfl rfl rfl rfl rfl rfl rfl ?_ ?_ hc ht
            · rw [hr, e]; exact List.suffix_cons _ _
            · exact List.suffix_refl _
      · by_cases hB2 : s.b2.isEmpty = false
        · cases e : s.b2 with
          | nil => rw [e] at hB2; simp at hB2
          | cons n rest =>
            obtain ⟨hp, hr⟩ := arc_popB2_cons h e
            have hlen :
                (dropB2 s n.item.key).b1.length + (dropB2 s n.item.key).b2.length < fuel := by
              rw [hr]
              have : (dropB2 s n.item.key).b1 = s.b1 := rfl
              rw [this]
              rw [e] at hfuel
              simp only [List.length_cons] at hfuel
              omega
            obtain ⟨s1, hs1, ht⟩ := ih (dropB2 s n.item.key) (arc_wf_dropB2 h _) hcap hlen
            refine ⟨s1, ?_, ?_⟩
            · rw [removeGhostLoop, if_pos hc, if_neg hB, if_pos hB2, hp]
              exact hs1
            · refine arc_trimmed_trans (dropB2 s n.item.key) rfl rfl rfl rfl rfl rfl rfl ?_ ?_ hc ht
              · exact List.suffix_refl _
              · rw [hr, e]; exact List.suffix_cons _ _
        · exfalso
          have e2 : s.b2 = [] := by
            cases e : s.b2 with
            | nil => rfl
            | cons n rest => rw [e] at hB2; simp at hB2
          have e1 : s.b1 = [] := by
            cases e : s.b1 with
            | nil => rfl
            | cons n rest =>
              apply absurd _ hB
              rw [e, e2]
              simp
          rw [e1, e2] at hc
          simp at hc
          omega
    · refine ⟨s, ?_, ?_⟩
      · rw [removeGhostLoop, if_neg hc]
      · exact ⟨h, rfl, rfl, rfl, rfl, rfl, rfl, rfl, List.suffix_refl _, List.suffix_refl _,
          Nat.lt_of_not_le hc, fun _ => rfl⟩

theorem arc_removeGhostEntries_spec {s : ARCCache T} (h : WF s) (hcap : 1 ≤ s.capacity) :
    ∃ s1, removeGhostEntries s = some s1 ∧ Trimmed s s1 :=
  arc_removeGhostLoop_spec _ s h hcap (Nat.lt_succ_self _)

theorem arc_count_suffix {l1 l : List (Node (ARCItem T))} (h : l1 <:+ l) (a : String) :
    (keysOf ARCItem.key l1).count a ≤ (keysOf ARCItem.key l).count a :=
  (h.sublist.map _).count_le a

theorem arc_liveVal_congr {s s1 : ARCCache T} (h1 : s1.t1 = s.t1) (h2 : s1.t2 = s.t2)
    (a : String) : liveVal s1 a = liveVal s a := by
  simp only [liveVal, liveItem, h1, h2]

theorem arc_liveVal_none {s : ARCCache T} {k : String}
    (h1 : (keysOf ARCItem.key s.t1).count k = 0) (h2 : (keysOf ARCItem.key s.t2).count k = 0) :
    liveVal s k = none := by
  rw [List.count_eq_zero, ← itemOf_eq_none] at h1 h2
  simp only [liveVal, liveItem, h1, h2, Option.map_none']

theorem arc_liveVal_pushT2 {s : ARCCache T} {k : String} {x : ARCItem T} (hx : x.key = k)
    (h1 : (keysOf ARCItem.key s.t1).count k = 0) (h2 : (keysOf ARCItem.key s.t2).count k = 0)
    (a : String) : liveVal (pushT2 s k x) a = if a = k then some x.value else liveVal s a := by
  rw [List.count_eq_zero, ← itemOf_eq_none] at h1 h2
  simp only [liveVal, liveItem, pushT2, itemOf_append]
  by_cases ha : a = k
  · subst ha
    simp [h1, h2, hx]
  · have : ¬ x.key = a := fun e => ha (e.symm.trans hx)
    rw [if_neg ha, if_neg this]
    cases itemOf ARCItem.key s.t1 a <;> cases itemOf ARCItem.key s.t2 a <;> rfl

theorem arc_liveVal_pushT1 {s : ARCCache T} {k : String} {x : ARCItem T} (hx : x.key = k)
    (h1 : (keysOf ARCItem.key s.t1).count k = 0) (h2 : (keysOf ARCItem.key s.t2).count k = 0)
    (a : String) : liveVal (pushT1 s k x) a = if a = k then some x.value else liveVal s a := by
  rw [List.count_eq_zero, ← itemOf_eq_none] at h1 h2
  simp only [liveVal, liveItem, pushT1, itemOf_append]
  by_cases ha : a = k
  · subst ha
    simp [h1, hx]
  · have : ¬ x.key = a := fun e => ha (e.symm.trans hx)
    rw [if_neg ha, if_neg this]
    cases itemOf ARCItem.key s.t1 a <;> cases itemOf ARCItem.key s.t2 a <;> rfl

theorem arc_liveVal_dropT1 {s : ARCCache T} {k : String}
    (h2 : (keysOf ARCItem.key s.t2).count k = 0) (a : String) :
    liveVal (dropT1 s k) a = if a = k then none else liveVal s a := by
  rw [List.count_eq_zero, ← itemOf_eq_none] at h2
  simp only [liveVal, liveItem, dropT1, itemOf_without]
  by_cases ha : a = k
  · subst ha
    simp [h2]
  · simp [ha]

theorem arc_liveVal_dropT2 {s : ARCCache T} {k : String}
    (h1 : (keysOf ARCItem.key s.t1).count k = 0) (a : String) :
    liveVal (dropT2 s k) a = if a = k then none else liveVal s a := by
  rw [List.count_eq_zero, ← itemOf_eq_none] at h1
  simp only [liveVal, liveItem, dropT2, itemOf_without]
  by_cases ha : a = k
  · subst ha
    simp [h1]
  · simp [ha]

theorem arc_liveVal_item1 {s : ARCCache T} {k : String} {x : ARCItem T}
    (h : itemOf ARCItem.key s.t1 k = some x) : liveVal s k = some x.value := by
  simp only [liveVal, liveItem, h, Option.map_some']

theorem arc_liveVal_item2 {s : ARCCache T} {k : String} {x : ARCItem T}
    (h1 : itemOf ARCItem.key s.t1 k = none) (h : itemOf ARCItem.key s.t2 k = some x) :
    liveVal s k = some x.value := by
  simp only [liveVal, liveItem, h1, h, Option.map_some']

theorem arc_size_eq {s : ARCCache T} (h : WF s) : size s = s.t1.length + s.t2.length := by
  simp only [size, UMap.size, h.ok1.map_eq, h.ok2.map_eq, length_entriesOf]

theorem arc_getok_hit1 {s : ARCCache T} (h : WF s) (hb : Bounds s) {k : String}
    {x : ARCItem T} (hx : itemOf ARCItem.key s.t1 k = some x) :
    GetOK s (pushT2 (dropT1 s k) k x) := by
  have hu := h.uniq k
  have hc := count_keysOf_pos _ hx
  unfold occ at hu
  have hocc : occ (dropT1 s k) k = 0 := by
    simp only [occ, dropT1, count_keysOf_without, if_true]
    omega
  have hlen := length_without ARCItem.key (k := k) (arc_nodup1 h)
  have hkey := itemOf_key _ hx
  have hg := arc_live_of_item h.live1 hx
  refine ⟨arc_wf_pushT2 (arc_wf_dropT1 h k) hocc x hkey hg, ?_, rfl, ?_, ?_⟩
  · obtain ⟨b1, b2, b3, b4, b5, b6⟩ := hb
    constructor <;>
      simp only [pushT2, dropT1, List.length_append, List.length_singleton] <;> omega
  · intro a
    rw [arc_liveVal_pushT2 hkey (by simp [dropT1, count_keysOf_without])
      (by simp only [dropT1]; omega), arc_liveVal_dropT1 (by omega)]
    by_cases ha : a = k
    · subst ha
      simp [arc_liveVal_item1 hx]
    · simp [ha]
  · simp only [pushT2, dropT1, List.length_append, List.length_singleton]
    omega

theorem arc_getok_hit2 {s : ARCCache T} (h : WF s) (hb : Bounds s) {k : String}
    {x : ARCItem T} (h1 : itemOf ARCItem.key s.t1 k = none)
    (hx : itemOf ARCItem.key s.t2 k = some x) :
    GetOK s (pushT2 (dropT2 s k) k x) := by
  have hu := h.uniq k
  have hc := count_keysOf_pos _ hx
  unfold occ at hu
  have hocc : occ (dropT2 s k) k = 0 := by
    simp only [occ, dropT2, count_keysOf_without, if_true]
    omega
  have hlen := length_without ARCItem.key (k := k) (arc_nodup2 h)
  have hkey := itemOf_key _ hx
  have hg := arc_live_of_item h.live2 hx
  refine ⟨arc_wf_pushT2 (arc_wf_dropT2 h k) hocc x hkey hg, ?_, rfl, ?_, ?_⟩
  · obtain ⟨b1, b2, b3, b4, b5, b6⟩ := hb
    constructor <;>
      simp only [pushT2, dropT2, List.length_append, List.length_singleton] <;> omega
  · intro a
    rw [arc_liveVal_pushT2 hkey (by simp only [dropT2]; omega)
      (by simp [dropT2, count_keysOf_without]), arc_liveVal_dropT2 (by omega)]
    by_cases ha : a = k
    · subst ha
      simp [arc_liveVal_item2 h1 hx]
    · simp [ha]
  · simp only [pushT2, dropT2, List.length_append, List.length_singleton]
    omega

/-- The effect of `get` on a state that satisfies the invariants. -/
theorem arc_get_ok {s : ARCCache T} (h : WF s) (hb : Bounds s) (k : String) :
    ∃ s1, get s k = some (s1, liveVal s k) ∧ GetOK s s1 ∧ (liveVal s k = none → s1 = s) := by
  cases h1 : itemOf ARCItem.key s.t1 k with
  | some x =>
    refine ⟨_, ?_, arc_getok_hit1 h hb h1, ?_⟩
    · rw [arc_get_hit1 h h1, arc_liveVal_item1 h1]
    · rw [arc_liveVal_item1 h1]; intro e; cases e
  | none =>
    cases h2 : itemOf ARCItem.key s.t2 k with
    | some x =>
      refine ⟨_, ?_, arc_getok_hit2 h hb h1 h2, ?_⟩
      · rw [arc_get_hit2 h h1 h2, arc_liveVal_item2 h1 h2]
      · rw [arc_liveVal_item2 h1 h2]; intro e; cases e
    | none =>
      refine ⟨s, ?_, ⟨h, hb, rfl, fun _ => rfl, rfl⟩, fun _ => rfl⟩
      rw [arc_get_miss h h1 h2]
      simp only [liveVal, liveItem, h1, h2, Option.map_none']

end ARCCache

namespace ARCCache

variable {T : Type}

theorem arc_delta (a b : Nat) (hb : b ≠ 0) :
    (if a > 0 then (udiv a b).map (fun q => max q 1) else some 1) = some (max (a / b) 1) := by
  by_cases ha : a > 0
  · rw [if_pos ha, udiv, if_neg hb]
    rfl
  · have : a = 0 := by omega
    subst this
    simp

theorem arc_find_none1 {s : ARCCache T} (h : WF s) {k : String}
    (h1 : itemOf ARCItem.key s.t1 k = none) : UMap.find s.t1_map k = none := by
  rw [h.ok1.map_eq, find_entriesOf_none, ← itemOf_eq_none]
  exact h1

theorem arc_find_none2 {s : ARCCache T} (h : WF s) {k : String}
    (h1 : itemOf ARCItem.key s.t2 k = none) : UMap.find s.t2_map k = none := by
  rw [h.ok2.map_eq, find_entriesOf_none, ← itemOf_eq_none]
  exact h1

theorem arc_put_hit1 {s : ARCCache T} (h : WF s) {k : String} {x : ARCItem T}
    (hx : itemOf ARCItem.key s.t1 k = some x) (v : T) :
    put s k v = some (pushT2 (dropT1 s k) k { x with value := v }) := by
  obtain ⟨i, hi⟩ := find_some_of_itemOf _ hx
  rw [← h.ok1.map_eq] at hi
  obtain ⟨y, hy1, hy2, hy3⟩ := arc_find1 h hi
  rw [hx] at hy1
  cases hy1
  have hg := arc_live_of_item h.live1 hx
  simp only [put, hi, hy2, hg, hy3, if_true]
  rfl

theorem arc_putT2_hit {s : ARCCache T} (h : WF s) {k : String} {x : ARCItem T}
    (hx : itemOf ARCItem.key s.t2 k = some x) (v : T) :
    putT2 s k v = some (pushT2 (dropT2 s k) k { x with value := v }) := by
  obtain ⟨i, hi⟩ := find_some_of_itemOf _ hx
  rw [← h.ok2.map_eq] at hi
  obtain ⟨y, hy1, hy2, hy3⟩ := arc_find2 h hi
  rw [hx] at hy1
  cases hy1
  have hg := arc_live_of_item h.live2 hx
  simp only [putT2, hi, hy2, hg, hy3, if_true]
  rfl

theorem arc_put_hit2 {s : ARCCache T} (h : WF s) {k : String} {x : ARCItem T}
    (h1 : itemOf ARCItem.key s.t1 k = none) (hx : itemOf ARCItem.key s.t2 k = some x) (v : T) :
    put s k v = some (pushT2 (dropT2 s k) k { x with value := v }) := by
  simp only [put, arc_find_none1 h h1]
  exact arc_putT2_hit h hx v

theorem arc_put_ghost {s : ARCCache T} (h : WF s) {k : String}
    (h1 : itemOf ARCItem.key s.t1 k = none) (h2 : itemOf ARCItem.key s.t2 k = none) (v : T) :
    put s k v = putB1 s k v := by
  simp only [put, arc_find_none1 h h1, putT2, arc_find_none2 h h2]

theorem arc_putok_hit1 {s : ARCCache T} (h : WF s) (hb : Bounds s) {k : String}
    {x : ARCItem T} (hx : itemOf ARCItem.key s.t1 k = some x) (v : T) :
    PutOK s (pushT2 (dropT1 s k) k { x with value := v }) k v none := by
  have hu := h.uniq k
  have hc := count_keysOf_pos _ hx
  unfold occ at hu
  have hocc : occ (dropT1 s k) k = 0 := by
    simp only [occ, dropT1, count_keysOf_without, if_true]
    omega
  have hlen := length_without ARCItem.key (k := k) (arc_nodup1 h)
  have hkey : ({ x with value := v } : ARCItem T).key = k :=
    show x.key = k from itemOf_key _ hx
  have hg : ({ x with value := v } : ARCItem T).is_ghost = false :=
    show x.is_ghost = false from arc_live_of_item h.live1 hx
  refine ⟨arc_wf_pushT2 (arc_wf_dropT1 h k) hocc _ hkey hg, ?_, rfl, ?_, ?_, ?_⟩
  · obtain ⟨b1, b2, b3, b4, b5, b6⟩ := hb
    constructor <;>
      simp only [pushT2, dropT1, List.length_append, List.length_singleton] <;> omega
  · intro a
    rw [arc_liveVal_pushT2 hkey (by simp [dropT1, count_keysOf_without])
      (by simp only [dropT1]; omega), arc_liveVal_dropT1 (by omega)]
    by_cases ha : a = k
    · simp [ha]
    · simp [ha]
  · intro hv; exact absurd rfl hv
  · intro a ha; cases ha

theorem arc_putok_hit2 {s : ARCCache T} (h : WF s) (hb : Bounds s) {k : String}
    {x : ARCItem T} (hx : itemOf ARCItem.key s.t2 k = some x) (v : T) :
    PutOK s (pushT2 (dropT2 s k) k { x with value := v }) k v none := by
  have hu := h.uniq k
  have hc := count_keysOf_pos _ hx
  unfold occ at hu
  have hocc : occ (dropT2 s k) k = 0 := by
    simp only [occ, dropT2, count_keysOf_without, if_true]
    omega
  have hlen := length_without ARCItem.key (k := k) (arc_nodup2 h)
  have hkey : ({ x with value := v } : ARCItem T).key = k :=
    show x.key = k from itemOf_key _ hx
  have hg : ({ x with value := v } : ARCItem T).is_ghost = false :=
    show x.is_ghost = false from arc_live_of_item h.live2 hx
  refine ⟨arc_wf_pushT2 (arc_wf_dropT2 h k) hocc _ hkey hg, ?_, rfl, ?_, ?_, ?_⟩
  · obtain ⟨b1, b2, b3, b4, b5, b6⟩ := hb
    constructor <;>
      simp only [pushT2, dropT2, List.length_append, List.length_singleton] <;> omega
  · intro a
    rw [arc_liveVal_pushT2 hkey (by simp only [dropT2]; omega)
      (by simp [dropT2, count_keysOf_without]), arc_liveVal_dropT2 (by omega)]
    by_cases ha : a = k
    · simp [ha]
    · simp [ha]
  · intro hv; exact absurd rfl hv
  · intro a ha; cases ha

theorem arc_liveVal_ne_none {s : ARCCache T} {k : String} (h : liveVal s k ≠ none) :
    1 ≤ (keysOf ARCItem.key s.t1).count k + (keysOf ARCItem.key s.t2).count k := by
  by_contra hc
  apply h
  exact arc_liveVal_none (by omega) (by omega)

theorem arc_liveVal_of_count {s : ARCCache T} {k : String}
    (h : 1 ≤ (keysOf ARCItem.key s.t1).count k + (keysOf ARCItem.key s.t2).count k) :
    liveVal s k ≠ none := by
  intro hn
  simp only [liveVal, liveItem] at hn
  cases h1 : itemOf ARCItem.key s.t1 k with
  | some x => simp [h1] at hn
  | none =>
    cases h2 : itemOf ARCItem.key s.t2 k with
    | some x => simp [h1, h2] at hn
    | none =>
      rw [itemOf_eq_none, ← List.count_eq_zero] at h1 h2
      omega

end ARCCache

namespace ARCCache

variable {T : Type}

theorem arc_count_of_find {l : List (Node (ARCItem T))} {k : String} {i : Nat}
    (hf : UMap.find (entriesOf ARCItem.key l) k = some i) :
    1 ≤ (keysOf ARCItem.key l).count k := by
  rw [List.one_le_count_iff]
  by_contra hc
  rw [← find_entriesOf_none, hf] at hc
  cases hc

/-- The state `put` builds after `replace` evicted `k0`, for a key found in
`b1_map`. -/
theorem arc_putok_ghost1 {s sp s1 : ARCCache T} (h : WF s) (hb : Bounds s) {k k0 : String}
    (hk : (keysOf ARCItem.key s.b1).count k = 1) (v : T) (q : Nat) (hq : q ≤ s.capacity)
    (hsp : sp = { s with p := q }) (he : Evicted sp s1 k0) :
    k ≠ k0 ∧ PutOK s (pushT2 (dropB1 s1 k) k { key := k, value := v, is_ghost := false })
      k v (some k0) := by
  subst hsp
  have hu := h.uniq k
  unfold occ at hu
  have hlive := he.was_live
  simp only at hlive
  have hne : k ≠ k0 := by
    intro e
    subst e
    omega
  have c1 := he.cnt1 k hne
  have c2 := he.cnt2 k hne
  have c3 := he.cntb1 k hne
  have c4 := he.cntb2 k hne
  simp only at c1 c2 c3 c4
  have hocc : occ (dropB1 s1 k) k = 0 := by
    simp only [occ, dropB1, count_keysOf_without, if_true]
    omega
  have hlen := length_without ARCItem.key (k := k) (arc_nodupb1 he.wf)
  have l1 := he.live_len
  have l2 := he.l1_len
  have l3 := he.ghost_len
  have l4 := he.cap_eq
  simp only at l1 l2 l3 l4
  obtain ⟨b1, b2, b3, b4, b5, b6⟩ := hb
  have hb1 : 1 ≤ s.b1.length := by
    have := List.count_le_length k (keysOf ARCItem.key s.b1)
    rw [length_keysOf] at this
    omega
  refine ⟨hne, arc_wf_pushT2 (arc_wf_dropB1 he.wf k) hocc _ rfl rfl, ?_, l4, ?_, ?_, ?_⟩
  · constructor <;>
      simp only [pushT2, dropB1, List.length_append, List.length_singleton, he.p_eq, l4] <;>
      omega
  · intro a
    have e1 : liveVal (dropB1 s1 k) a = liveVal s1 a := rfl
    have e2 : liveVal { s with p := q } a = liveVal s a := rfl
    rw [arc_liveVal_pushT2 (k := k) (x := ⟨k, v, false⟩) rfl (by simp only [dropB1]; omega)
        (by simp only [dropB1]; omega), e1, he.live a, e2]
    by_cases ha : a = k
    · simp [ha]
    · by_cases ha0 : a = k0
      · simp [ha, ha0]
      · have : ¬ k0 = a := fun e => ha0 e.symm
        simp [ha, ha0, this]
  · intro _
    exact ⟨arc_liveVal_none (by omega) (by omega), by omega⟩
  · intro a ha
    cases ha
    exact arc_liveVal_of_count (by omega)

/-- The state `put` builds after `replace` evicted `k0`, for a key found in
`b2_map`. -/
theorem arc_putok_ghost2 {s sp s1 : ARCCache T} (h : WF s) (hb : Bounds s) {k k0 : String}
    (hk : (keysOf ARCItem.key s.b2).count k = 1) (v : T) (q : Nat) (hq : q ≤ s.capacity)
    (hsp : sp = { s with p := q }) (he : Evicted sp s1 k0) :
    k ≠ k0 ∧ PutOK s (pushT2 (dropB2 s1 k) k { key := k, value := v, is_ghost := false })
      k v (some k0) := by
  subst hsp
  have hu := h.uniq k
  unfold occ at hu
  have hlive := he.was_live
  simp only at hlive
  have hne : k ≠ k0 := by
    intro e
    subst e
    omega
  have c1 := he.cnt1 k hne
  have c2 := he.cnt2 k hne
  have c3 := he.cntb1 k hne
  have c4 := he.cntb2 k hne
  simp only at c1 c2 c3 c4
  have hocc : occ (dropB2 s1 k) k = 0 := by
    simp only [occ, dropB2, count_keysOf_without, if_true]
    omega
  have hlen := length_without ARCItem.key (k := k) (arc_nodupb2 he.wf)
  have l1 := he.live_len
  have l2 := he.l1_len
  have l3 := he.ghost_len
  have l4 := he.cap_eq
  have l5 := he.t1_len
  simp only at l1 l2 l3 l4 l5
  obtain ⟨b1, b2, b3, b4, b5, b6⟩ := hb
  have hb1 : 1 ≤ s.b2.length := by
    have := List.count_le_length k (keysOf ARCItem.key s.b2)
    rw [length_keysOf] at this
    omega
  refine ⟨hne, arc_wf_pushT2 (arc_wf_dropB2 he.wf k) hocc _ rfl rfl, ?_, l4, ?_, ?_, ?_⟩
  · constructor <;>
      simp only [pushT2, dropB2, List.length_append, List.length_singleton, he.p_eq, l4] <;>
      omega
  · intro a
    have e1 : liveVal (dropB2 s1 k) a = liveVal s1 a := rfl
    have e2 : liveVal { s with p := q } a = liveVal s a := rfl
    rw [arc_liveVal_pushT2 (k := k) (x := ⟨k, v, false⟩) rfl (by simp only [dropB2]; omega)
        (by simp only [dropB2]; omega), e1, he.live a, e2]
    by_cases ha : a = k
    · simp [ha]
    · by_cases ha0 : a = k0
      · simp [ha, ha0]
      · have : ¬ k0 = a := fun e => ha0 e.symm
        simp [ha, ha0, this]
  · intro _
    exact ⟨arc_liveVal_none (by omega) (by omega), by omega⟩
  · intro a ha
    cases ha
    exact arc_liveVal_of_count (by omega)

/-- The effect of `put` for a key found in `b1_map`. -/
theorem arc_putB1_hit {s : ARCCache T} (h : WF s) (hb : Bounds s) {k : String} {i : Nat}
    (hf : UMap.find s.b1_map k = some i) (v : T) :
    ∃ s1 k0, putB1 s k v = some s1 ∧ PutOK s s1 k v (some k0) := by
  have hf2 := hf
  rw [h.okb1.map_eq] at hf2
  have hc := arc_count_of_find hf2
  have hu := h.uniq k
  unfold occ at hu
  have hk : (keysOf ARCItem.key s.b1).count k = 1 := by omega
  obtain ⟨b1, b2, b3, b4, b5, b6⟩ := id hb
  have hb1 : 1 ≤ s.b1.length := by
    have := List.count_le_length k (keysOf ARCItem.key s.b1)
    rw [length_keysOf] at this
    omega
  have hd := arc_delta s.b2.length s.b1.length (by omega)
  have hwp : WF { s with p := min (s.p + max (s.b2.length / s.b1.length) 1) s.capacity } :=
    arc_wf_setP h _
  have hx : s.t2 ≠ [] := by
    intro e
    rw [e] at b6 b4
    simp only [List.length_nil] at b6 b4
    omega
  obtain ⟨s1, k0, hr, he⟩ := arc_replace_evicts hwp false (Or.inl hx)
  obtain ⟨hne, hok⟩ := arc_putok_ghost1 h hb hk v _ (Nat.min_le_right _ _) rfl he
  have hfs : UMap.find s1.b1_map k = some i := by
    rw [he.findb1 k hne]
    exact hf
  obtain ⟨y, -, -, hy3⟩ := arc_findb1 he.wf hfs
  refine ⟨_, k0, ?_, hok⟩
  simp only [putB1, hf, hd, hr, hy3]
  rfl

/-- The effect of `put` for a key found in `b2_map` and not in `b1_map`. -/
theorem arc_putB2_hit {s : ARCCache T} (h : WF s) (hb : Bounds s) {k : String} {i : Nat}
    (hf1 : UMap.find s.b1_map k = none) (hf : UMap.find s.b2_map k = some i) (v : T) :
    ∃ s1 k0, putB1 s k v = some s1 ∧ PutOK s s1 k v (some k0) := by
  have hf2 := hf
  rw [h.okb2.map_eq] at hf2
  have hc := arc_count_of_find hf2
  have hu := h.uniq k
  unfold occ at hu
  have hk : (keysOf ARCItem.key s.b2).count k = 1 := by omega
  obtain ⟨b1, b2, b3, b4, b5, b6⟩ := id hb
  have hb1 : 1 ≤ s.b2.length := by
    have := List.count_le_length k (keysOf ARCItem.key s.b2)
    rw [length_keysOf] at this
    omega
  have hd := arc_delta s.b1.length s.b2.length (by omega)
  have hq : ∀ d : Nat, (if s.p > d then s.p - d else 0) ≤ s.capacity := by
    intro d
    split_ifs <;> omega
  have hwp := arc_wf_setP h
    (if s.p > max (s.b1.length / s.b2.length) 1 then s.p - max (s.b1.length / s.b2.length) 1 else 0)
  obtain ⟨s1, k0, hr, he⟩ := arc_replace_evicts hwp true (by
    by_cases e : s.t2 = []
    · right
      rw [e] at b6 b4
      simp only [List.length_nil] at b6 b4
      have hne : s.t1 ≠ [] := by
        intro e1
        rw [e1] at b6
        simp only [List.length_nil] at b6
        omega
      refine ⟨hne, ?_⟩
      have hp := hq (max (s.b1.length / s.b2.length) 1)
      have ht : s.t1.length = s.capacity := by omega
      rw [← ht] at hp
      rcases Nat.lt_or_eq_of_le hp with hlt | heq
      · exact Or.inl hlt
      · exact Or.inr ⟨rfl, heq.symm⟩
    · exact Or.inl e)
  obtain ⟨hne, hok⟩ := arc_putok_ghost2 h hb hk v _ (hq _) rfl he
  have hfs : UMap.find s1.b2_map k = some i := by
    rw [he.findb2 k hne]
    exact hf
  obtain ⟨y, -, -, hy3⟩ := arc_findb2 he.wf hfs
  refine ⟨_, k0, ?_, hok⟩
  simp only [putB1, hf1, putB2, hf, hd, hr, hy3]
  rfl

end ARCCache

namespace ARCCache

variable {T : Type}

theorem arc_put_new_eq {s : ARCCache T} (h : WF s) {k : String} (hk : occ s k = 0) (v : T) :
    put s k v = putNew s k v := by
  obtain ⟨h1, h2, h3, h4⟩ := arc_occ_zero hk
  have f1 : UMap.find s.t1_map k = none := by rw [h.ok1.map_eq, find_entriesOf_none]; exact h1
  have f2 : UMap.find s.t2_map k = none := by rw [h.ok2.map_eq, find_entriesOf_none]; exact h2
  have f3 : UMap.find s.b1_map k = none := by rw [h.okb1.map_eq, find_entriesOf_none]; exact h3
  have f4 : UMap.find s.b2_map k = none := by rw [h.okb2.map_eq, find_entriesOf_none]; exact h4
  simp only [put, f1, putT2, f2, putB1, f3, putB2, f4]

/-- The state `put` builds for an unseen key once room was made. -/
theorem arc_putok_new {s s2 : ARCCache T} {k : String} (v : T) {victim : Option String}
    (h2 : WF s2) (hocc : occ s2 k = 0) (hcap : s2.capacity = s.capacity)
    (hpos : 1 ≤ s.capacity) (hp : s2.p ≤ s.capacity)
    (hl1 : s2.t1.length + s2.b1.length + 1 ≤ s.capacity)
    (hlive : s2.t1.length + s2.t2.length + 1 ≤ s.capacity)
    (hghost : s2.b1.length + s2.b2.length ≤ s.capacity)
    (hfull : s2.b1.length + s2.b2.length = 0 ∨ s2.t1.length + s2.t2.length + 1 = s.capacity)
    (hlv : ∀ a, liveVal s2 a = if victim = some a then none else liveVal s a)
    (hk : liveVal s k = none)
    (hvf : victim ≠ none → s.t1.length + s.t2.length = s.capacity)
    (hvl : ∀ a, victim = some a → liveVal s a ≠ none) :
    PutOK s (pushT1 s2 k { key := k, value := v, is_ghost := false }) k v victim := by
  have hu := hocc
  unfold occ at hu
  refine ⟨arc_wf_pushT1 h2 hocc _ rfl rfl, ?_, hcap, ?_, fun hv => ⟨hk, hvf hv⟩, hvl⟩
  · constructor <;>
      simp only [pushT1, List.length_append, List.length_singleton, hcap] <;> omega
  · intro a
    rw [arc_liveVal_pushT1 (k := k) (x := ⟨k, v, false⟩) rfl (by omega) (by omega), hlv a]

theorem arc_liveVal_zero {s : ARCCache T} {k : String} (hk : occ s k = 0) :
    liveVal s k = none := by
  unfold occ at hk
  exact arc_liveVal_none (by omega) (by omega)

/-- The effect of `put` for a key that is in none of the four lists. -/
theorem arc_putNew_ok {s : ARCCache T} (h : WF s) (hb : Bounds s) {k : String}
    (hk : occ s k = 0) (v : T) :
    ∃ s1 victim, putNew s k v = some s1 ∧ PutOK s s1 k v victim := by
  obtain ⟨b1, b2, b3, b4, b5, b6⟩ := id hb
  have hu := hk
  unfold occ at hu
  by_cases hA : s.t1.length + s.b1.length = s.capacity
  · by_cases hB : s.t1.length < s.capacity
    · -- a ghost of B1 is dropped, then replace
      cases e : s.b1 with
      | nil => rw [e] at hA; simp only [List.length_nil] at hA; omega
      | cons nb restb =>
        obtain ⟨hp, hr⟩ := arc_popB1_cons h e
        have hwa := arc_wf_dropB1 h nb.item.key
        have hlb : (dropB1 s nb.item.key).b1.length + 1 = s.b1.length := by
          rw [hr, e]; rfl
        have hne1 : s.b1.isEmpty = false := by rw [e]; rfl
        have hx : (dropB1 s nb.item.key).t2 ≠ [] := by
          show s.t2 ≠ []
          intro e2
          rw [e2] at b6 b4
          rw [e] at b6
          simp only [List.length_nil, List.length_cons] at b6 b4
          omega
        obtain ⟨s1, k0, hrep, he⟩ := arc_replace_evicts hwa false (Or.inl hx)
        have hlive := he.was_live
        have l1 := he.live_len
        have l2 := he.l1_len
        have l3 := he.ghost_len
        have l4 := he.cap_eq
        have l5 := he.p_eq
        simp only [dropB1] at hlive l1 l2 l3 l4 l5 hlb
        have hne : k ≠ k0 := by
          intro e0
          subst e0
          omega
        have c1 := he.cnt1 k hne
        have c2 := he.cnt2 k hne
        have c3 := he.cntb1 k hne
        have c4 := he.cntb2 k hne
        simp only [dropB1, count_keysOf_without] at c1 c2 c3 c4
        have c3z : (keysOf ARCItem.key s1.b1).count k = 0 := by
          rw [c3]; split_ifs <;> omega
        refine ⟨_, some k0, ?_, arc_putok_new v he.wf (by unfold occ; omega) l4 b1 (by omega)
          (by omega) (by omega) (by omega) (by omega) ?_ (arc_liveVal_zero hk)
          (fun _ => by omega) ?_⟩
        · simp only [putNew, hA, hB, hne1, if_true, hp, Option.map_some', hrep]
        · intro a
          have e1 : liveVal (dropB1 s nb.item.key) a = liveVal s a := rfl
          rw [he.live a, e1]
          by_cases ha : a = k0
          · simp [ha]
          · have : ¬ k0 = a := fun e => ha e.symm
            simp [ha, this]
        · intro a ha
          cases ha
          exact arc_liveVal_of_count (by omega)
    · -- T1 holds `capacity` entries: its front is dropped
      cases e : s.t1 with
      | nil => rw [e] at hA hB; simp only [List.length_nil] at hA hB; omega
      | cons n rest =>
        obtain ⟨hp, hr⟩ := arc_popT1_cons h e
        have hw := arc_wf_dropT1 h n.item.key
        have hl : (dropT1 s n.item.key).t1.length + 1 = s.t1.length := by
          rw [hr, e]; rfl
        simp only [dropT1] at hl
        have hun := h.uniq n.item.key
        unfold occ at hun
        have hcn : 1 ≤ (keysOf ARCItem.key s.t1).count n.item.key := by
          rw [e]; simp
        refine ⟨_, some n.item.key, ?_, arc_putok_new v hw ?_ rfl b1 b2
          (by simp only [dropT1]; omega) (by simp only [dropT1]; omega)
          (by simp only [dropT1]; omega) (by simp only [dropT1]; omega) ?_
          (arc_liveVal_zero hk) (fun _ => by omega) ?_⟩
        · simp only [putNew, hA, hB, if_true, if_false, hp, Option.map_some']
        · simp only [occ, dropT1, count_keysOf_without]
          split_ifs <;> omega
        · intro a
          rw [arc_liveVal_dropT1 (by omega)]
          by_cases ha : a = n.item.key
          · simp [ha]
          · have : ¬ n.item.key = a := fun e => ha e.symm
            simp [ha, this]
        · intro a ha
          cases ha
          exact arc_liveVal_of_count (by omega)
  · by_cases hC : s.t1.length + s.t2.length + s.b1.length + s.b2.length ≥ s.capacity
    · -- the ghost lists are trimmed, then replace
      have hD : s.t1.length + s.t2.length < 2 * s.capacity := by omega
      obtain ⟨st, hst, ht⟩ := arc_removeGhostEntries_spec h b1
      have t1 := ht.t1_eq
      have t2 := ht.t2_eq
      have t3 := ht.lt
      have t4 := ht.b1_suffix.length_le
      have t5 := ht.b2_suffix.length_le
      have t6 := ht.cap_eq
      have t7 := ht.p_eq
      have hx : st.t2 ≠ [] := by
        rw [t2]
        intro e2
        rw [e2] at b6 b4 hC
        simp only [List.length_nil] at b6 b4 hC
        omega
      obtain ⟨s1, k0, hrep, he⟩ := arc_replace_evicts ht.wf false (Or.inl hx)
      have hlive := he.was_live
      have l1 := he.live_len
      have l2 := he.l1_len
      have l3 := he.ghost_len
      have l4 := he.cap_eq
      have l5 := he.p_eq
      simp only [t1, t2] at hlive l1 l2
      have hne : k ≠ k0 := by
        intro e0
        subst e0
        omega
      have c1 := he.cnt1 k hne
      have c2 := he.cnt2 k hne
      have c3 := he.cntb1 k hne
      have c4 := he.cntb2 k hne
      have c5 := arc_count_suffix ht.b1_suffix k
      have c6 := arc_count_suffix ht.b2_suffix k
      rw [t1] at c1
      rw [t2] at c2
      refine ⟨_, some k0, ?_, arc_putok_new v he.wf (by unfold occ; omega) (by omega) b1
        (by omega) (by omega) (by omega) (by omega) (by omega) ?_ (arc_liveVal_zero hk)
        (fun _ => by omega) ?_⟩
      · simp only [putNew, hA, if_false, hC, if_true, hD, hst, hrep]
      · intro a
        rw [he.live a, arc_liveVal_congr t1 t2]
        by_cases ha : a = k0
        · simp [ha]
        · have : ¬ k0 = a := fun e => ha e.symm
          simp [ha, this]
      · intro a ha
        cases ha
        exact arc_liveVal_of_count (by omega)
    · -- there is room
      refine ⟨_, none, ?_, arc_putok_new v h hk rfl b1 b2 (by omega) (by omega) (by omega)
        (by omega) ?_ (arc_liveVal_zero hk) (fun hv => absurd rfl hv) ?_⟩
      · simp only [putNew, hA, if_false, hC]
      · intro a
        simp
      · intro a ha
        cases ha

/-- The effect of `put` on a state that satisfies the invariants. -/
theorem arc_put_ok {s : ARCCache T} (h : WF s) (hb : Bounds s) (k : String) (v : T) :
    ∃ s1 victim, put s k v = some s1 ∧ PutOK s s1 k v victim := by
  cases h1 : itemOf ARCItem.key s.t1 k with
  | some x => exact ⟨_, none, arc_put_hit1 h h1 v, arc_putok_hit1 h hb h1 v⟩
  | none =>
    cases h2 : itemOf ARCItem.key s.t2 k with
    | some x => exact ⟨_, none, arc_put_hit2 h h1 h2 v, arc_putok_hit2 h hb h2 v⟩
    | none =>
      rw [arc_put_ghost h h1 h2]
      cases f3 : UMap.find s.b1_map k with
      | some i =>
        obtain ⟨s1, k0, hs1, hok⟩ := arc_putB1_hit h hb f3 v
        exact ⟨s1, some k0, hs1, hok⟩
      | none =>
        cases f4 : UMap.find s.b2_map k with
        | some i =>
          obtain ⟨s1, k0, hs1, hok⟩ := arc_putB2_hit h hb f3 f4 v
          exact ⟨s1, some k0, hs1, hok⟩
        | none =>
          have hk : occ s k = 0 := by
            rw [itemOf_eq_none, ← List.count_eq_zero] at h1 h2
            rw [h.okb1.map_eq, find_entriesOf_none, ← List.count_eq_zero] at f3
            rw [h.okb2.map_eq, find_entriesOf_none, ← List.count_eq_zero] at f4
            unfold occ
            omega
          rw [← arc_put_ghost h h1 h2, arc_put_new_eq h hk]
          exact arc_putNew_ok h hb hk v

end ARCCache

section Runs

variable {T : Type}

theorem lastPut_cons_get (k1 : String) (ops : List (Op T)) (k : String) :
    lastPut (Op.get k1 :: ops) k = lastPut ops k := rfl

theorem lastPut_cons_put (k1 : String) (v : T) (ops : List (Op T)) (k : String) :
    lastPut (Op.put k1 v :: ops) k =
      match lastPut ops k with
      | some w => some w
      | none => if k1 = k then some v else none := rfl

theorem lastPut_append_get (ops : List (Op T)) (k1 k : String) :
    lastPut (ops ++ [Op.get k1]) k = lastPut ops k := by
  induction ops with
  | nil => rfl
  | cons op ops ih =>
    cases op with
    | get k2 => rw [List.cons_append, lastPut_cons_get, lastPut_cons_get, ih]
    | put k2 v => rw [List.cons_append, lastPut_cons_put, lastPut_cons_put, ih]

theorem lastPut_append_put (ops : List (Op T)) (k1 : String) (v : T) (k : String) :
    lastPut (ops ++ [Op.put k1 v]) k = if k1 = k then some v else lastPut ops k := by
  induction ops with
  | nil =>
    rw [List.nil_append, lastPut_cons_put]
    rfl
  | cons op ops ih =>
    cases op with
    | get k2 => rw [List.cons_append, lastPut_cons_get, lastPut_cons_get, ih]
    | put k2 w =>
      rw [List.cons_append, lastPut_cons_put, lastPut_cons_put, ih]
      by_cases e : k1 = k
      · simp [e]
      · simp [e]

end Runs

namespace ARCCache

variable {T : Type}

theorem arc_bounds_new {cap : Nat} (hcap : 1 ≤ cap) : Bounds (new cap : ARCCache T) := by
  constructor <;> simp [new, hcap]

theorem arc_run_append (s : ARCCache T) (ops ops2 : List (Op T)) :
    run s (ops ++ ops2) =
      match run s ops with
      | some s1 => run s1 ops2
      | none => none := by
  induction ops generalizing s with
  | nil => rfl
  | cons op ops ih =>
    simp only [List.cons_append, run]
    cases step s op with
    | none => rfl
    | some s1 => exact ih s1

/-- One call keeps the invariants. -/
theorem arc_step_ok {s : ARCCache T} (h : WF s) (hb : Bounds s) (op : Op T) :
    ∃ s1, step s op = some s1 ∧ WF s1 ∧ Bounds s1 ∧ s1.capacity = s.capacity := by
  cases op with
  | get k =>
    obtain ⟨s1, hg, hok, -⟩ := arc_get_ok h hb k
    exact ⟨s1, by simp [step, hg], hok.wf, hok.bounds, hok.cap_eq⟩
  | put k v =>
    obtain ⟨s1, victim, hp, hok⟩ := arc_put_ok h hb k v
    exact ⟨s1, by simp [step, hp], hok.wf, hok.bounds, hok.cap_eq⟩

/-- Every sequence of calls runs to the end and keeps the invariants. -/
theorem arc_run_ok {s : ARCCache T} (h : WF s) (hb : Bounds s) (ops : List (Op T)) :
    ∃ s1, run s ops = some s1 ∧ WF s1 ∧ Bounds s1 ∧ s1.capacity = s.capacity := by
  induction ops generalizing s with
  | nil => exact ⟨s, rfl, h, hb, rfl⟩
  | cons op ops ih =>
    obtain ⟨s1, hs, hw, hb1, hc⟩ := arc_step_ok h hb op
    obtain ⟨s2, hr, hw2, hb2, hc2⟩ := ih hw hb1
    exact ⟨s2, by simp [run, hs, hr], hw2, hb2, hc2.trans hc⟩

theorem arc_reachable_inv {cap : Nat} (hcap : 1 ≤ cap) {s : ARCCache T}
    (hr : Reachable cap s) : WF s ∧ Bounds s ∧ s.capacity = cap := by
  obtain ⟨ops, hops⟩ := hr
  obtain ⟨s1, hs1, hw, hb, hc⟩ := arc_run_ok (arc_wf_new cap) (arc_bounds_new hcap) ops
  rw [hops] at hs1
  cases hs1
  exact ⟨hw, hb, hc⟩

theorem arc_live_iff {s : ARCCache T} (h : WF s) (k : String) :
    live s k ↔ liveVal s k ≠ none := by
  unfold live
  rw [h.ok1.map_eq, h.ok2.map_eq, Ne, Ne, find_entriesOf_none, find_entriesOf_none]
  constructor
  · intro hl
    apply arc_liveVal_of_count
    rcases hl with hl | hl
    · have := List.one_le_count_iff.2 (not_not.1 hl)
      omega
    · have := List.one_le_count_iff.2 (not_not.1 hl)
      omega
  · intro hl
    have := arc_liveVal_ne_none hl
    by_contra hc
    rw [not_or, not_not, not_not, ← List.count_eq_zero, ← List.count_eq_zero] at hc
    omega

theorem arc_lookup_eq {s : ARCCache T} (h : WF s) (hb : Bounds s) (k : String) :
    lookup s k = liveVal s k := by
  obtain ⟨s1, hg, -, -⟩ := arc_get_ok h hb k
  simp only [lookup, hg]

theorem arc_ghost_not_live {s : ARCCache T} (h : WF s) {k : String} (hg : ghost s k) :
    ¬ live s k := by
  intro hl
  have hu := h.uniq k
  unfold occ at hu
  unfold live at hl
  unfold ghost at hg
  rw [h.ok1.map_eq, h.ok2.map_eq, Ne, Ne, find_entriesOf_none, find_entriesOf_none] at hl
  rw [h.okb1.map_eq, h.okb2.map_eq, Ne, Ne, find_entriesOf_none, find_entriesOf_none] at hg
  have h1 : 1 ≤ (keysOf ARCItem.key s.t1).count k + (keysOf ARCItem.key s.t2).count k := by
    rcases hl with hl | hl
    · have := List.one_le_count_iff.2 (not_not.1 hl)
      omega
    · have := List.one_le_count_iff.2 (not_not.1 hl)
      omega
  have h2 : 1 ≤ (keysOf ARCItem.key s.b1).count k + (keysOf ARCItem.key s.b2).count k := by
    rcases hg with hg | hg
    · have := List.one_le_count_iff.2 (not_not.1 hg)
      omega
    · have := List.one_le_count_iff.2 (not_not.1 hg)
      omega
  omega

/-- The live values are the values of the last `put`s. -/
theorem arc_live_lastPut {cap : Nat} (hcap : 1 ≤ cap) (ops : List (Op T)) :
    ∀ s : ARCCache T, run (new cap) ops = some s →
      ∀ a w, liveVal s a = some w → lastPut ops a = some w := by
  induction ops using List.reverseRecOn with
  | nil =>
    intro s hs a w hw
    cases hs
    simp [liveVal, liveItem, new] at hw
  | append_singleton ops op ih =>
    intro s hs a w hw
    rw [arc_run_append] at hs
    obtain ⟨s0, hs0, hw0, hb0, -⟩ :=
      arc_run_ok (arc_wf_new cap) (arc_bounds_new hcap) (T := T) ops
    rw [hs0] at hs
    simp only [run] at hs
    cases op with
    | get k =>
      obtain ⟨s1, hg, hok, -⟩ := arc_get_ok hw0 hb0 k
      simp only [step, hg, Option.map_some'] at hs
      cases hs
      rw [lastPut_append_get]
      rw [hok.live a] at hw
      exact ih s0 hs0 a w hw
    | put k v =>
      obtain ⟨s1, victim, hp, hok⟩ := arc_put_ok hw0 hb0 k v
      simp only [step, hp] at hs
      cases hs
      rw [lastPut_append_put]
      rw [hok.live a] at hw
      by_cases e : a = k
      · subst e
        simpa using hw
      · have e2 : ¬ k = a := fun e3 => e e3.symm
        rw [if_neg e] at hw
        rw [if_neg e2]
        by_cases e3 : victim = some a
        · rw [if_pos e3] at hw
          cases hw
        · rw [if_neg e3] at hw
          exact ih s0 hs0 a w hw

end ARCCache

namespace ARCCache

variable {T : Type}

/-- The live keys are the keys of the lists `t1` and `t2`. -/
theorem arc_live_mem {s : ARCCache T} (h : WF s) (k : String) :
    live s k ↔ k ∈ keysOf ARCItem.key s.t1 ∨ k ∈ keysOf ARCItem.key s.t2 := by
  unfold live
  rw [h.ok1.map_eq, h.ok2.map_eq, Ne, Ne, find_entriesOf_none, find_entriesOf_none, not_not,
    not_not]

/-- The ghosts are the keys of the lists `b1` and `b2`. -/
theorem arc_ghost_mem {s : ARCCache T} (h : WF s) (k : String) :
    ghost s k ↔ k ∈ keysOf ARCItem.key s.b1 ∨ k ∈ keysOf ARCItem.key s.b2 := by
  unfold ghost
  rw [h.okb1.map_eq, h.okb2.map_eq, Ne, Ne, find_entriesOf_none, find_entriesOf_none, not_not,
    not_not]

end ARCCache

section HeapLemmas

variable {α : Type} (kf : α → String)

theorem heap_read_eq_deref (h : Heap α) (a : Nat) : Heap.read h a = StdList.deref h a := by
  induction h with
  | nil => rfl
  | cons c h ih =>
    show (if c.id = a then some c.item else Heap.read h a) = _
    rw [ih]
    rfl

theorem node_eq_of_id {l : List (Node α)} (hi : (idsOf l).Nodup) {c d : Node α} (hc : c ∈ l)
    (hd : d ∈ l) (e : c.id = d.id) : c = d :=
  List.inj_on_of_nodup_map hi hc hd e

theorem map_heap_write {β : Type} (g : Node α → β) {h : Heap α} (hi : (idsOf h).Nodup)
    {a : Nat} {x y : α} (hx : (⟨a, x⟩ : Node α) ∈ h) (hg : g ⟨a, y⟩ = g ⟨a, x⟩) :
    List.map g (Heap.write h a y) = List.map g h := by
  rw [Heap.write, List.map_map]
  apply List.map_congr_left
  intro c hc
  simp only [Function.comp]
  by_cases e : c.id = a
  · rw [if_pos e, hg]
    have := node_eq_of_id hi hc hx e
    rw [this]
  · rw [if_neg e]

theorem heap_write_of_not_mem {h : Heap α} {a : Nat} (ha : a ∉ idsOf h) (y : α) :
    Heap.write h a y = h := by
  rw [Heap.write]
  conv_rhs => rw [← List.map_id h]
  apply List.map_congr_left
  intro c hc
  have : c.id ≠ a := by
    intro e
    apply ha
    rw [← e]
    exact List.mem_map.2 ⟨c, hc, rfl⟩
  simp [this]

theorem itemOf_heap_write {h : Heap α} (hk : (keysOf kf h).Nodup) (hi : (idsOf h).Nodup)
    {a : Nat} {x y : α} (hx : (⟨a, x⟩ : Node α) ∈ h) (hy : kf y = kf x) (k : String) :
    itemOf kf (Heap.write h a y) k = if k = kf x then some y else itemOf kf h k := by
  induction h with
  | nil => cases hx
  | cons c h ih =>
    simp only [keysOf_cons, List.nodup_cons] at hk
    simp only [idsOf_cons, List.nodup_cons] at hi
    by_cases e : c.id = a
    · have hc : c = ⟨a, x⟩ := by
        rcases List.mem_cons.1 hx with hx | hx
        · exact hx.symm
        · exfalso
          apply hi.1
          rw [e]
          exact List.mem_map.2 ⟨_, hx, rfl⟩
      have hrest : Heap.write h a y = h := heap_write_of_not_mem (e ▸ hi.1) y
      have hw : Heap.write (c :: h) a y = ⟨a, y⟩ :: h := by
        show (if c.id = a then (⟨a, y⟩ : Node α) else c) :: Heap.write h a y = _
        rw [if_pos e, hrest]
      rw [hw, itemOf_cons, itemOf_cons, hc]
      simp only [hy]
      by_cases e2 : kf x = k
      · simp [e2]
      · have : ¬ k = kf x := fun e3 => e2 e3.symm
        simp [e2, this]
    · have hx2 : (⟨a, x⟩ : Node α) ∈ h := by
        rcases List.mem_cons.1 hx with hx | hx
        · exfalso
          apply e
          rw [← hx]
        · exact hx
      have hw : Heap.write (c :: h) a y = c :: Heap.write h a y := by
        show (if c.id = a then (⟨a, y⟩ : Node α) else c) :: Heap.write h a y = _
        rw [if_neg e]
      rw [hw, itemOf_cons, itemOf_cons, ih hk.2 hi.2 hx2]
      have hne : kf c.item ≠ kf x := by
        intro e3
        apply hk.1
        rw [e3]
        exact List.mem_map.2 ⟨_, hx2, rfl⟩
      by_cases e2 : kf c.item = k
      · have : ¬ k = kf x := fun e3 => hne (e2.trans e3)
        simp [e2, this]
      · simp [e2]

theorem filter_ids_cons {c : Node α} {h : List (Node α)} (hi : (idsOf (c :: h)).Nodup) :
    List.filter (fun d => decide (d.id ≠ c.id)) (c :: h) = h := by
  simp only [idsOf_cons, List.nodup_cons] at hi
  rw [List.filter_cons]
  simp only [ne_eq, not_true_eq_false, decide_False, Bool.false_eq_true, if_false]
  apply List.filter_eq_self.2
  intro d hd
  have : d.id ≠ c.id := by
    intro e
    apply hi.1
    rw [← e]
    exact List.mem_map.2 ⟨d, hd, rfl⟩
  simpa using this

theorem map_snd_entriesOf (l : List (Node α)) :
    List.map Prod.snd (entriesOf kf l) = idsOf l := by
  simp [entriesOf, idsOf, List.map_map, Function.comp]

theorem umap_erase_erase {β : Type} (m : UMap β) (k : String) :
    UMap.erase (UMap.erase m k) k = UMap.erase m k := by
  simp [UMap.erase, List.filter_filter]

theorem umap_assign_erase {β : Type} (m : UMap β) (k : String) (v : β) :
    UMap.assign (UMap.erase m k) k v = UMap.assign m k v := by
  rw [UMap.assign, UMap.assign, umap_erase_erase]

theorem itemOf_append_of_not_mem {l : List (Node α)} {n : Node α}
    (hn : kf n.item ∉ keysOf kf l) (a : String) :
    itemOf kf (l ++ [n]) a = if a = kf n.item then some n.item else itemOf kf l a := by
  rw [itemOf_append]
  by_cases e : a = kf n.item
  · subst e
    simp [(itemOf_eq_none kf).2 hn]
  · have : ¬ kf n.item = a := fun e2 => e e2.symm
    rw [if_neg e, if_neg this]
    cases itemOf kf l a <;> rfl

end HeapLemmas

namespace FIFOCache

variable {T : Type}

theorem fifo_inv_new {cap : Nat} (hcap : 1 ≤ cap) : Inv (new cap : FIFOCache T) := by
  refine ⟨rfl, ListOK.nil _ _, ?_, ?_, hcap, ?_, ?_⟩ <;> simp [new, stampsOf]

theorem fifo_find {s : FIFOCache T} (h : Inv s) {k : String} {x : CacheItem T}
    (hx : itemOf CacheItem.key s.heap k = some x) :
    ∃ a, UMap.find s.cache_map k = some a ∧ Heap.read s.heap a = some x ∧
      (⟨a, x⟩ : Node (CacheItem T)) ∈ s.heap := by
  obtain ⟨a, ha⟩ := find_some_of_itemOf _ hx
  obtain ⟨y, hy1, hy2, hy3, -⟩ := find_entriesOf_some _ h.keys_nodup h.ok.ids_nodup ha
  have := itemOf_of_mem _ h.keys_nodup hy3
  simp only [hy2, hx, Option.some.injEq] at this
  subst this
  refine ⟨a, ?_, ?_, hy3⟩
  · rw [h.ok.map_eq]; exact ha
  · rw [heap_read_eq_deref]; exact hy1

theorem fifo_find_none {s : FIFOCache T} (h : Inv s) {k : String}
    (hx : itemOf CacheItem.key s.heap k = none) : UMap.find s.cache_map k = none := by
  rw [h.ok.map_eq, find_entriesOf_none, ← itemOf_eq_none]
  exact hx

/-- The effect of `get`: the state is left as it was. -/
theorem fifo_get_eq {s : FIFOCache T} (h : Inv s) (k : String) :
    get s k = some (s, val s k) := by
  cases hx : itemOf CacheItem.key s.heap k with
  | some x =>
    obtain ⟨a, ha1, ha2, -⟩ := fifo_find h hx
    simp only [get, ha1, ha2, val, hx, Option.map_some']
  | none =>
    simp only [get, fifo_find_none h hx, val, hx, Option.map_none']

theorem fifo_val_ne_none {s : FIFOCache T} {k : String} :
    val s k ≠ none ↔ k ∈ keysOf CacheItem.key s.heap := by
  rw [val, Ne, Option.map_eq_none', itemOf_eq_none, not_not]

theorem fifo_present_iff {s : FIFOCache T} (h : Inv s) (k : String) :
    present s k ↔ val s k ≠ none := by
  rw [fifo_val_ne_none, present, h.ok.map_eq, Ne, find_entriesOf_none, not_not]

theorem fifo_size_eq {s : FIFOCache T} (h : Inv s) : size s = s.heap.length := by
  rw [size, UMap.size, h.ok.map_eq, length_entriesOf]

/-- The effect of `put` on a key that is present. -/
theorem fifo_put_hit {s : FIFOCache T} (h : Inv s) {k : String} {x : CacheItem T}
    (hx : itemOf CacheItem.key s.heap k = some x) (v : T) :
    ∃ a, UMap.find s.cache_map k = some a ∧ Heap.read s.heap a = some x ∧
      put s k v = some { s with heap := Heap.write s.heap a { x with value := v } } ∧
      PutOK s { s with heap := Heap.write s.heap a { x with value := v } } k v none := by
  obtain ⟨a, ha1, ha2, ha3⟩ := fifo_find h hx
  have hkey : x.key = k := itemOf_key _ hx
  refine ⟨a, ha1, ha2, ?_, ?_, rfl, ?_, ?_, ?_, ?_⟩
  · simp only [put, ha1, ha2]
  · have hids : idsOf (Heap.write s.heap a { x with value := v }) = idsOf s.heap :=
      map_heap_write _ h.ok.ids_nodup ha3 rfl
    have hkeys : keysOf CacheItem.key (Heap.write s.heap a { x with value := v }) =
        keysOf CacheItem.key s.heap := map_heap_write _ h.ok.ids_nodup ha3 rfl
    have hent : entriesOf CacheItem.key (Heap.write s.heap a { x with value := v }) =
        entriesOf CacheItem.key s.heap := map_heap_write _ h.ok.ids_nodup ha3 rfl
    have hst : stampsOf (Heap.write s.heap a { x with value := v }) = stampsOf s.heap :=
      map_heap_write _ h.ok.ids_nodup ha3 rfl
    refine ⟨?_, ⟨?_, ?_, ?_⟩, ?_, ?_, h.cap_pos, ?_, ?_⟩
    · rw [hids]; exact h.list_eq
    · rw [hent]; exact h.ok.map_eq
    · rw [hids]; exact h.ok.ids_nodup
    · intro c hc
      have : c.id ∈ idsOf (Heap.write s.heap a { x with value := v }) :=
        List.mem_map.2 ⟨c, hc, rfl⟩
      rw [hids] at this
      obtain ⟨d, hd, hde⟩ := List.mem_map.1 this
      rw [← hde]
      exact h.ok.ids_lt d hd
    · rw [hkeys]; exact h.keys_nodup
    · have : (Heap.write s.heap a { x with value := v }).length = s.heap.length := by
        simp [Heap.write]
      rw [this]; exact h.size_le
    · rw [hst]; exact h.sorted
    · intro c hc
      have : c.item.last_accessed ∈ stampsOf (Heap.write s.heap a { x with value := v }) :=
        List.mem_map.2 ⟨c, hc, rfl⟩
      rw [hst] at this
      obtain ⟨d, hd, hde⟩ := List.mem_map.1 this
      rw [← hde]
      exact h.stamps_lt d hd
  · intro b
    simp only [val]
    rw [itemOf_heap_write CacheItem.key (y := { x with value := v }) h.keys_nodup
      h.ok.ids_nodup ha3 rfl, hkey]
    by_cases e : b = k
    · simp [e]
    · simp [e]
  · intro hv; exact absurd rfl hv
  · intro b hb; cases hb
  · intro b hb; cases hb

/-- The eviction block removes the first object of the heap. -/
theorem fifo_evict_cons {s : FIFOCache T} (h : Inv s) {c : Node (CacheItem T)}
    {rest : List (Node (CacheItem T))} (e : s.heap = c :: rest) :
    evict s = some { s with cache_list := idsOf rest,
                            cache_map := entriesOf CacheItem.key rest, heap := rest } := by
  have hl : s.cache_list = c.id :: idsOf rest := by rw [h.list_eq, e]; rfl
  have hr : Heap.read s.heap c.id = some c.item := by
    rw [e]
    show (if c.id = c.id then some c.item else _) = _
    rw [if_pos rfl]
  have hk := h.keys_nodup
  have hi := h.ok.ids_nodup
  rw [e] at hk hi
  have hm : UMap.erase s.cache_map c.item.key = entriesOf CacheItem.key rest := by
    rw [h.ok.map_eq, erase_entriesOf, e, without_head CacheItem.key hk]
  have hrel : Heap.release s.heap c.id
      (idsOf rest ++ List.map Prod.snd (entriesOf CacheItem.key rest)) = rest := by
    have hnot : c.id ∉ idsOf rest ++ List.map Prod.snd (entriesOf CacheItem.key rest) := by
      rw [map_snd_entriesOf, List.mem_append, or_self]
      exact (List.nodup_cons.1 hi).1
    rw [Heap.release, if_neg hnot, e]
    exact filter_ids_cons hi
  simp only [evict, hl, hr, hm, hrel]

/-- The state `put` builds for an absent key once room was made. -/
theorem fifo_putok_new {s s2 : FIFOCache T} {k : String} (v : T) {victim : Option String}
    (h2 : Inv s2) (hk2 : k ∉ keysOf CacheItem.key s2.heap) (hcap : s2.capacity = s.capacity)
    (hlen : s2.heap.length + 1 ≤ s.capacity)
    (hv : ∀ a, val s2 a = if victim = some a then none else val s a)
    (hk : val s k = none)
    (hvf : victim ≠ none → s.heap.length = s.capacity)
    (hvl : ∀ a, victim = some a → val s a ≠ none)
    (hvc : ∀ a, victim = some a → ∃ c rest, s.heap = c :: rest ∧ c.item.key = a) :
    PutOK s { s2 with heap := s2.heap ++ [⟨s2.fresh, CacheItem.new k v s2.clock⟩],
                      cache_list := s2.cache_list ++ [s2.fresh],
                      cache_map := UMap.assign s2.cache_map k s2.fresh,
                      fresh := s2.fresh + 1, clock := s2.clock + 1 } k v victim := by
  refine ⟨⟨?_, ?_, ?_, ?_, ?_, ?_, ?_⟩, hcap, ?_, fun hn => ⟨hk, hvf hn⟩, hvl, hvc⟩
  · simp only [idsOf_append, idsOf_cons, idsOf_nil, h2.list_eq]
  · exact h2.ok.push _ hk2 _ rfl
  · simp only [keysOf_append, keysOf_cons, keysOf_nil]
    rw [List.nodup_append]
    refine ⟨h2.keys_nodup, List.nodup_singleton _, ?_⟩
    intro a ha hb
    simp only [List.mem_singleton] at hb
    subst hb
    exact hk2 ha
  · simp only [List.length_append, List.length_singleton, hcap]
    exact hlen
  · rw [hcap]
    have := h2.cap_pos
    rw [hcap] at this
    exact this
  · simp only [stampsOf, List.map_append, List.map_cons, List.map_nil]
    rw [List.pairwise_append]
    refine ⟨h2.sorted, List.pairwise_singleton _ _, ?_⟩
    intro a ha b hb
    simp only [List.mem_singleton] at hb
    subst hb
    obtain ⟨c, hc, rfl⟩ := List.mem_map.1 ha
    exact h2.stamps_lt c hc
  · intro c hc
    rcases List.mem_append.1 hc with hc | hc
    · exact Nat.lt_succ_of_lt (h2.stamps_lt c hc)
    · simp only [List.mem_singleton] at hc
      subst hc
      exact Nat.lt_succ_self _
  · intro a
    simp only [val]
    rw [itemOf_append_of_not_mem CacheItem.key (by exact hk2)]
    have := hv a
    simp only [val] at this
    by_cases e : a = k
    · subst e
      simp [CacheItem.new]
    · have e2 : ¬ a = (CacheItem.new k v s2.clock).key := e
      rw [if_neg e2, if_neg e]
      exact this

/-- The effect of `put` on a state that satisfies the invariant. -/
theorem fifo_put_ok {s : FIFOCache T} (h : Inv s) (k : String) (v : T) :
    ∃ s1 victim, put s k v = some s1 ∧ PutOK s s1 k v victim := by
  cases hx : itemOf CacheItem.key s.heap k with
  | some x =>
    obtain ⟨a, -, -, hp, hok⟩ := fifo_put_hit h hx v
    exact ⟨_, none, hp, hok⟩
  | none =>
    have hf := fifo_find_none h hx
    have hkn : k ∉ keysOf CacheItem.key s.heap := (itemOf_eq_none _).1 hx
    have hvk : val s k = none := by simp only [val, hx, Option.map_none']
    by_cases hfull : UMap.size s.cache_map ≥ s.capacity
    · have hsz : s.heap.length ≥ s.capacity := by
        rw [UMap.size, h.ok.map_eq, length_entriesOf] at hfull
        exact hfull
      have hlen : s.heap.length = s.capacity := Nat.le_antisymm h.size_le hsz
      cases e : s.heap with
      | nil =>
        rw [e] at hlen
        have := h.cap_pos
        simp only [List.length_nil] at hlen
        omega
      | cons c rest =>
        have hev := fifo_evict_cons h e
        have hk := h.keys_nodup
        have hi := h.ok.ids_nodup
        have hs := h.sorted
        rw [e] at hk hi hs
        simp only [keysOf_cons, List.nodup_cons] at hk
        simp only [idsOf_cons, List.nodup_cons] at hi
        simp only [stampsOf, List.map_cons, List.pairwise_cons] at hs
        have hkc : k ≠ c.item.key := by
          intro e2
          apply hkn
          rw [e, e2]
          exact List.mem_cons_self _ _
        have h2 : Inv
            { s with
              cache_list := idsOf rest, cache_map := entriesOf CacheItem.key rest,
              heap := rest } := by
          refine ⟨rfl, ⟨rfl, hi.2, ?_⟩, hk.2, ?_, h.cap_pos, hs.2, ?_⟩
          · intro d hd
            exact h.ok.ids_lt d (by rw [e]; exact List.mem_cons_of_mem _ hd)
          · have := h.size_le
            rw [e] at this
            simp only [List.length_cons] at this
            show rest.length ≤ s.capacity
            omega
          · intro d hd
            exact h.stamps_lt d (by rw [e]; exact List.mem_cons_of_mem _ hd)
        refine ⟨_, some c.item.key, ?_, fifo_putok_new v h2 ?_ rfl ?_ ?_ hvk (fun _ => hlen)
          ?_ ?_⟩
        · simp only [put, hf, hfull, if_true, hev]
        · intro hm
          apply hkn
          rw [e]
          exact List.mem_cons_of_mem _ hm
        · show rest.length + 1 ≤ s.capacity
          rw [e] at hlen
          simp only [List.length_cons] at hlen
          omega
        · intro a
          simp only [val, e, itemOf_cons]
          by_cases e2 : c.item.key = a
          · subst e2
            simp only [if_true]
            rw [(itemOf_eq_none _).2 hk.1]
            rfl
          · have : ¬ some c.item.key = some a := fun e3 => e2 (Option.some.inj e3)
            rw [if_neg this, if_neg e2]
        · intro a ha
          cases ha
          rw [fifo_val_ne_none, e]
          exact List.mem_cons_self _ _
        · intro a ha
          cases ha
          exact ⟨c, rest, e, rfl⟩
    · have hlen : s.heap.length < s.capacity := by
        rw [UMap.size, h.ok.map_eq, length_entriesOf] at hfull
        omega
      refine ⟨_, none, ?_, fifo_putok_new v h hkn rfl hlen ?_ hvk (fun hn => absurd rfl hn)
        ?_ ?_⟩
      · simp only [put, hf, hfull, if_false]
      · intro a; simp
      · intro a ha; cases ha
      · intro a ha; cases ha

/-- One call keeps the invariant. -/
theorem fifo_step_ok {s : FIFOCache T} (h : Inv s) (op : Op T) :
    ∃ s1, step s op = some s1 ∧ Inv s1 ∧ s1.capacity = s.capacity := by
  cases op with
  | get k => exact ⟨s, by simp [step, fifo_get_eq h k], h, rfl⟩
  | put k v =>
    obtain ⟨s1, victim, hp, hok⟩ := fifo_put_ok h k v
    exact ⟨s1, by simp [step, hp], hok.inv, hok.cap_eq⟩

/-- Every sequence of calls runs to the end and keeps the invariant. -/
theorem fifo_run_ok {s : FIFOCache T} (h : Inv s) (ops : List (Op T)) :
    ∃ s1, run s ops = some s1 ∧ Inv s1 ∧ s1.capacity = s.capacity := by
  induction ops generalizing s with
  | nil => exact ⟨s, rfl, h, rfl⟩
  | cons op ops ih =>
    obtain ⟨s1, hs, hw, hc⟩ := fifo_step_ok h op
    obtain ⟨s2, hr, hw2, hc2⟩ := ih hw
    exact ⟨s2, by simp [run, hs, hr], hw2, hc2.trans hc⟩

theorem fifo_reachable_inv {cap : Nat} (hcap : 1 ≤ cap) {s : FIFOCache T}
    (hr : Reachable cap s) : Inv s ∧ s.capacity = cap := by
  obtain ⟨ops, hops⟩ := hr
  obtain ⟨s1, hs1, hw, hc⟩ := fifo_run_ok (fifo_inv_new hcap) ops
  rw [hops] at hs1
  cases hs1
  exact ⟨hw, hc⟩

theorem fifo_lookup_eq {s : FIFOCache T} (h : Inv s) (k : String) : lookup s k = val s k := by
  simp only [lookup, fifo_get_eq h k]

end FIFOCache

namespace LRUCache

variable {T : Type}

theorem lru_inv_new {cap : Nat} (hcap : 1 ≤ cap) : Inv (new cap : LRUCache T) := by
  refine ⟨ListOK.nil _ _, ?_, ?_, hcap, ?_, ?_⟩ <;> simp [new, stampsOf]

theorem lru_find {s : LRUCache T} (h : Inv s) {k : String} {x : CacheItem T}
    (hx : itemOf CacheItem.key s.cache_list k = some x) :
    ∃ i, UMap.find s.cache_map k = some i ∧ StdList.deref s.cache_list i = some x ∧
      StdList.erase s.cache_list i = some (without CacheItem.key k s.cache_list) := by
  obtain ⟨i, hi⟩ := find_some_of_itemOf _ hx
  obtain ⟨y, hy1, hy2, hy3⟩ := find_entriesOf_itemOf _ h.keys_nodup h.ok.ids_nodup hi
  rw [hx] at hy1
  cases hy1
  exact ⟨i, by rw [h.ok.map_eq]; exact hi, hy2, hy3⟩

theorem lru_find_none {s : LRUCache T} (h : Inv s) {k : String}
    (hx : itemOf CacheItem.key s.cache_list k = none) : UMap.find s.cache_map k = none := by
  rw [h.ok.map_eq, find_entriesOf_none, ← itemOf_eq_none]
  exact hx

/-- The effect of `get` on a key that is present. -/
theorem lru_get_hit {s : LRUCache T} (h : Inv s) {k : String} {x : CacheItem T}
    (hx : itemOf CacheItem.key s.cache_list k = some x) :
    get s k = some (touched s k { x with last_accessed := s.clock }, some x.value) := by
  obtain ⟨i, h1, h2, h3⟩ := lru_find h hx
  simp only [get, h1, h2, h3]
  rfl

/-- The effect of `get` on a key that is absent. -/
theorem lru_get_miss {s : LRUCache T} (h : Inv s) {k : String}
    (hx : itemOf CacheItem.key s.cache_list k = none) : get s k = some (s, none) := by
  simp only [get, lru_find_none h hx]

/-- The effect of `put` on a key that is present. -/
theorem lru_put_hit {s : LRUCache T} (h : Inv s) {k : String} {x : CacheItem T}
    (hx : itemOf CacheItem.key s.cache_list k = some x) (v : T) :
    put s k v = some (touched s k { x with value := v, last_accessed := s.clock }) := by
  obtain ⟨i, h1, h2, h3⟩ := lru_find h hx
  simp only [put, h1, h2, h3]
  rfl

theorem lru_not_mem_without (k : String) (l : List (Node (CacheItem T))) :
    k ∉ keysOf CacheItem.key (without CacheItem.key k l) := by
  rw [← List.count_eq_zero, count_keysOf_without, if_pos rfl]

/-- The touched state satisfies the invariant. -/
theorem lru_inv_touched {s : LRUCache T} (h : Inv s) {k : String} {y : CacheItem T}
    (hy : y.key = k) (hs : y.last_accessed = s.clock)
    (hlen : (without CacheItem.key k s.cache_list).length + 1 ≤ s.capacity) :
    Inv (touched s k y) := by
  have hsub := without_sublist CacheItem.key k s.cache_list
  refine ⟨?_, ?_, ?_, h.cap_pos, ?_, ?_⟩
  · have := (h.ok.drop _ k).push _ (lru_not_mem_without k s.cache_list) y hy
    rw [umap_assign_erase] at this
    exact this
  · show (keysOf CacheItem.key (without CacheItem.key k s.cache_list ++ [(⟨s.fresh, y⟩ : Node (CacheItem T))])).Nodup
    simp only [keysOf_append, keysOf_cons, keysOf_nil]
    rw [List.nodup_append]
    refine ⟨h.keys_nodup.sublist (hsub.map _), List.nodup_singleton _, ?_⟩
    intro a ha hb
    simp only [List.mem_singleton] at hb
    rw [hb, hy] at ha
    exact lru_not_mem_without k s.cache_list ha
  · show (without CacheItem.key k s.cache_list ++ [(⟨s.fresh, y⟩ : Node (CacheItem T))]).length ≤ s.capacity
    simp only [List.length_append, List.length_singleton]
    exact hlen
  · show (stampsOf (without CacheItem.key k s.cache_list ++ [(⟨s.fresh, y⟩ : Node (CacheItem T))])).Pairwise _
    simp only [stampsOf, List.map_append, List.map_cons, List.map_nil]
    rw [List.pairwise_append]
    refine ⟨h.sorted.sublist (hsub.map _), List.pairwise_singleton _ _, ?_⟩
    intro a ha b hb
    simp only [List.mem_singleton] at hb
    subst hb
    obtain ⟨c, hc, rfl⟩ := List.mem_map.1 ha
    rw [hs]
    exact h.stamps_lt c (hsub.subset hc)
  · intro c hc
    have hc2 : c ∈ without CacheItem.key k s.cache_list ++ [(⟨s.fresh, y⟩ : Node (CacheItem T))] := hc
    show c.item.last_accessed < s.clock + 1
    rcases List.mem_append.1 hc2 with hc2 | hc2
    · exact Nat.lt_succ_of_lt (h.stamps_lt c (hsub.subset hc2))
    · simp only [List.mem_singleton] at hc2
      subst hc2
      rw [hs]
      exact Nat.lt_succ_self _

theorem lru_val_touched (s : LRUCache T) {k : String} {y : CacheItem T} (hy : y.key = k)
    (a : String) : val (touched s k y) a = if a = k then some y.value else val s a := by
  have hn : CacheItem.key (⟨s.fresh, y⟩ : Node (CacheItem T)).item ∉
      keysOf CacheItem.key (without CacheItem.key k s.cache_list) := by
    show y.key ∉ _
    rw [hy]
    exact lru_not_mem_without k s.cache_list
  show Option.map _ (itemOf CacheItem.key
    (without CacheItem.key k s.cache_list ++ [(⟨s.fresh, y⟩ : Node (CacheItem T))]) a) = _
  rw [itemOf_append_of_not_mem CacheItem.key hn, itemOf_without]
  show Option.map _ (if a = y.key then _ else _) = _
  rw [hy]
  by_cases e : a = k
  · simp [e]
  · simp [e, val]

theorem lru_val_ne_none {s : LRUCache T} {k : String} :
    val s k ≠ none ↔ k ∈ keysOf CacheItem.key s.cache_list := by
  rw [val, Ne, Option.map_eq_none', itemOf_eq_none, not_not]

theorem lru_present_iff {s : LRUCache T} (h : Inv s) (k : String) :
    present s k ↔ val s k ≠ none := by
  rw [lru_val_ne_none, present, h.ok.map_eq, Ne, find_entriesOf_none, not_not]

theorem lru_size_eq {s : LRUCache T} (h : Inv s) : size s = s.cache_list.length := by
  rw [size, UMap.size, h.ok.map_eq, length_entriesOf]

theorem lru_length_touched {s : LRUCache T} (h : Inv s) {k : String} {x : CacheItem T}
    (hx : itemOf CacheItem.key s.cache_list k = some x) :
    (without CacheItem.key k s.cache_list).length + 1 = s.cache_list.length := by
  have h1 := length_without CacheItem.key (k := k) h.keys_nodup
  have h2 := count_keysOf_pos _ hx
  have h3 := List.nodup_iff_count_le_one.1 h.keys_nodup k
  omega

/-- The effect of `get` on a state that satisfies the invariant. -/
theorem lru_get_ok {s : LRUCache T} (h : Inv s) (k : String) :
    ∃ s1, get s k = some (s1, val s k) ∧ Inv s1 ∧ s1.capacity = s.capacity ∧
      (∀ a, val s1 a = val s a) ∧ s1.cache_list.length = s.cache_list.length := by
  cases hx : itemOf CacheItem.key s.cache_list k with
  | some x =>
    have hlen := lru_length_touched h hx
    have hkey : ({ x with last_accessed := s.clock } : CacheItem T).key = k :=
      show x.key = k from itemOf_key _ hx
    refine ⟨_, ?_, lru_inv_touched h hkey rfl ?_, rfl, ?_, ?_⟩
    · rw [lru_get_hit h hx]
      simp only [val, hx, Option.map_some']
    · have := h.size_le
      omega
    · intro a
      rw [lru_val_touched s hkey]
      by_cases e : a = k
      · subst e
        simp [val, hx]
      · simp [e]
    · show (without CacheItem.key k s.cache_list ++ [_]).length = _
      simp only [List.length_append, List.length_singleton]
      exact hlen
  | none =>
    refine ⟨s, ?_, h, rfl, fun _ => rfl, rfl⟩
    rw [lru_get_miss h hx]
    simp only [val, hx, Option.map_none']

/-- The eviction block removes the first entry of the list. -/
theorem lru_evict_cons {s : LRUCache T} (h : Inv s) {c : Node (CacheItem T)}
    {rest : List (Node (CacheItem T))} (e : s.cache_list = c :: rest) :
    evict s = some { s with cache_map := UMap.erase s.cache_map c.item.key,
                            cache_list := rest } ∧
      Inv { s with cache_map := UMap.erase s.cache_map c.item.key, cache_list := rest } := by
  have hk := h.keys_nodup
  rw [e] at hk
  have hw := without_head CacheItem.key hk
  constructor
  · simp only [evict, e, StdList.front, StdList.pop_front]
  · have hd := h.ok.drop _ c.item.key
    rw [e, hw] at hd
    have hs := h.sorted
    rw [e] at hs
    simp only [stampsOf, List.map_cons, List.pairwise_cons] at hs
    refine ⟨hd, (List.nodup_cons.1 hk).2, ?_, h.cap_pos, hs.2, ?_⟩
    · have := h.size_le
      rw [e] at this
      simp only [List.length_cons] at this
      show rest.length ≤ s.capacity
      omega
    · intro d hd2
      exact h.stamps_lt d (by rw [e]; exact List.mem_cons_of_mem _ hd2)

/-- The effect of `put` on a state that satisfies the invariant. -/
theorem lru_put_ok {s : LRUCache T} (h : Inv s) (k : String) (v : T) :
    ∃ s1 victim, put s k v = some s1 ∧ PutOK s s1 k v victim := by
  cases hx : itemOf CacheItem.key s.cache_list k with
  | some x =>
    have hlen := lru_length_touched h hx
    have hkey : ({ x with value := v, last_accessed := s.clock } : CacheItem T).key = k :=
      show x.key = k from itemOf_key _ hx
    refine ⟨_, none, lru_put_hit h hx v, lru_inv_touched h hkey rfl ?_, rfl, ?_, ?_, ?_, ?_⟩
    · have := h.size_le
      omega
    · intro a
      rw [lru_val_touched s hkey]
      by_cases e : a = k
      · simp [e]
      · simp [e]
    · intro hv; exact absurd rfl hv
    · intro a ha; cases ha
    · intro a ha; cases ha
  | none =>
    have hf := lru_find_none h hx
    have hkn : k ∉ keysOf CacheItem.key s.cache_list := (itemOf_eq_none _).1 hx
    have hvk : val s k = none := by simp only [val, hx, Option.map_none']
    by_cases hfull : UMap.size s.cache_map ≥ s.capacity
    · have hsz : s.cache_list.length ≥ s.capacity := by
        rw [UMap.size, h.ok.map_eq, length_entriesOf] at hfull
        exact hfull
      have hlen : s.cache_list.length = s.capacity := Nat.le_antisymm h.size_le hsz
      cases e : s.cache_list with
      | nil =>
        rw [e] at hlen
        have := h.cap_pos
        simp only [List.length_nil] at hlen
        omega
      | cons c rest =>
        obtain ⟨hev, h2⟩ := lru_evict_cons h e
        have hk := h.keys_nodup
        rw [e] at hk
        simp only [keysOf_cons, List.nodup_cons] at hk
        have hkr : k ∉ keysOf CacheItem.key rest := by
          intro hm
          apply hkn
          rw [e]
          exact List.mem_cons_of_mem _ hm
        have hwr : without CacheItem.key k rest = rest := without_eq_self _ hkr
        have hrl : rest.length + 1 = s.capacity := by
          rw [e] at hlen
          simpa using hlen
        have hinv := lru_inv_touched h2 (k := k) (y := CacheItem.new k v s.clock) rfl rfl
          (by show (without CacheItem.key k rest).length + 1 ≤ s.capacity
              rw [hwr]; omega)
        have hst : touched { s with cache_map := UMap.erase s.cache_map c.item.key,
                                    cache_list := rest } k (CacheItem.new k v s.clock) =
            pushBack { s with cache_map := UMap.erase s.cache_map c.item.key,
                              cache_list := rest, clock := s.clock + 1 } k
              (CacheItem.new k v s.clock) := by
          simp only [touched, hwr]
        refine ⟨_, some c.item.key, ?_, hinv, rfl, ?_, fun _ => ⟨hvk, hlen⟩, ?_, ?_⟩
        · simp only [put, hf, hfull, if_true, hev]
          rw [hst]
        · intro a
          rw [lru_val_touched _ (k := k) (y := CacheItem.new k v s.clock) rfl]
          by_cases ea : a = k
          · simp [ea, CacheItem.new]
          · simp only [if_neg ea]
            show Option.map _ (itemOf CacheItem.key rest a) = _
            simp only [val, e, itemOf_cons]
            by_cases e2 : c.item.key = a
            · subst e2
              simp only [if_true]
              rw [(itemOf_eq_none _).2 hk.1]
              rfl
            · have : ¬ some c.item.key = some a := fun e3 => e2 (Option.some.inj e3)
              rw [if_neg this, if_neg e2]
        · intro a ha
          cases ha
          rw [lru_val_ne_none, e]
          exact List.mem_cons_self _ _
        · intro a ha
          cases ha
          exact ⟨c, rest, e, rfl⟩
    · have hlen : s.cache_list.length < s.capacity := by
        rw [UMap.size, h.ok.map_eq, length_entriesOf] at hfull
        omega
      have hwr : without CacheItem.key k s.cache_list = s.cache_list := without_eq_self _ hkn
      have hinv := lru_inv_touched h (k := k) (y := CacheItem.new k v s.clock) rfl rfl
        (by rw [hwr]; omega)
      have hst : touched s k (CacheItem.new k v s.clock) =
          pushBack { s with clock := s.clock + 1 } k (CacheItem.new k v s.clock) := by
        simp only [touched, hwr]
      refine ⟨_, none, ?_, hinv, rfl, ?_, fun hn => absurd rfl hn, ?_, ?_⟩
      · simp only [put, hf, hfull, if_false]
        rw [hst]
      · intro a
        rw [lru_val_touched _ (k := k) (y := CacheItem.new k v s.clock) rfl]
        by_cases ea : a = k
        · simp [ea, CacheItem.new]
        · simp [ea]
      · intro a ha; cases ha
      · intro a ha; cases ha

/-- One call keeps the invariant. -/
theorem lru_step_ok {s : LRUCache T} (h : Inv s) (op : Op T) :
    ∃ s1, step s op = some s1 ∧ Inv s1 ∧ s1.capacity = s.capacity := by
  cases op with
  | get k =>
    obtain ⟨s1, hg, hi, hc, -, -⟩ := lru_get_ok h k
    exact ⟨s1, by simp [step, hg], hi, hc⟩
  | put k v =>
    obtain ⟨s1, victim, hp, hok⟩ := lru_put_ok h k v
    exact ⟨s1, by simp [step, hp], hok.inv, hok.cap_eq⟩

/-- Every sequence of calls runs to the end and keeps the invariant. -/
theorem lru_run_ok {s : LRUCache T} (h : Inv s) (ops : List (Op T)) :
    ∃ s1, run s ops = some s1 ∧ Inv s1 ∧ s1.capacity = s.capacity := by
  induction ops generalizing s with
  | nil => exact ⟨s, rfl, h, rfl⟩
  | cons op ops ih =>
    obtain ⟨s1, hs, hw, hc⟩ := lru_step_ok h op
    obtain ⟨s2, hr, hw2, hc2⟩ := ih hw
    exact ⟨s2, by simp [run, hs, hr], hw2, hc2.trans hc⟩

theorem lru_reachable_inv {cap : Nat} (hcap : 1 ≤ cap) {s : LRUCache T}
    (hr : Reachable cap s) : Inv s ∧ s.capacity = cap := by
  obtain ⟨ops, hops⟩ := hr
  obtain ⟨s1, hs1, hw, hc⟩ := lru_run_ok (lru_inv_new hcap) ops
  rw [hops] at hs1
  cases hs1
  exact ⟨hw, hc⟩

theorem lru_lookup_eq {s : LRUCache T} (h : Inv s) (k : String) : lookup s k = val s k := by
  obtain ⟨s1, hg, -⟩ := lru_get_ok h k
  simp only [lookup, hg]

end LRUCache

section KeyLemmas

variable {α : Type}

theorem umap_find_none_iff {m : UMap α} {k : String} :
    UMap.find m k = none ↔ k ∉ UMap.keys m := by
  induction m with
  | nil => simp [UMap.keys]
  | cons e m ih =>
    rw [umap_find_cons]
    by_cases h : e.1 = k
    · simp [h, UMap.keys]
    · rw [if_neg h, ih]
      simp only [UMap.keys, List.map_cons, List.mem_cons, not_or]
      exact ⟨fun hm => ⟨fun e2 => h e2.symm, hm⟩, fun hm => hm.2⟩

theorem umap_mem_of_find {m : UMap α} {k : String} {v : α} (h : UMap.find m k = some v) :
    (k, v) ∈ m := by
  induction m with
  | nil => simp at h
  | cons e m ih =>
    rw [umap_find_cons] at h
    by_cases he : e.1 = k
    · rw [if_pos he] at h
      cases h
      rw [← he]
      exact List.mem_cons_self _ _
    · rw [if_neg he] at h
      exact List.mem_cons_of_mem _ (ih h)

theorem umap_find_of_mem {m : UMap α} (hn : (UMap.keys m).Nodup) {k : String} {v : α}
    (h : (k, v) ∈ m) : UMap.find m k = some v := by
  induction m with
  | nil => cases h
  | cons e m ih =>
    simp only [UMap.keys, List.map_cons, List.nodup_cons] at hn
    rw [umap_find_cons]
    rcases List.mem_cons.1 h with h | h
    · rw [← h]
      simp
    · have : e.1 ≠ k := by
        intro e2
        apply hn.1
        rw [e2]
        exact List.mem_map.2 ⟨(k, v), h, rfl⟩
      rw [if_neg this]
      exact ih hn.2 h

theorem umap_mem_erase {m : UMap α} {k : String} {e : String × α} :
    e ∈ UMap.erase m k ↔ e ∈ m ∧ e.1 ≠ k := by
  simp [UMap.erase, List.mem_filter]

theorem umap_mem_assign {m : UMap α} {k : String} {v : α} {e : String × α} :
    e ∈ UMap.assign m k v ↔ (e ∈ m ∧ e.1 ≠ k) ∨ e = (k, v) := by
  rw [UMap.assign, List.mem_append, umap_mem_erase, List.mem_singleton]

theorem umap_keys_erase (m : UMap α) (k : String) :
    UMap.keys (UMap.erase m k) = List.filter (fun a => decide (a ≠ k)) (UMap.keys m) := by
  induction m with
  | nil => rfl
  | cons e m ih =>
    rw [umap_erase_cons]
    by_cases h : e.1 = k
    · rw [if_pos h, ih]
      simp [UMap.keys, List.filter_cons, h]
    · rw [if_neg h]
      simp only [UMap.keys, List.map_cons, List.filter_cons] at ih ⊢
      simp [h, ih]

theorem umap_mem_keys_erase {m : UMap α} {k a : String} :
    a ∈ UMap.keys (UMap.erase m k) ↔ a ∈ UMap.keys m ∧ a ≠ k := by
  rw [umap_keys_erase, List.mem_filter]
  simp

theorem umap_keys_assign (m : UMap α) (k : String) (v : α) :
    UMap.keys (UMap.assign m k v) = UMap.keys (UMap.erase m k) ++ [k] := by
  simp [UMap.assign, UMap.keys]

theorem umap_mem_keys_assign {m : UMap α} {k a : String} {v : α} :
    a ∈ UMap.keys (UMap.assign m k v) ↔ a = k ∨ a ∈ UMap.keys m := by
  rw [umap_keys_assign, List.mem_append, umap_mem_keys_erase, List.mem_singleton]
  constructor
  · rintro (h | h)
    · exact Or.inr h.1
    · exact Or.inl h
  · rintro (h | h)
    · exact Or.inr h
    · by_cases e : a = k
      · exact Or.inr e
      · exact Or.inl ⟨h, e⟩

theorem umap_nodup_erase {m : UMap α} (h : (UMap.keys m).Nodup) (k : String) :
    (UMap.keys (UMap.erase m k)).Nodup := by
  rw [umap_keys_erase]
  exact h.sublist (List.filter_sublist _)

theorem umap_nodup_assign {m : UMap α} (h : (UMap.keys m).Nodup) (k : String) (v : α) :
    (UMap.keys (UMap.assign m k v)).Nodup := by
  rw [umap_keys_assign, List.nodup_append]
  refine ⟨umap_nodup_erase h k, List.nodup_singleton _, ?_⟩
  intro a ha hb
  simp only [List.mem_singleton] at hb
  rw [umap_mem_keys_erase] at ha
  exact ha.2 hb

theorem umap_erase_of_not_mem {m : UMap α} {k : String} (h : k ∉ UMap.keys m) :
    UMap.erase m k = m := by
  rw [UMap.erase]
  apply List.filter_eq_self.2
  intro e he
  have : e.1 ≠ k := by
    intro e2
    apply h
    rw [← e2]
    exact List.mem_map.2 ⟨e, he, rfl⟩
  simpa using this

theorem umap_length_erase {m : UMap α} (hn : (UMap.keys m).Nodup) {k : String}
    (h : k ∈ UMap.keys m) : (UMap.erase m k).length + 1 = m.length := by
  induction m with
  | nil => cases h
  | cons e m ih =>
    simp only [UMap.keys, List.map_cons, List.nodup_cons, List.mem_cons] at hn h
    rw [umap_erase_cons]
    by_cases he : e.1 = k
    · rw [if_pos he, umap_erase_of_not_mem (he ▸ hn.1)]
      rfl
    · rw [if_neg he]
      have hk : k ∈ UMap.keys m := by
        rcases h with h | h
        · exact absurd h.symm he
        · exact h
      simp only [List.length_cons]
      rw [ih hn.2 hk]

theorem umap_length_assign_new {m : UMap α} {k : String} (h : k ∉ UMap.keys m) (v : α) :
    (UMap.assign m k v).length = m.length + 1 := by
  rw [UMap.assign, umap_erase_of_not_mem h]
  simp

theorem umap_length_assign_old {m : UMap α} (hn : (UMap.keys m).Nodup) {k : String}
    (h : k ∈ UMap.keys m) (v : α) : (UMap.assign m k v).length = m.length := by
  rw [UMap.assign, List.length_append, List.length_singleton, umap_length_erase hn h]

theorem umap_index_of_find {m : UMap α} {k : String} {v : α} (h : UMap.find m k = some v)
    (d : α) : UMap.index m k d = (v, m) := by
  simp only [UMap.index, h]

theorem wrapInt_le (x : Int) : wrapInt x ≤ INT_MAX := by
  unfold wrapInt INT_MAX
  omega

theorem wrapInt_of_lt {x : Int} (h0 : -2147483648 ≤ x) (h : x < INT_MAX) :
    wrapInt (x + 1) = x + 1 := by
  unfold INT_MAX at h
  unfold wrapInt
  omega

end KeyLemmas

namespace LFUCache

variable {T : Type}

/-- One pass of the scan keeps a selection that no seen pair comes before. -/
theorem lfu_scan_step {atm : UMap Nat} {seen : UMap Int} {st : LFUScan}
    (h : Scanned atm seen st) (e : String × Int) {t : Nat}
    (ht : UMap.find atm e.1 = some t) : Scanned atm (seen ++ [e]) (scanStep st e) := by
  have hidx : UMap.index st.access_time_map e.1 0 = (t, atm) := by
    rw [h.atm_eq]
    exact umap_index_of_find ht 0
  have hidx2 : UMap.index atm e.1 0 = (t, atm) := umap_index_of_find ht 0
  by_cases h1 : e.2 < st.min_freq
  · have hs : scanStep st e =
        { evict_key := e.1, min_freq := e.2, oldest_time := t, access_time_map := atm } := by
      simp only [scanStep, h1, if_true, hidx]
    rw [hs]
    refine ⟨rfl, by simp, ht, ?_⟩
    intro e2 he2 t2 ht2
    rcases List.mem_append.1 he2 with he2 | he2
    · rcases h.least e2 he2 t2 ht2 with hl | hl
      · exact Or.inl (Int.lt_trans h1 hl)
      · exact Or.inl (hl.1 ▸ h1)
    · simp only [List.mem_singleton] at he2
      subst he2
      rw [ht] at ht2
      cases ht2
      exact Or.inr ⟨rfl, Nat.le_refl _⟩
  · by_cases h2 : e.2 = st.min_freq
    · by_cases h3 : t < st.oldest_time
      · have hs : scanStep st e =
            { evict_key := e.1, min_freq := e.2, oldest_time := t, access_time_map := atm } := by
          simp only [scanStep, h1, if_false, h2, if_true, hidx, h3, hidx2, lt_self_iff_false]
        rw [hs]
        refine ⟨rfl, by simp, ht, ?_⟩
        intro e3 he3 t3 ht3
        rcases List.mem_append.1 he3 with he3 | he3
        · rcases h.least e3 he3 t3 ht3 with hl | hl
          · exact Or.inl (h2 ▸ hl)
          · exact Or.inr ⟨h2.trans hl.1, Nat.le_trans (Nat.le_of_lt h3) hl.2⟩
        · simp only [List.mem_singleton] at he3
          subst he3
          rw [ht] at ht3
          cases ht3
          exact Or.inr ⟨rfl, Nat.le_refl _⟩
      · have hs : scanStep st e = { st with access_time_map := atm } := by
          simp only [scanStep, h1, if_false, h2, if_true, hidx, h3, lt_self_iff_false]
        rw [hs]
        refine ⟨rfl, List.mem_append_left _ h.mem, h.time, ?_⟩
        intro e3 he3 t3 ht3
        rcases List.mem_append.1 he3 with he3 | he3
        · exact h.least e3 he3 t3 ht3
        · simp only [List.mem_singleton] at he3
          subst he3
          rw [ht] at ht3
          cases ht3
          exact Or.inr ⟨h2.symm, Nat.le_of_not_lt h3⟩
    · have hs : scanStep st e = st := by
        simp only [scanStep, h1, if_false, h2]
      rw [hs]
      refine ⟨h.atm_eq, List.mem_append_left _ h.mem, h.time, ?_⟩
      intro e3 he3 t3 ht3
      rcases List.mem_append.1 he3 with he3 | he3
      · exact h.least e3 he3 t3 ht3
      · simp only [List.mem_singleton] at he3
        subst he3
        have : st.min_freq < e3.2 := by
          have h4 : st.min_freq ≤ e3.2 := Int.not_lt.1 h1
          exact lt_of_le_of_ne h4 (fun e4 => h2 e4.symm)
        exact Or.inl this

/-- The first pass of the scan selects its pair. -/
theorem lfu_scan_first {atm : UMap Nat} {clock : Nat} (e : String × Int) {t : Nat}
    (ht : UMap.find atm e.1 = some t) (hlt : t < clock) (hf : e.2 ≤ INT_MAX) :
    Scanned atm [e]
      (scanStep
        { evict_key := "", min_freq := INT_MAX, oldest_time := clock, access_time_map := atm }
        e) := by
  have hidx : UMap.index atm e.1 0 = (t, atm) := umap_index_of_find ht 0
  have hs : scanStep
      { evict_key := "", min_freq := INT_MAX, oldest_time := clock, access_time_map := atm }
      e =
      { evict_key := e.1, min_freq := e.2, oldest_time := t, access_time_map := atm } := by
    by_cases h1 : e.2 < INT_MAX
    · simp only [scanStep, h1, if_true, hidx]
    · have h2 : e.2 = INT_MAX := le_antisymm hf (Int.not_lt.1 h1)
      simp only [scanStep, h1, if_false, h2, if_true, hidx, hlt, lt_self_iff_false]
  rw [hs]
  refine ⟨rfl, by simp, ht, ?_⟩
  intro e3 he3 t3 ht3
  simp only [List.mem_singleton] at he3
  subst he3
  rw [ht] at ht3
  cases ht3
  exact Or.inr ⟨rfl, Nat.le_refl _⟩

/-- The scan over further pairs keeps its invariant. -/
theorem lfu_scan_fold {atm : UMap Nat} (l : UMap Int) :
    ∀ (seen : UMap Int) (st : LFUScan), Scanned atm seen st →
      (∀ e ∈ l, ∃ t, UMap.find atm e.1 = some t) →
      Scanned atm (seen ++ l) (List.foldl scanStep st l) := by
  induction l with
  | nil =>
    intro seen st h _
    simpa using h
  | cons e l ih =>
    intro seen st h hl
    obtain ⟨t, ht⟩ := hl e (List.mem_cons_self _ _)
    have := ih (seen ++ [e]) (scanStep st e) (lfu_scan_step h e ht)
      (fun e2 he2 => hl e2 (List.mem_cons_of_mem _ he2))
    simpa using this

/-- The scan of a map that is not empty selects one of its pairs, and no pair
comes before the one selected. -/
theorem lfu_scan_spec {atm : UMap Nat} {clock : Nat} {fm : UMap Int} (hne : fm ≠ [])
    (hk : ∀ e ∈ fm, ∃ t, UMap.find atm e.1 = some t ∧ t < clock)
    (hf : ∀ e ∈ fm, e.2 ≤ INT_MAX) :
    Scanned atm fm
      (List.foldl scanStep
        { evict_key := "", min_freq := INT_MAX, oldest_time := clock, access_time_map := atm }
        fm) := by
  cases fm with
  | nil => exact absurd rfl hne
  | cons e l =>
    obtain ⟨t, ht, hlt⟩ := hk e (List.mem_cons_self _ _)
    have h1 := lfu_scan_first e ht hlt (hf e (List.mem_cons_self _ _))
    have := lfu_scan_fold l [e] _ h1 (fun e2 he2 => by
      obtain ⟨t2, ht2, -⟩ := hk e2 (List.mem_cons_of_mem _ he2)
      exact ⟨t2, ht2⟩)
    simpa using this

theorem lfu_inv_new {cap : Nat} (hcap : 1 ≤ cap) : Inv (new cap : LFUCache T) := by
  refine ⟨?_, ?_, ?_, ?_, ?_, ?_, hcap, ?_, ?_, ?_⟩ <;> simp [new, UMap.keys]

theorem lfu_val_ne_none {s : LFUCache T} {k : String} :
    val s k ≠ none ↔ k ∈ UMap.keys s.cache_map := by
  rw [val, Ne, umap_find_none_iff, not_not]

theorem lfu_present_iff (s : LFUCache T) (k : String) : present s k ↔ val s k ≠ none :=
  Iff.rfl

/-- The statements of `touch` keep the invariant for a key that is present. -/
theorem lfu_inv_touch {s : LFUCache T} (h : Inv s) {k : String}
    (hk : k ∈ UMap.keys s.cache_map) : Inv (touch s k) := by
  refine ⟨h.nodup_c, umap_nodup_assign h.nodup_f _ _, umap_nodup_assign h.nodup_t _ _, ?_, ?_,
    h.size_le, h.cap_pos, ?_, ?_, ?_⟩
  · intro a
    show a ∈ UMap.keys (UMap.assign s.frequency_map k _) ↔ _
    rw [umap_mem_keys_assign, h.keys_f]
    constructor
    · rintro (e | e)
      · exact e ▸ hk
      · exact e
    · exact Or.inr
  · intro a
    show a ∈ UMap.keys (UMap.assign s.access_time_map k _) ↔ _
    rw [umap_mem_keys_assign, h.keys_t]
    constructor
    · rintro (e | e)
      · exact e ▸ hk
      · exact e
    · exact Or.inr
  · intro e he
    have he2 : e ∈ UMap.assign s.frequency_map k
        (wrapInt ((UMap.index s.frequency_map k 0).1 + 1)) := he
    rcases umap_mem_assign.1 he2 with he2 | he2
    · exact h.freq_le e he2.1
    · rw [he2]
      exact wrapInt_le _
  · intro e he
    have he2 : e ∈ UMap.assign s.access_time_map k s.clock := he
    show e.2 < s.clock + 1
    rcases umap_mem_assign.1 he2 with he2 | he2
    · exact Nat.lt_succ_of_lt (h.times_lt e he2.1)
    · rw [he2]
      exact Nat.lt_succ_self _
  · show (List.map Prod.snd (UMap.assign s.access_time_map k s.clock)).Nodup
    rw [UMap.assign, List.map_append, List.nodup_append]
    refine ⟨h.times_nodup.sublist ((List.filter_sublist _).map _), by simp, ?_⟩
    intro a ha hb
    simp only [List.map_cons, List.map_nil, List.mem_singleton] at hb
    obtain ⟨e, he, rfl⟩ := List.mem_map.1 ha
    have := h.times_lt e (umap_mem_erase.1 he).1
    omega

/-- The effect of `get` on a state that satisfies the invariant. -/
theorem lfu_get_ok {s : LFUCache T} (h : Inv s) (k : String) :
    ∃ s1, get s k = some (s1, val s k) ∧ Inv s1 ∧ s1.capacity = s.capacity ∧
      s1.cache_map = s.cache_map := by
  cases hx : UMap.find s.cache_map k with
  | some x =>
    have hk : k ∈ UMap.keys s.cache_map := by
      by_contra hc
      rw [← umap_find_none_iff, hx] at hc
      cases hc
    refine ⟨touch s k, ?_, lfu_inv_touch h hk, rfl, rfl⟩
    simp only [get, hx, val]
  | none =>
    refine ⟨s, ?_, h, rfl, rfl⟩
    simp only [get, hx, val]

end LFUCache

namespace LFUCache

variable {T : Type}

theorem lfu_inv_evicted {s : LFUCache T} (h : Inv s) {victim : String}
    (hv : victim ∈ UMap.keys s.cache_map) :
    Inv (evicted s victim) ∧ (evicted s victim).cache_map.length + 1 = s.cache_map.length := by
  have hlen := umap_length_erase h.nodup_c hv
  refine ⟨⟨umap_nodup_erase h.nodup_c _, umap_nodup_erase h.nodup_f _,
    umap_nodup_erase h.nodup_t _, ?_, ?_, ?_, h.cap_pos, ?_, ?_, ?_⟩, hlen⟩
  · intro a
    show a ∈ UMap.keys (UMap.erase s.frequency_map victim) ↔
      a ∈ UMap.keys (UMap.erase s.cache_map victim)
    rw [umap_mem_keys_erase, umap_mem_keys_erase, h.keys_f]
  · intro a
    show a ∈ UMap.keys (UMap.erase s.access_time_map victim) ↔
      a ∈ UMap.keys (UMap.erase s.cache_map victim)
    rw [umap_mem_keys_erase, umap_mem_keys_erase, h.keys_t]
  · show (UMap.erase s.cache_map victim).length ≤ s.capacity
    have := h.size_le
    omega
  · intro e he
    exact h.freq_le e (umap_mem_erase.1 he).1
  · intro e he
    exact Nat.lt_succ_of_lt (h.times_lt e (umap_mem_erase.1 he).1)
  · exact h.times_nodup.sublist ((List.filter_sublist _).map _)

theorem lfu_inv_inserted {s : LFUCache T} (h : Inv s) {k : String}
    (hk : k ∉ UMap.keys s.cache_map) (v : T) (hlen : s.cache_map.length + 1 ≤ s.capacity) :
    Inv (inserted s k v) := by
  refine ⟨umap_nodup_assign h.nodup_c _ _, umap_nodup_assign h.nodup_f _ _,
    umap_nodup_assign h.nodup_t _ _, ?_, ?_, ?_, h.cap_pos, ?_, ?_, ?_⟩
  · intro a
    show a ∈ UMap.keys (UMap.assign s.frequency_map k 1) ↔
      a ∈ UMap.keys (UMap.assign s.cache_map k v)
    rw [umap_mem_keys_assign, umap_mem_keys_assign, h.keys_f]
  · intro a
    show a ∈ UMap.keys (UMap.assign s.access_time_map k s.clock) ↔
      a ∈ UMap.keys (UMap.assign s.cache_map k v)
    rw [umap_mem_keys_assign, umap_mem_keys_assign, h.keys_t]
  · show (UMap.assign s.cache_map k v).length ≤ s.capacity
    rw [umap_length_assign_new hk]
    exact hlen
  · intro e he
    have he2 : e ∈ UMap.assign s.frequency_map k 1 := he
    rcases umap_mem_assign.1 he2 with he2 | he2
    · exact h.freq_le e he2.1
    · rw [he2]
      show (1 : Int) ≤ INT_MAX
      decide
  · intro e he
    have he2 : e ∈ UMap.assign s.access_time_map k s.clock := he
    show e.2 < s.clock + 1
    rcases umap_mem_assign.1 he2 with he2 | he2
    · exact Nat.lt_succ_of_lt (h.times_lt e he2.1)
    · rw [he2]
      exact Nat.lt_succ_self _
  · show (List.map Prod.snd (UMap.assign s.access_time_map k s.clock)).Nodup
    rw [UMap.assign, List.map_append, List.nodup_append]
    refine ⟨h.times_nodup.sublist ((List.filter_sublist _).map _), by simp, ?_⟩
    intro a ha hb
    simp only [List.map_cons, List.map_nil, List.mem_singleton] at hb
    obtain ⟨e, he, rfl⟩ := List.mem_map.1 ha
    have := h.times_lt e (umap_mem_erase.1 he).1
    omega

/-- The effect of `put` on a key that is present. -/
theorem lfu_put_hit {s : LFUCache T} (h : Inv s) {k : String} {x : T}
    (hx : UMap.find s.cache_map k = some x) (v : T) :
    put s k v = some (touch { s with cache_map := UMap.assign s.cache_map k v } k) ∧
      PutOK s (touch { s with cache_map := UMap.assign s.cache_map k v } k) k v none := by
  have hk : k ∈ UMap.keys s.cache_map := by
    by_contra hc
    rw [← umap_find_none_iff, hx] at hc
    cases hc
  have h1 : Inv { s with cache_map := UMap.assign s.cache_map k v } := by
    refine ⟨umap_nodup_assign h.nodup_c _ _, h.nodup_f, h.nodup_t, ?_, ?_, ?_, h.cap_pos,
      h.freq_le, h.times_lt, h.times_nodup⟩
    · intro a
      show a ∈ UMap.keys s.frequency_map ↔ a ∈ UMap.keys (UMap.assign s.cache_map k v)
      rw [umap_mem_keys_assign, h.keys_f]
      exact ⟨Or.inr, fun e => e.elim (fun e2 => e2 ▸ hk) id⟩
    · intro a
      show a ∈ UMap.keys s.access_time_map ↔ a ∈ UMap.keys (UMap.assign s.cache_map k v)
      rw [umap_mem_keys_assign, h.keys_t]
      exact ⟨Or.inr, fun e => e.elim (fun e2 => e2 ▸ hk) id⟩
    · show (UMap.assign s.cache_map k v).length ≤ s.capacity
      rw [umap_length_assign_old h.nodup_c hk]
      exact h.size_le
  have hk1 : k ∈ UMap.keys (UMap.assign s.cache_map k v) :=
    umap_mem_keys_assign.2 (Or.inl rfl)
  refine ⟨?_, lfu_inv_touch h1 hk1, rfl, ?_, fun hv => absurd rfl hv, ?_⟩
  · simp only [put, hx]
  · intro a
    show UMap.find (UMap.assign s.cache_map k v) a = _
    rw [umap_find_assign]
    by_cases e : a = k
    · simp [e]
    · simp [e, val]
  · intro a ha; cases ha

/-- The eviction block removes a key that is present and that no other key
comes before, by frequency and then by access time. -/
theorem lfu_evict_spec {s : LFUCache T} (h : Inv s) (hfull : s.cache_map.length ≥ s.capacity) :
    ∃ victim f t, evict s = evicted s victim ∧ victim ∈ UMap.keys s.cache_map ∧
      UMap.find s.frequency_map victim = some f ∧
      UMap.find s.access_time_map victim = some t ∧
      ∀ a fa ta, a ≠ victim → UMap.find s.frequency_map a = some fa →
        UMap.find s.access_time_map a = some ta → f < fa ∨ (f = fa ∧ t < ta) := by
  have hne : s.frequency_map ≠ [] := by
    intro e
    have hc : s.cache_map ≠ [] := by
      intro e2
      rw [e2] at hfull
      have := h.cap_pos
      simp only [List.length_nil] at hfull
      omega
    obtain ⟨c, rest, e3⟩ := List.exists_cons_of_ne_nil hc
    have : c.1 ∈ UMap.keys s.cache_map := by
      rw [e3]
      exact List.mem_map.2 ⟨c, List.mem_cons_self _ _, rfl⟩
    rw [← h.keys_f, e] at this
    cases this
  have hk : ∀ e ∈ s.frequency_map,
      ∃ t, UMap.find s.access_time_map e.1 = some t ∧ t < s.clock := by
    intro e he
    have h1 : e.1 ∈ UMap.keys s.frequency_map := List.mem_map.2 ⟨e, he, rfl⟩
    rw [h.keys_f, ← h.keys_t] at h1
    cases ht : UMap.find s.access_time_map e.1 with
    | none =>
      rw [umap_find_none_iff] at ht
      exact absurd h1 ht
    | some t => exact ⟨t, rfl, h.times_lt _ (umap_mem_of_find ht)⟩
  have hsc := lfu_scan_spec hne hk h.freq_le
  refine ⟨_, _, _, ?_, ?_, umap_find_of_mem h.nodup_f hsc.mem, hsc.time, ?_⟩
  · simp only [evict, evicted, hsc.atm_eq]
  · rw [← h.keys_f]
    exact List.mem_map.2 ⟨_, hsc.mem, rfl⟩
  · intro a fa ta hav hfa hta
    rcases hsc.least (a, fa) (umap_mem_of_find hfa) ta hta with hl | hl
    · exact Or.inl hl
    · refine Or.inr ⟨hl.1, lt_of_le_of_ne hl.2 ?_⟩
      intro e
      apply hav
      have m1 := umap_mem_of_find hta
      have m2 := umap_mem_of_find hsc.time
      rw [e] at m2
      have := List.inj_on_of_nodup_map h.times_nodup m1 m2 rfl
      exact (Prod.ext_iff.1 this).1

/-- The effect of `put` on a state that satisfies the invariant. -/
theorem lfu_put_ok {s : LFUCache T} (h : Inv s) (k : String) (v : T) :
    ∃ s1 victim, put s k v = some s1 ∧ PutOK s s1 k v victim := by
  cases hx : UMap.find s.cache_map k with
  | some x =>
    obtain ⟨hp, hok⟩ := lfu_put_hit h hx v
    exact ⟨_, none, hp, hok⟩
  | none =>
    have hkn : k ∉ UMap.keys s.cache_map := umap_find_none_iff.1 hx
    by_cases hfull : UMap.size s.cache_map ≥ s.capacity
    · have hfull2 : s.cache_map.length ≥ s.capacity := hfull
      obtain ⟨victim, f, t, hev, hv, -, -, -⟩ := lfu_evict_spec h hfull2
      obtain ⟨hinv, hlen⟩ := lfu_inv_evicted h hv
      have hkn2 : k ∉ UMap.keys (evicted s victim).cache_map := by
        show k ∉ UMap.keys (UMap.erase s.cache_map victim)
        rw [umap_mem_keys_erase]
        exact fun hc => hkn hc.1
      have hsz := h.size_le
      have hcap : (evicted s victim).capacity = s.capacity := rfl
      refine ⟨inserted (evicted s victim) k v, some victim, ?_,
        lfu_inv_inserted hinv hkn2 v (by rw [hcap]; omega), rfl, ?_,
        fun _ => ⟨hx, by omega⟩, ?_⟩
      · simp only [put, hx, hfull, if_true, hev]
        rfl
      · intro a
        show UMap.find (UMap.assign (UMap.erase s.cache_map victim) k v) a = _
        rw [umap_find_assign, umap_find_erase]
        by_cases e : a = k
        · simp [e]
        · by_cases e2 : a = victim
          · simp [e, e2]
          · have : ¬ victim = a := fun e3 => e2 e3.symm
            simp [e, e2, this, val]
      · intro a ha
        cases ha
        exact lfu_val_ne_none.2 hv
    · have hlen : s.cache_map.length < s.capacity := Nat.lt_of_not_le hfull
      refine ⟨inserted s k v, none, ?_, lfu_inv_inserted h hkn v hlen, rfl, ?_,
        fun hn => absurd rfl hn, ?_⟩
      · simp only [put, hx, hfull, if_false]
        rfl
      · intro a
        show UMap.find (UMap.assign s.cache_map k v) a = _
        rw [umap_find_assign]
        by_cases e : a = k
        · simp [e]
        · simp [e, val]
      · intro a ha; cases ha

/-- One call keeps the invariant. -/
theorem lfu_step_ok {s : LFUCache T} (h : Inv s) (op : Op T) :
    ∃ s1, step s op = some s1 ∧ Inv s1 ∧ s1.capacity = s.capacity := by
  cases op with
  | get k =>
    obtain ⟨s1, hg, hi, hc, -⟩ := lfu_get_ok h k
    exact ⟨s1, by simp [step, hg], hi, hc⟩
  | put k v =>
    obtain ⟨s1, victim, hp, hok⟩ := lfu_put_ok h k v
    exact ⟨s1, by simp [step, hp], hok.inv, hok.cap_eq⟩

/-- Every sequence of calls runs to the end and keeps the invariant. -/
theorem lfu_run_ok {s : LFUCache T} (h : Inv s) (ops : List (Op T)) :
    ∃ s1, run s ops = some s1 ∧ Inv s1 ∧ s1.capacity = s.capacity := by
  induction ops generalizing s with
  | nil => exact ⟨s, rfl, h, rfl⟩
  | cons op ops ih =>
    obtain ⟨s1, hs, hw, hc⟩ := lfu_step_ok h op
    obtain ⟨s2, hr, hw2, hc2⟩ := ih hw
    exact ⟨s2, by simp [run, hs, hr], hw2, hc2.trans hc⟩

theorem lfu_reachable_inv {cap : Nat} (hcap : 1 ≤ cap) {s : LFUCache T}
    (hr : Reachable cap s) : Inv s ∧ s.capacity = cap := by
  obtain ⟨ops, hops⟩ := hr
  obtain ⟨s1, hs1, hw, hc⟩ := lfu_run_ok (lfu_inv_new hcap) ops
  rw [hops] at hs1
  cases hs1
  exact ⟨hw, hc⟩

theorem lfu_lookup_eq {s : LFUCache T} (h : Inv s) (k : String) : lookup s k = val s k := by
  obtain ⟨s1, hg, -⟩ := lfu_get_ok h k
  simp only [lookup, hg]

end LFUCache

section Frames

variable {V : Type}

/-- What a `put` that rewrites the values as in `PutOK` does to the other
keys: at most one is lost, none when nothing was evicted, and those that stay
keep their values. -/
theorem frame_of_vals {val val1 : String → Option V} {k : String} {v : V}
    {victim : Option String}
    (hv : ∀ a, val1 a = if a = k then some v else if victim = some a then none else val a) :
    (∀ a b, val a ≠ none → val1 a = none → val b ≠ none → val1 b = none → a = b) ∧
      (victim = none → ∀ a, val a ≠ none → val1 a ≠ none) ∧
      (∀ a, a ≠ k → val1 a ≠ none → val1 a = val a) ∧ val1 k = some v := by
  have key : ∀ a, val a ≠ none → val1 a = none → victim = some a := by
    intro a h1 h2
    rw [hv a] at h2
    by_cases e : a = k
    · rw [if_pos e] at h2
      cases h2
    · rw [if_neg e] at h2
      by_cases e2 : victim = some a
      · exact e2
      · rw [if_neg e2] at h2
        exact absurd h2 h1
  refine ⟨?_, ?_, ?_, ?_⟩
  · intro a b ha ha1 hb hb1
    have h1 := key a ha ha1
    have h2 := key b hb hb1
    rw [h1] at h2
    exact Option.some.inj h2
  · intro hn a ha h1
    have := key a ha h1
    rw [hn] at this
    cases this
  · intro a hak h1
    rw [hv a, if_neg hak] at h1 ⊢
    by_cases e2 : victim = some a
    · rw [if_pos e2] at h1
      exact absurd rfl h1
    · rw [if_neg e2]
  · rw [hv k, if_pos rfl]

end Frames

namespace FIFOCache

variable {T : Type}

/-- What `put` does to the keys that are present, in a reachable state. -/
theorem fifo_put_frame {cap : Nat} (hcap : 1 ≤ cap) {s : FIFOCache T} (hr : Reachable cap s)
    (k : String) (v : T) :
    ∃ s1 s2, put s k v = some s1 ∧ get s1 k = some (s2, some v) ∧
      (∀ a b, present s a → ¬ present s1 a → present s b → ¬ present s1 b → a = b) ∧
      (present s k ∨ size s < cap → ∀ a, present s a → present s1 a) ∧
      (∀ a, a ≠ k → present s1 a → lookup s1 a = lookup s a) := by
  obtain ⟨h, hc⟩ := fifo_reachable_inv hcap hr
  obtain ⟨s1, victim, hp, hok⟩ := fifo_put_ok h k v
  obtain ⟨f1, f2, f3, f4⟩ := frame_of_vals hok.vals
  refine ⟨s1, s1, hp, ?_, ?_, ?_, ?_⟩
  · rw [fifo_get_eq hok.inv, f4]
  · intro a b ha ha1 hb hb1
    rw [fifo_present_iff h] at ha hb
    rw [fifo_present_iff hok.inv, not_not] at ha1 hb1
    exact f1 a b ha ha1 hb hb1
  · intro hor a ha
    rw [fifo_present_iff h] at ha
    rw [fifo_present_iff hok.inv]
    apply f2 _ a ha
    by_contra hn
    obtain ⟨hk, hfull⟩ := hok.victim_full hn
    rcases hor with hor | hor
    · rw [fifo_present_iff h] at hor
      exact hor hk
    · rw [fifo_size_eq h, hfull, hc] at hor
      exact Nat.lt_irrefl _ hor
  · intro a hak ha
    rw [fifo_present_iff hok.inv] at ha
    rw [fifo_lookup_eq hok.inv, fifo_lookup_eq h]
    exact f3 a hak ha

/-- With capacity 0 every `put` on the fresh cache is undefined: the fresh
cache is the one state. -/
theorem fifo_run_zero (ops : List (Op T)) {s : FIFOCache T} (h : run (new 0) ops = some s) :
    s = new 0 := by
  induction ops with
  | nil =>
    simp only [run, Option.some.injEq] at h
    exact h.symm
  | cons op ops ih =>
    cases op with
    | get k =>
      have e : step (new 0 : FIFOCache T) (Op.get k) = some (new 0) := rfl
      simp only [run, e] at h
      exact ih h
    | put k v =>
      have e : step (new 0 : FIFOCache T) (Op.put k v) = none := rfl
      simp only [run, e] at h
      cases h

/-- Two `get`s in a row, in a reachable state. -/
theorem fifo_get_twice {cap : Nat} {s : FIFOCache T} (hr : Reachable cap s) (k : String) :
    ∃ s1 s2 r, get s k = some (s1, r) ∧ get s1 k = some (s2, r) ∧
      size s1 = size s ∧ size s2 = size s := by
  rcases Nat.eq_zero_or_pos cap with e | hcap
  · subst e
    obtain ⟨ops, hops⟩ := hr
    rw [fifo_run_zero ops hops]
    exact ⟨new 0, new 0, none, rfl, rfl, rfl, rfl⟩
  · obtain ⟨h, -⟩ := fifo_reachable_inv hcap hr
    exact ⟨s, s, _, fifo_get_eq h k, fifo_get_eq h k, rfl, rfl⟩

end FIFOCache

namespace LRUCache

variable {T : Type}

/-- What `put` does to the keys that are present, in a reachable state. -/
theorem lru_put_frame {cap : Nat} (hcap : 1 ≤ cap) {s : LRUCache T} (hr : Reachable cap s)
    (k : String) (v : T) :
    ∃ s1 s2, put s k v = some s1 ∧ get s1 k = some (s2, some v) ∧
      (∀ a b, present s a → ¬ present s1 a → present s b → ¬ present s1 b → a = b) ∧
      (present s k ∨ size s < cap → ∀ a, present s a → present s1 a) ∧
      (∀ a, a ≠ k → present s1 a → lookup s1 a = lookup s a) := by
  obtain ⟨h, hc⟩ := lru_reachable_inv hcap hr
  obtain ⟨s1, victim, hp, hok⟩ := lru_put_ok h k v
  obtain ⟨f1, f2, f3, f4⟩ := frame_of_vals hok.vals
  obtain ⟨s2, hg, -⟩ := lru_get_ok hok.inv k
  refine ⟨s1, s2, hp, ?_, ?_, ?_, ?_⟩
  · rw [hg, f4]
  · intro a b ha ha1 hb hb1
    rw [lru_present_iff h] at ha hb
    rw [lru_present_iff hok.inv, not_not] at ha1 hb1
    exact f1 a b ha ha1 hb hb1
  · intro hor a ha
    rw [lru_present_iff h] at ha
    rw [lru_present_iff hok.inv]
    apply f2 _ a ha
    by_contra hn
    obtain ⟨hk, hfull⟩ := hok.victim_full hn
    rcases hor with hor | hor
    · rw [lru_present_iff h] at hor
      exact hor hk
    · rw [lru_size_eq h, hfull, hc] at hor
      exact Nat.lt_irrefl _ hor
  · intro a hak ha
    rw [lru_present_iff hok.inv] at ha
    rw [lru_lookup_eq hok.inv, lru_lookup_eq h]
    exact f3 a hak ha

/-- With capacity 0 every `put` on the fresh cache is undefined: the fresh
cache is the one state. -/
theorem lru_run_zero (ops : List (Op T)) {s : LRUCache T} (h : run (new 0) ops = some s) :
    s = new 0 := by
  induction ops with
  | nil =>
    simp only [run, Option.some.injEq] at h
    exact h.symm
  | cons op ops ih =>
    cases op with
    | get k =>
      have e : step (new 0 : LRUCache T) (Op.get k) = some (new 0) := rfl
      simp only [run, e] at h
      exact ih h
    | put k v =>
      have e : step (new 0 : LRUCache T) (Op.put k v) = none := rfl
      simp only [run, e] at h
      cases h

/-- Two `get`s in a row, in a reachable state. -/
theorem lru_get_twice {cap : Nat} {s : LRUCache T} (hr : Reachable cap s) (k : String) :
    ∃ s1 s2 r, get s k = some (s1, r) ∧ get s1 k = some (s2, r) ∧
      size s1 = size s ∧ size s2 = size s := by
  rcases Nat.eq_zero_or_pos cap with e | hcap
  · subst e
    obtain ⟨ops, hops⟩ := hr
    rw [lru_run_zero ops hops]
    exact ⟨new 0, new 0, none, rfl, rfl, rfl, rfl⟩
  · obtain ⟨h, -⟩ := lru_reachable_inv hcap hr
    obtain ⟨s1, hg1, h1, -, hv1, hl1⟩ := lru_get_ok h k
    obtain ⟨s2, hg2, h2, -, -, hl2⟩ := lru_get_ok h1 k
    refine ⟨s1, s2, _, hg1, ?_, ?_, ?_⟩
    · rw [hg2, hv1]
    · rw [lru_size_eq h1, lru_size_eq h, hl1]
    · rw [lru_size_eq h2, lru_size_eq h, hl2, hl1]

end LRUCache

namespace LFUCache

variable {T : Type}

/-- What `put` does to the keys that are present, in a reachable state. -/
theorem lfu_put_frame {cap : Nat} (hcap : 1 ≤ cap) {s : LFUCache T} (hr : Reachable cap s)
    (k : String) (v : T) :
    ∃ s1 s2, put s k v = some s1 ∧ get s1 k = some (s2, some v) ∧
      (∀ a b, present s a → ¬ present s1 a → present s b → ¬ present s1 b → a = b) ∧
      (present s k ∨ size s < cap → ∀ a, present s a → present s1 a) ∧
      (∀ a, a ≠ k → present s1 a → lookup s1 a = lookup s a) := by
  obtain ⟨h, hc⟩ := lfu_reachable_inv hcap hr
  obtain ⟨s1, victim, hp, hok⟩ := lfu_put_ok h k v
  obtain ⟨f1, f2, f3, f4⟩ := frame_of_vals hok.vals
  obtain ⟨s2, hg, -⟩ := lfu_get_ok hok.inv k
  refine ⟨s1, s2, hp, ?_, ?_, ?_, ?_⟩
  · rw [hg, f4]
  · intro a b ha ha1 hb hb1
    rw [lfu_present_iff] at ha hb
    rw [lfu_present_iff, not_not] at ha1 hb1
    exact f1 a b ha ha1 hb hb1
  · intro hor a ha
    rw [lfu_present_iff] at ha
    rw [lfu_present_iff]
    apply f2 _ a ha
    by_contra hn
    obtain ⟨hk, hfull⟩ := hok.victim_full hn
    rcases hor with hor | hor
    · rw [lfu_present_iff] at hor
      exact hor hk
    · have : size s = s.cache_map.length := rfl
      rw [this, hfull, hc] at hor
      exact Nat.lt_irrefl _ hor
  · intro a hak ha
    rw [lfu_present_iff] at ha
    rw [lfu_lookup_eq hok.inv, lfu_lookup_eq h]
    exact f3 a hak ha

/-- Two `get`s in a row, in any state. -/
theorem lfu_get_twice (s : LFUCache T) (k : String) :
    ∃ s1 s2 r, get s k = some (s1, r) ∧ get s1 k = some (s2, r) ∧
      size s1 = size s ∧ size s2 = size s := by
  cases hx : UMap.find s.cache_map k with
  | none =>
    have hg : get s k = some (s, none) := by simp only [get, hx]
    exact ⟨s, s, none, hg, hg, rfl, rfl⟩
  | some x =>
    have hg : get s k = some (touch s k, some x) := by simp only [get, hx]
    have hx1 : UMap.find (touch s k).cache_map k = some x := hx
    have hg1 : get (touch s k) k = some (touch (touch s k) k, some x) := by
      simp only [get, hx1]
    exact ⟨_, _, _, hg, hg1, rfl, rfl⟩

end LFUCache

namespace ARCCache

variable {T : Type}

/-- What `put` does to the live keys, in a reachable state. -/
theorem arc_put_frame {cap : Nat} (hcap : 1 ≤ cap) {s : ARCCache T} (hr : Reachable cap s)
    (k : String) (v : T) :
    ∃ s1 s2, put s k v = some s1 ∧ get s1 k = some (s2, some v) ∧
      (∀ a b, live s a → ¬ live s1 a → live s b → ¬ live s1 b → a = b) ∧
      (live s k ∨ size s < cap → ∀ a, live s a → live s1 a) ∧
      (∀ a, a ≠ k → live s1 a → lookup s1 a = lookup s a) := by
  obtain ⟨h, hb, hc⟩ := arc_reachable_inv hcap hr
  obtain ⟨s1, victim, hp, hok⟩ := arc_put_ok h hb k v
  obtain ⟨f1, f2, f3, f4⟩ := frame_of_vals hok.live
  obtain ⟨s2, hg, -⟩ := arc_get_ok hok.wf hok.bounds k
  refine ⟨s1, s2, hp, ?_, ?_, ?_, ?_⟩
  · rw [hg, f4]
  · intro a b ha ha1 hb hb1
    rw [arc_live_iff h] at ha hb
    rw [arc_live_iff hok.wf, not_not] at ha1 hb1
    exact f1 a b ha ha1 hb hb1
  · intro hor a ha
    rw [arc_live_iff h] at ha
    rw [arc_live_iff hok.wf]
    apply f2 _ a ha
    by_contra hn
    obtain ⟨hk, hfull⟩ := hok.victim_full hn
    rcases hor with hor | hor
    · rw [arc_live_iff h] at hor
      exact hor hk
    · rw [arc_size_eq h, hfull, hc] at hor
      exact Nat.lt_irrefl _ hor
  · intro a hak ha
    rw [arc_live_iff hok.wf] at ha
    rw [arc_lookup_eq hok.wf hok.bounds, arc_lookup_eq h hb]
    exact f3 a hak ha

/-- With capacity 0 every `put` on the fresh cache is undefined: the fresh
cache is the one state. -/
theorem arc_run_zero (ops : List (Op T)) {s : ARCCache T} (h : run (new 0) ops = some s) :
    s = new 0 := by
  induction ops with
  | nil =>
    simp only [run, Option.some.injEq] at h
    exact h.symm
  | cons op ops ih =>
    cases op with
    | get k =>
      have e : step (new 0 : ARCCache T) (Op.get k) = some (new 0) := rfl
      simp only [run, e] at h
      exact ih h
    | put k v =>
      have e : step (new 0 : ARCCache T) (Op.put k v) = none := rfl
      simp only [run, e] at h
      cases h

/-- Two `get`s in a row, in a reachable state. -/
theorem arc_get_twice {cap : Nat} {s : ARCCache T} (hr : Reachable cap s) (k : String) :
    ∃ s1 s2 r, get s k = some (s1, r) ∧ get s1 k = some (s2, r) ∧
      size s1 = size s ∧ size s2 = size s := by
  rcases Nat.eq_zero_or_pos cap with e | hcap
  · subst e
    obtain ⟨ops, hops⟩ := hr
    rw [arc_run_zero ops hops]
    exact ⟨new 0, new 0, none, rfl, rfl, rfl, rfl⟩
  · obtain ⟨h, hb, -⟩ := arc_reachable_inv hcap hr
    obtain ⟨s1, hg1, hok1, -⟩ := arc_get_ok h hb k
    obtain ⟨s2, hg2, hok2, -⟩ := arc_get_ok hok1.wf hok1.bounds k
    refine ⟨s1, s2, _, hg1, ?_, ?_, ?_⟩
    · rw [hg2, hok1.live]
    · rw [arc_size_eq hok1.wf, arc_size_eq h, hok1.live_len]
    · rw [arc_size_eq hok2.wf, arc_size_eq h, hok2.live_len, hok1.live_len]

end ARCCache

/-! ### The states `put` leaves in `FIFOCache` and `LRUCache` -/

/-- The keys of a map after one key was erased and one assigned. -/
theorem umap_find_assign_erase {α : Type} (m : UMap α) (k c a : String) (v : α) :
    UMap.find (UMap.assign (UMap.erase m c) k v) a ≠ none ↔
      a = k ∨ (UMap.find m a ≠ none ∧ a ≠ c) := by
  simp only [ne_eq, umap_find_none_iff, not_not, umap_mem_keys_assign, umap_mem_keys_erase]

namespace FIFOCache

variable {T : Type}

theorem fifo_write_eq {s : FIFOCache T} (h : Inv s) {k : String} {a : Nat} {x : CacheItem T}
    (hx : (⟨a, x⟩ : Node (CacheItem T)) ∈ s.heap) (hk : x.key = k) (v : T) :
    Heap.write s.heap a { x with value := v } =
      List.map (fun c => if c.item.key = k then { c with item := { c.item with value := v } }
        else c) s.heap := by
  rw [Heap.write]
  apply List.map_congr_left
  intro c hc
  by_cases e : c.id = a
  · have hcx : c = ⟨a, x⟩ := node_eq_of_id h.ok.ids_nodup hc hx e
    subst hcx
    simp only [if_true, hk]
  · have hne : c.item.key ≠ k := by
      intro e2
      apply e
      have hcx : c = ⟨a, x⟩ :=
        List.inj_on_of_nodup_map h.keys_nodup hc hx (by rw [e2, hk])
      rw [hcx]
    rw [if_neg e, if_neg hne]

/-- The method `put` on a key that is present sets the value of its object. -/
theorem fifo_put_present {s : FIFOCache T} (h : Inv s) {k : String} (hp : present s k)
    (v : T) : put s k v = some (overwritten s k v) := by
  have hv := (fifo_present_iff h k).1 hp
  cases hx : itemOf CacheItem.key s.heap k with
  | none => simp only [val, hx, Option.map_none', ne_eq, not_true_eq_false] at hv
  | some x =>
    obtain ⟨a, ha1, ha2, ha3⟩ := fifo_find h hx
    simp only [put, ha1, ha2, overwritten, fifo_write_eq h ha3 (itemOf_key _ hx) v]

/-- The method `put` on an absent key, the cache not full, appends an object. -/
theorem fifo_put_room {s : FIFOCache T} {k : String} (hp : ¬ present s k)
    (hlt : size s < s.capacity) (v : T) : put s k v = some (appended s k v) := by
  have hf : UMap.find s.cache_map k = none := not_not.1 hp
  have hn : ¬ UMap.size s.cache_map ≥ s.capacity := Nat.not_le.2 hlt
  simp only [put, hf, hn, if_false]
  rfl

/-- The method `put` on an absent key, the cache full, takes the head of the
list out, whose stamp is the least, and appends an object. -/
theorem fifo_put_full {s : FIFOCache T} (h : Inv s) {k : String} (hp : ¬ present s k)
    (hfull : size s = s.capacity) (v : T) :
    ∃ c rest, s.heap = c :: rest ∧
      put s k v = some (appended (dropped s c.item.key) k v) ∧
      (∀ d ∈ rest, c.item.last_accessed < d.item.last_accessed) := by
  have hf : UMap.find s.cache_map k = none := not_not.1 hp
  have hn : UMap.size s.cache_map ≥ s.capacity := Nat.le_of_eq hfull.symm
  rw [fifo_size_eq h] at hfull
  cases e : s.heap with
  | nil =>
    rw [e] at hfull
    have := h.cap_pos
    simp only [List.length_nil] at hfull
    omega
  | cons c rest =>
    have hev := fifo_evict_cons h e
    have hk := h.keys_nodup
    have hs := h.sorted
    rw [e] at hk hs
    simp only [stampsOf, List.map_cons, List.pairwise_cons, List.mem_map,
      forall_exists_index, and_imp, forall_apply_eq_imp_iff₂] at hs
    have hm : UMap.erase s.cache_map c.item.key = entriesOf CacheItem.key rest := by
      rw [h.ok.map_eq, erase_entriesOf, e, without_head CacheItem.key hk]
    have hd : dropped s c.item.key =
        { s with cache_list := idsOf rest, cache_map := entriesOf CacheItem.key rest,
                 heap := rest } := by
      simp only [dropped, hm, h.list_eq, e, idsOf_cons, List.tail_cons]
    refine ⟨c, rest, rfl, ?_, hs.1⟩
    simp only [put, hf, hn, if_true, hev, hd]
    rfl

end FIFOCache

namespace LRUCache

variable {T : Type}

/-- The method `put` on an absent key, the cache not full, appends an entry. -/
theorem lru_put_room {s : LRUCache T} {k : String} (hp : ¬ present s k)
    (hlt : size s < s.capacity) (v : T) : put s k v = some (appended s k v) := by
  have hf : UMap.find s.cache_map k = none := not_not.1 hp
  have hn : ¬ UMap.size s.cache_map ≥ s.capacity := Nat.not_le.2 hlt
  simp only [put, hf, hn, if_false]
  rfl

/-- The method `put` on an absent key, the cache full, takes the head of the
list out, whose stamp is the least, and appends an entry. -/
theorem lru_put_full {s : LRUCache T} (h : Inv s) {k : String} (hp : ¬ present s k)
    (hfull : size s = s.capacity) (v : T) :
    ∃ c rest, s.cache_list = c :: rest ∧
      put s k v = some (appended (dropped s c.item.key) k v) ∧
      (∀ d ∈ rest, c.item.last_accessed < d.item.last_accessed) := by
  have hf : UMap.find s.cache_map k = none := not_not.1 hp
  have hn : UMap.size s.cache_map ≥ s.capacity := Nat.le_of_eq hfull.symm
  rw [lru_size_eq h] at hfull
  cases e : s.cache_list with
  | nil =>
    rw [e] at hfull
    have := h.cap_pos
    simp only [List.length_nil] at hfull
    omega
  | cons c rest =>
    have hev := (lru_evict_cons h e).1
    have hs := h.sorted
    rw [e] at hs
    simp only [stampsOf, List.map_cons, List.pairwise_cons, List.mem_map,
      forall_exists_index, and_imp, forall_apply_eq_imp_iff₂] at hs
    have hd : dropped s c.item.key =
        { s with cache_map := UMap.erase s.cache_map c.item.key, cache_list := rest } := by
      simp only [dropped, e, List.tail_cons]
    refine ⟨c, rest, rfl, ?_, hs.1⟩
    simp only [put, hf, hn, if_true, hev, hd]
    rfl

/-- The entry of a key that is present. -/
theorem lru_item_of_present {s : LRUCache T} (h : Inv s) {k : String} (hp : present s k) :
    ∃ x, itemOf CacheItem.key s.cache_list k = some x := by
  have hv := (lru_present_iff h k).1 hp
  cases hx : itemOf CacheItem.key s.cache_list k with
  | none => simp only [val, hx, Option.map_none', ne_eq, not_true_eq_false] at hv
  | some x => exact ⟨x, rfl⟩

end LRUCache


/-! ### The frequency counter of `LFUCache` -/

theorem wrapInt_succ (x : Int) : wrapInt (wrapInt x + 1) = wrapInt (x + 1) := by
  unfold wrapInt
  omega

theorem wrapInt_of_nat {n : Nat} (h : n ≤ 2147483647) : wrapInt (n : Int) = (n : Int) := by
  unfold wrapInt
  omega

namespace LFUCache

variable {T : Type}

theorem lfu_freq_touch {s : LFUCache T} {k : String}
    (hkm : k ∈ UMap.keys s.frequency_map) (a : String) (n : Nat)
    (hn : ∀ f, UMap.find s.frequency_map a = some f → f = wrapInt n) (f : Int)
    (hf : UMap.find (touch s k).frequency_map a = some f) :
    f = wrapInt ((if k = a then n + 1 else n : Nat) : Int) := by
  cases hfk : UMap.find s.frequency_map k with
  | none => exact absurd (umap_find_none_iff.1 hfk) (not_not.2 hkm)
  | some fk =>
    have hf2 : UMap.find (UMap.assign s.frequency_map k
        (wrapInt ((UMap.index s.frequency_map k 0).1 + 1))) a = some f := hf
    rw [umap_index_of_find hfk, umap_find_assign] at hf2
    by_cases e : a = k
    · subst e
      rw [if_pos rfl] at hf2
      rw [if_pos rfl, ← Option.some.inj hf2, hn fk hfk, wrapInt_succ]
      push_cast
      rfl
    · rw [if_neg e] at hf2
      rw [if_neg (fun e2 => e e2.symm)]
      exact hn f hf2

/-- One call keeps the counter of a key equal to its frequency, reduced to an
`int`. -/
theorem lfu_freq_step {s s1 : LFUCache T} (h : Inv s) (a : String) (n : Nat)
    (hn : ∀ f, UMap.find s.frequency_map a = some f → f = wrapInt n) (op : Op T)
    (hs : step s op = some s1) (f : Int) (hf : UMap.find s1.frequency_map a = some f) :
    f = wrapInt (bump s a n op : Nat) := by
  cases op with
  | get k =>
    cases hx : UMap.find s.cache_map k with
    | none =>
      simp only [step, get, hx, Option.map_some', Option.some.injEq] at hs
      subst hs
      simp only [bump, hx, Option.isSome_none, Bool.false_eq_true, and_false, if_false]
      exact hn f hf
    | some x =>
      simp only [step, get, hx, Option.map_some', Option.some.injEq] at hs
      subst hs
      have hk : k ∈ UMap.keys s.frequency_map := by
        rw [h.keys_f]
        by_contra hc
        rw [← umap_find_none_iff, hx] at hc
        cases hc
      have := lfu_freq_touch hk a n hn f hf
      simp only [bump, hx, Option.isSome_some, and_true]
      exact this
  | put k v =>
    cases hx : UMap.find s.cache_map k with
    | some x =>
      simp only [step, put, hx, Option.some.injEq] at hs
      subst hs
      have hk : k ∈ UMap.keys s.frequency_map := by
        rw [h.keys_f]
        by_contra hc
        rw [← umap_find_none_iff, hx] at hc
        cases hc
      have := lfu_freq_touch (s := { s with cache_map := UMap.assign s.cache_map k v }) hk a n
        hn f hf
      simp only [bump, hx, Option.isSome_some, if_true]
      by_cases e : k = a
      · rw [if_pos e] at this ⊢
        exact this
      · rw [if_neg e] at this ⊢
        exact this
    | none =>
      simp only [step, put, hx, Option.some.injEq] at hs
      subst hs
      simp only [bump, hx, Option.isSome_none, Bool.false_eq_true, if_false]
      simp only [umap_find_assign] at hf
      by_cases e : a = k
      · rw [if_pos e] at hf
        rw [if_pos e.symm, ← Option.some.inj hf]
        rfl
      · rw [if_neg e] at hf
        rw [if_neg (fun e2 => e e2.symm)]
        apply hn
        by_cases hfull : UMap.size s.cache_map ≥ s.capacity
        · rw [if_pos hfull] at hf
          simp only [evict, umap_find_erase] at hf
          split at hf
          · cases hf
          · exact hf
        · rw [if_neg hfull] at hf
          exact hf

/-- A sequence of calls keeps the counter of a key equal to its frequency,
reduced to an `int`. -/
theorem lfu_freq_run (a : String) (ops : List (Op T)) {s s1 : LFUCache T} (h : Inv s) (n : Nat)
    (hn : ∀ f, UMap.find s.frequency_map a = some f → f = wrapInt n)
    (hs : run s ops = some s1) (f : Int) (hf : UMap.find s1.frequency_map a = some f) :
    f = wrapInt (specFrequency a s n ops : Nat) := by
  induction ops generalizing s n with
  | nil =>
    simp only [run, Option.some.injEq] at hs
    subst hs
    exact hn f hf
  | cons op ops ih =>
    obtain ⟨s2, hs2, hi2, -⟩ := lfu_step_ok h op
    simp only [run, hs2] at hs
    simp only [specFrequency, hs2]
    exact ih hi2 _ (lfu_freq_step h a n hn op hs2) hs

end LFUCache

namespace LFUCache

variable {T : Type}

theorem lfu_run_cons {s s1 : LFUCache T} {op : Op T} (h : step s op = some s1)
    (rest : List (Op T)) : run s (op :: rest) = run s1 rest := by
  show (match step s op with
    | none => none
    | some s1 => run s1 rest) = _
  rw [h]

theorem lfu_freq_cons (a : String) {s s1 : LFUCache T} {op : Op T} (h : step s op = some s1)
    (n : Nat) (rest : List (Op T)) :
    specFrequency a s n (op :: rest) = specFrequency a s1 (bump s a n op) rest := by
  show (match step s op with
    | none => n
    | some s1 => specFrequency a s1 (bump s a n op) rest) = _
  rw [h]

/-- A `put` of an absent key into a full cache: the victim comes before every
other key, by the stored counter and then by the access time. -/
theorem lfu_put_full {s : LFUCache T} (h : Inv s) {k : String}
    (hk : UMap.find s.cache_map k = none) (hfull : size s = s.capacity) (v : T) :
    ∃ victim f t, victim ∈ UMap.keys s.cache_map ∧
      UMap.find s.frequency_map victim = some f ∧
      UMap.find s.access_time_map victim = some t ∧
      put s k v = some (inserted (evicted s victim) k v) ∧
      ∀ a, a ∈ UMap.keys s.cache_map → a ≠ victim →
        ∃ fa ta, UMap.find s.frequency_map a = some fa ∧
          UMap.find s.access_time_map a = some ta ∧ (f < fa ∨ (f = fa ∧ t < ta)) := by
  have hge : UMap.size s.cache_map ≥ s.capacity := Nat.le_of_eq hfull.symm
  obtain ⟨victim, f, t, hev, hv, hf, ht, hleast⟩ := lfu_evict_spec h hge
  refine ⟨victim, f, t, hv, hf, ht, ?_, ?_⟩
  · simp only [put, hk, hge, if_true, hev]
    rfl
  · intro a ha hne
    cases hfa : UMap.find s.frequency_map a with
    | none =>
      rw [umap_find_none_iff, h.keys_f] at hfa
      exact absurd ha hfa
    | some fa =>
      cases hta : UMap.find s.access_time_map a with
      | none =>
        rw [umap_find_none_iff, h.keys_t] at hta
        exact absurd ha hta
      | some ta => exact ⟨fa, ta, rfl, rfl, hleast a fa ta hne hfa hta⟩

theorem lfu_hot_step (x : Nat) : step (hot x) (Op.get "a") = some (hot (x + 1)) := by
  have h1 : UMap.find (hot x).cache_map "a" = some 1 := by
    simp [hot, umap_find_cons]
  have h2 : UMap.find (hot x).frequency_map "a" = some (wrapInt x) := by
    simp [hot, umap_find_cons]
  simp only [step, get, h1, Option.map_some', touch, umap_index_of_find h2, wrapInt_succ]
  simp [hot, UMap.assign, umap_erase_cons]

theorem lfu_hot_run (m : Nat) (x : Nat) (rest : List (Op Nat)) :
    run (hot x) (List.replicate m (Op.get "a") ++ rest) = run (hot (x + m)) rest := by
  induction m generalizing x with
  | zero => rfl
  | succ m ih =>
    rw [List.replicate_succ, List.cons_append, lfu_run_cons (lfu_hot_step x), ih,
      Nat.add_assoc, Nat.add_comm 1 m]

theorem lfu_hot_freq_a (m : Nat) (x n : Nat) (rest : List (Op Nat)) :
    specFrequency "a" (hot x) n (List.replicate m (Op.get "a") ++ rest) =
      specFrequency "a" (hot (x + m)) (n + m) rest := by
  induction m generalizing x n with
  | zero => rfl
  | succ m ih =>
    have hb : bump (hot x) "a" n (Op.get "a") = n + 1 := by
      simp [bump, hot, umap_find_cons]
    rw [List.replicate_succ, List.cons_append, lfu_freq_cons "a" (lfu_hot_step x), ih, hb,
      Nat.add_assoc, Nat.add_comm 1 m, Nat.add_assoc]
    rw [Nat.add_comm 1 m]

theorem lfu_hot_freq_b (m : Nat) (x n : Nat) (rest : List (Op Nat)) :
    specFrequency "b" (hot x) n (List.replicate m (Op.get "a") ++ rest) =
      specFrequency "b" (hot (x + m)) n rest := by
  induction m generalizing x n with
  | zero => rfl
  | succ m ih =>
    have hb : bump (hot x) "b" n (Op.get "a") = n := by
      simp [bump]
    rw [List.replicate_succ, List.cons_append, lfu_freq_cons "b" (lfu_hot_step x), ih, hb,
      Nat.add_assoc, Nat.add_comm 1 m]

end LFUCache

/-- The keys of the full LFU trace state and their frequencies. -/
theorem lfu_full_bound (a : String) (hp : LFUCache.present lfuFull a) :
    LFUCache.specFrequency a (LFUCache.new 2) 0
      [Op.put "a" 1, Op.put "b" 2, (Op.get "a" : Op Nat)] ≤ 2147483647 := by
  by_cases ea : a = "a"
  · subst ea
    decide
  · by_cases eb : a = "b"
    · subst eb
      decide
    · exfalso
      apply hp
      show UMap.find [("a", 1), ("b", 2)] a = none
      rw [umap_find_none_iff]
      simp [UMap.keys, ea, eb]


/-! ### The structure of the reachable states of `ARCCache` -/

namespace ARCCache

variable {T : Type}

/-- Every reachable state satisfies the structural invariant, whatever the
capacity. -/
theorem arc_reachable_wf {cap : Nat} {s : ARCCache T} (hr : Reachable cap s) : WF s := by
  rcases Nat.eq_zero_or_pos cap with e | hcap
  · subst e
    obtain ⟨ops, hops⟩ := hr
    rw [arc_run_zero ops hops]
    exact arc_wf_new 0
  · exact (arc_reachable_inv hcap hr).1

theorem keys_entriesOf (l : List (Node (ARCItem T))) :
    UMap.keys (entriesOf ARCItem.key l) = keysOf ARCItem.key l := by
  simp [UMap.keys, entriesOf, keysOf, List.map_map, Function.comp]

theorem arc_mirrors1 {s : ARCCache T} (h : WF s) : Mirrors s.t1 s.t1_map := by
  refine ⟨by rw [h.ok1.map_eq, keys_entriesOf], h.ok1.ids_nodup, ?_⟩
  intro k i hf
  obtain ⟨x, hx, hd, -⟩ := arc_find1 h hf
  exact ⟨x, hd, itemOf_key _ hx⟩

theorem arc_mirrors2 {s : ARCCache T} (h : WF s) : Mirrors s.t2 s.t2_map := by
  refine ⟨by rw [h.ok2.map_eq, keys_entriesOf], h.ok2.ids_nodup, ?_⟩
  intro k i hf
  obtain ⟨x, hx, hd, -⟩ := arc_find2 h hf
  exact ⟨x, hd, itemOf_key _ hx⟩

theorem arc_mirrorsb1 {s : ARCCache T} (h : WF s) : Mirrors s.b1 s.b1_map := by
  refine ⟨by rw [h.okb1.map_eq, keys_entriesOf], h.okb1.ids_nodup, ?_⟩
  intro k i hf
  obtain ⟨x, hx, hd, -⟩ := arc_findb1 h hf
  exact ⟨x, hd, itemOf_key _ hx⟩

theorem arc_mirrorsb2 {s : ARCCache T} (h : WF s) : Mirrors s.b2 s.b2_map := by
  refine ⟨by rw [h.okb2.map_eq, keys_entriesOf], h.okb2.ids_nodup, ?_⟩
  intro k i hf
  obtain ⟨x, hx, hd, -⟩ := arc_findb2 h hf
  exact ⟨x, hd, itemOf_key _ hx⟩

/-- A key is in at most one of the four lists. -/
theorem arc_disjoint {s : ARCCache T} (h : WF s) (k : String) :
    (k ∈ keysOf ARCItem.key s.t1 → k ∉ keysOf ARCItem.key s.t2 ∧
        k ∉ keysOf ARCItem.key s.b1 ∧ k ∉ keysOf ARCItem.key s.b2) ∧
      (k ∈ keysOf ARCItem.key s.t2 → k ∉ keysOf ARCItem.key s.b1 ∧
        k ∉ keysOf ARCItem.key s.b2) ∧
      (k ∈ keysOf ARCItem.key s.b1 → k ∉ keysOf ARCItem.key s.b2) := by
  have hu := h.uniq k
  unfold occ at hu
  refine ⟨?_, ?_, ?_⟩
  · intro hm
    have := List.one_le_count_iff.2 hm
    refine ⟨?_, ?_, ?_⟩ <;> apply List.count_eq_zero.1 <;> omega
  · intro hm
    have := List.one_le_count_iff.2 hm
    refine ⟨?_, ?_⟩ <;> apply List.count_eq_zero.1 <;> omega
  · intro hm
    have := List.one_le_count_iff.2 hm
    apply List.count_eq_zero.1
    omega

/-- The three cases of `replace`. -/
theorem arc_replace_spec {s : ARCCache T} (h : WF s) (b : Bool) :
    ∃ s1, replace s b = some s1 ∧ s1.p = s.p ∧ s1.capacity = s.capacity ∧
      s1.t1.length + s1.t2.length + s1.b1.length + s1.b2.length =
        s.t1.length + s.t2.length + s.b1.length + s.b2.length ∧
      (fromT1 s b → ∃ n rest, s.t1 = n :: rest ∧ s1.t1 = rest ∧ s1.t2 = s.t2 ∧
        s1.b1 = s.b1 ++ [⟨s.fresh, { n.item with is_ghost := true }⟩] ∧ s1.b2 = s.b2) ∧
      (¬ fromT1 s b → s.t2 ≠ [] → ∃ n rest, s.t2 = n :: rest ∧ s1.t1 = s.t1 ∧
        s1.t2 = rest ∧ s1.b1 = s.b1 ∧
        s1.b2 = s.b2 ++ [⟨s.fresh, { n.item with is_ghost := true }⟩]) ∧
      (¬ fromT1 s b → s.t2 = [] → s1 = s) := by
  rcases arc_replace_cases h b with ⟨n, rest, e, hc, hr⟩ | ⟨n, rest, e, hc, hr⟩ | ⟨e, hc, hr⟩
  · have hcond : fromT1 s b := ⟨by rw [e]; simp, hc⟩
    have ht : (dropT1 s n.item.key).t1 = rest := (arc_popT1_cons h e).2
    refine ⟨_, hr, rfl, rfl, ?_, ?_, fun hn => absurd hcond hn, fun hn => absurd hcond hn⟩
    · show (dropT1 s n.item.key).t1.length + s.t2.length + (s.b1 ++ [_]).length + s.b2.length = _
      rw [ht, e]
      simp only [List.length_append, List.length_singleton, List.length_cons, List.length_nil]
      omega
    · intro _
      exact ⟨n, rest, e, ht, rfl, rfl, rfl⟩
  · have ht : (dropT2 s n.item.key).t2 = rest := (arc_popT2_cons h e).2
    refine ⟨_, hr, rfl, rfl, ?_, fun hn => absurd hn hc, ?_, ?_⟩
    · show s.t1.length + (dropT2 s n.item.key).t2.length + s.b1.length + (s.b2 ++ [_]).length = _
      rw [ht, e]
      simp only [List.length_append, List.length_singleton, List.length_cons, List.length_nil]
      omega
    · intro _ _
      exact ⟨n, rest, e, rfl, ht, rfl, rfl⟩
    · intro _ he
      rw [e] at he
      cases he
  · refine ⟨s, hr, rfl, rfl, rfl, fun hn => absurd hn hc, fun _ hn => absurd e hn,
      fun _ _ => rfl⟩

end ARCCache


/-! ### The loop of `removeGhostEntries`, on any state -/

namespace ARCCache

variable {T : Type}

theorem isEmpty_false_iff {α : Type} (l : List α) : l.isEmpty = false ↔ l ≠ [] := by
  cases l <;> simp

/-- A pass of the loop that takes the front of `b1`. -/
theorem arc_trim_b1 {s : ARCCache T} (hc : s.capacity ≤ s.b1.length + s.b2.length)
    (hB : fromB1 s) (fuel : Nat) :
    ∃ n rest, s.b1 = n :: rest ∧ removeGhostLoop (fuel + 1) s =
      removeGhostLoop fuel { s with b1 := rest, b1_map := UMap.erase s.b1_map n.item.key } := by
  cases e : s.b1 with
  | nil =>
    exfalso
    rcases hB with hB | ⟨hB1, hB2⟩
    · rw [e] at hB
      simp only [List.length_nil] at hB
      omega
    · rw [e] at hB1
      exact hB2 (List.length_eq_zero.1 hB1.symm)
  | cons n rest =>
    have hcond : s.b1.isEmpty = false ∧ (s.b1.length > s.b2.length ∨
        (s.b1.length = s.b2.length ∧ s.b2.isEmpty = false)) := by
      refine ⟨by rw [e]; rfl, ?_⟩
      rcases hB with hB | ⟨hB1, hB2⟩
      · exact Or.inl hB
      · exact Or.inr ⟨hB1, (isEmpty_false_iff _).2 hB2⟩
    have hp : popB1 s =
        some (n.item, { s with b1 := rest, b1_map := UMap.erase s.b1_map n.item.key }) := by
      simp only [popB1, e, StdList.front, StdList.pop_front]
    refine ⟨n, rest, rfl, ?_⟩
    rw [removeGhostLoop, if_pos hc, if_pos hcond, hp]

/-- A pass of the loop that takes the front of `b2`. -/
theorem arc_trim_b2 {s : ARCCache T} (hcap : 1 ≤ s.capacity)
    (hc : s.capacity ≤ s.b1.length + s.b2.length) (hB : ¬ fromB1 s) (fuel : Nat) :
    ∃ n rest, s.b2 = n :: rest ∧ removeGhostLoop (fuel + 1) s =
      removeGhostLoop fuel { s with b2 := rest, b2_map := UMap.erase s.b2_map n.item.key } := by
  cases e : s.b2 with
  | nil =>
    exfalso
    apply hB
    left
    rw [e] at hc ⊢
    simp only [List.length_nil] at hc ⊢
    omega
  | cons n rest =>
    have hcond : ¬ (s.b1.isEmpty = false ∧ (s.b1.length > s.b2.length ∨
        (s.b1.length = s.b2.length ∧ s.b2.isEmpty = false))) := by
      rintro ⟨-, h1 | ⟨h1, h2⟩⟩
      · exact hB (Or.inl h1)
      · exact hB (Or.inr ⟨h1, (isEmpty_false_iff _).1 h2⟩)
    have hne : s.b2.isEmpty = false := by rw [e]; rfl
    have hp : popB2 s =
        some (n.item, { s with b2 := rest, b2_map := UMap.erase s.b2_map n.item.key }) := by
      simp only [popB2, e, StdList.front, StdList.pop_front]
    refine ⟨n, rest, rfl, ?_⟩
    rw [removeGhostLoop, if_pos hc, if_neg hcond, if_pos hne, hp]

/-- The loop exits, given fuel for one evaluation of its condition per ghost
and one more. -/
theorem arc_trim_loop (fuel : Nat) :
    ∀ s : ARCCache T, 1 ≤ s.capacity → s.b1.length + s.b2.length < fuel →
      ∃ s1, removeGhostLoop fuel s = some s1 ∧
        s1.t1 = s.t1 ∧ s1.t2 = s.t2 ∧ s1.t1_map = s.t1_map ∧ s1.t2_map = s.t2_map ∧
        s1.p = s.p ∧ s1.capacity = s.capacity ∧ s1.fresh = s.fresh ∧
        s1.b1 <:+ s.b1 ∧ s1.b2 <:+ s.b2 ∧
        s1.b1.length + s1.b2.length = min (s.b1.length + s.b2.length) (s.capacity - 1) ∧
        (s.b1.length + s.b2.length < s.capacity → s1 = s) := by
  induction fuel with
  | zero => intro s _ h; omega
  | succ fuel ih =>
    intro s hcap hfuel
    by_cases hc : s.capacity ≤ s.b1.length + s.b2.length
    · by_cases hB : fromB1 s
      · obtain ⟨n, rest, e, hstep⟩ := arc_trim_b1 hc hB fuel
        rw [e] at hfuel
        simp only [List.length_cons] at hfuel
        obtain ⟨s1, hs1, a1, a2, a3, a4, a5, a6, a7, a8, a9, a10, -⟩ :=
          ih { s with b1 := rest, b1_map := UMap.erase s.b1_map n.item.key } hcap
            (by show rest.length + s.b2.length < fuel; omega)
        refine ⟨s1, by rw [hstep]; exact hs1, a1, a2, a3, a4, a5, a6, a7, ?_, a9, ?_, ?_⟩
        · rw [e]
          exact a8.trans (List.suffix_cons _ _)
        · rw [a10, e]
          show min (rest.length + s.b2.length) (s.capacity - 1) = _
          rw [e] at hc
          simp only [List.length_cons] at hc ⊢
          omega
        · intro hlt
          omega
      · obtain ⟨n, rest, e, hstep⟩ := arc_trim_b2 hcap hc hB fuel
        rw [e] at hfuel
        simp only [List.length_cons] at hfuel
        obtain ⟨s1, hs1, a1, a2, a3, a4, a5, a6, a7, a8, a9, a10, -⟩ :=
          ih { s with b2 := rest, b2_map := UMap.erase s.b2_map n.item.key } hcap
            (by show s.b1.length + rest.length < fuel; omega)
        refine ⟨s1, by rw [hstep]; exact hs1, a1, a2, a3, a4, a5, a6, a7, a8, ?_, ?_, ?_⟩
        · rw [e]
          exact a9.trans (List.suffix_cons _ _)
        · rw [a10, e]
          show min (s.b1.length + rest.length) (s.capacity - 1) = _
          rw [e] at hc
          simp only [List.length_cons] at hc ⊢
          omega
        · intro hlt
          omega
    · have hlt : s.b1.length + s.b2.length < s.capacity := Nat.lt_of_not_le hc
      refine ⟨s, ?_, rfl, rfl, rfl, rfl, rfl, rfl, rfl, List.suffix_refl _, List.suffix_refl _,
        ?_, fun _ => rfl⟩
      · rw [removeGhostLoop, if_neg (by omega)]
      · omega

/-- More fuel does not change the result of the loop. -/
theorem arc_trim_mono (fuel : Nat) :
    ∀ (s s1 : ARCCache T), removeGhostLoop fuel s = some s1 →
      removeGhostLoop (fuel + 1) s = some s1 := by
  induction fuel with
  | zero =>
    intro s s1 h
    cases h
  | succ fuel ih =>
    intro s s1 h
    rw [removeGhostLoop] at h ⊢
    split_ifs at h ⊢ with h1 h2 h3
    · cases hp : popB1 s with
      | none => rw [hp] at h; cases h
      | some r =>
        rw [hp] at h
        exact ih _ _ h
    · cases hp : popB2 s with
      | none => rw [hp] at h; cases h
      | some r =>
        rw [hp] at h
        exact ih _ _ h
    · exact ih _ _ h
    · exact h

theorem arc_trim_fuel {s s1 : ARCCache T} {fuel : Nat} (h : removeGhostLoop fuel s = some s1)
    (more : Nat) : removeGhostLoop (fuel + more) s = some s1 := by
  induction more with
  | zero => exact h
  | succ m ih => exact arc_trim_mono _ _ _ ih

end ARCCache


/-! ### The states `put` leaves in `ARCCache` -/

namespace ARCCache

variable {T : Type}

/-- The method `replace` returns on every state. -/
theorem arc_replace_total (s : ARCCache T) (b : Bool) : ∃ s1, replace s b = some s1 := by
  unfold replace
  split_ifs with h1 h2
  · cases e : s.t1 with
    | nil => rw [e] at h1; simp at h1
    | cons n rest =>
      have hp : popT1 s =
          some (n.item, { s with t1 := rest, t1_map := UMap.erase s.t1_map n.item.key }) := by
        simp only [popT1, e, StdList.front, StdList.pop_front]
      rw [hp]
      dsimp only
      split_ifs <;> exact ⟨_, rfl⟩
  · cases e : s.t2 with
    | nil => rw [e] at h2; simp at h2
    | cons n rest =>
      have hp : popT2 s =
          some (n.item, { s with t2 := rest, t2_map := UMap.erase s.t2_map n.item.key }) := by
        simp only [popT2, e, StdList.front, StdList.pop_front]
      rw [hp]
      dsimp only
      split_ifs <;> exact ⟨_, rfl⟩
  · exact ⟨s, rfl⟩

/-- What `replace` keeps: `p`, the rest of the live lists, the ghosts. -/
theorem arc_replace_frame {s s1 : ARCCache T} (h : WF s) {b : Bool}
    (hr : replace s b = some s1) :
    s1.p = s.p ∧ s1.t1 <:+ s.t1 ∧ s1.t2 <:+ s.t2 ∧ s.b1 <+: s1.b1 ∧ s.b2 <+: s1.b2 := by
  rcases arc_replace_cases h b with ⟨n, rest, e, -, hr2⟩ | ⟨n, rest, e, -, hr2⟩ | ⟨-, -, hr2⟩
  · rw [hr2] at hr
    cases hr
    have ht : (dropT1 s n.item.key).t1 = rest := (arc_popT1_cons h e).2
    refine ⟨rfl, ?_, List.suffix_refl _, List.prefix_append _ _, List.prefix_refl _⟩
    show (dropT1 s n.item.key).t1 <:+ s.t1
    rw [ht, e]
    exact List.suffix_cons _ _
  · rw [hr2] at hr
    cases hr
    have ht : (dropT2 s n.item.key).t2 = rest := (arc_popT2_cons h e).2
    refine ⟨rfl, List.suffix_refl _, ?_, List.prefix_refl _, List.prefix_append _ _⟩
    show (dropT2 s n.item.key).t2 <:+ s.t2
    rw [ht, e]
    exact List.suffix_cons _ _
  · rw [hr2] at hr
    cases hr
    exact ⟨rfl, List.suffix_refl _, List.suffix_refl _, List.prefix_refl _, List.prefix_refl _⟩

/-- The state `put` builds for a key of `b1`. -/
theorem arc_put_b1 {s : ARCCache T} (h : WF s) (hb : Bounds s) {k : String}
    (hk : k ∈ keysOf ARCItem.key s.b1) (v : T) :
    ∃ s1, replace { s with p := min (s.p + max (s.b2.length / s.b1.length) 1) s.capacity }
        false = some s1 ∧
      put s k v = some (pushT2 (dropB1 s1 k) k { key := k, value := v, is_ghost := false }) ∧
      ∃ k0, PutOK s (pushT2 (dropB1 s1 k) k { key := k, value := v, is_ghost := false }) k v
        (some k0) := by
  obtain ⟨d1, d2, d3⟩ := arc_disjoint h k
  have h1 : itemOf ARCItem.key s.t1 k = none := by
    rw [itemOf_eq_none]
    exact fun hm => (d1 hm).2.1 hk
  have h2 : itemOf ARCItem.key s.t2 k = none := by
    rw [itemOf_eq_none]
    exact fun hm => (d2 hm).1 hk
  cases hf : UMap.find s.b1_map k with
  | none =>
    rw [h.okb1.map_eq, find_entriesOf_none] at hf
    exact absurd hk hf
  | some i =>
    have hc := List.one_le_count_iff.2 hk
    have hu := h.uniq k
    unfold occ at hu
    have hk1 : (keysOf ARCItem.key s.b1).count k = 1 := by omega
    obtain ⟨b1, b2, b3, b4, b5, b6⟩ := id hb
    have hb1 : 1 ≤ s.b1.length := by
      have := List.count_le_length k (keysOf ARCItem.key s.b1)
      rw [length_keysOf] at this
      omega
    have hd := arc_delta s.b2.length s.b1.length (by omega)
    have hwp : WF { s with p := min (s.p + max (s.b2.length / s.b1.length) 1) s.capacity } :=
      arc_wf_setP h _
    have hx : s.t2 ≠ [] := by
      intro e
      rw [e] at b6 b4
      simp only [List.length_nil] at b6 b4
      omega
    obtain ⟨s1, k0, hr, he⟩ := arc_replace_evicts hwp false (Or.inl hx)
    obtain ⟨hne, hok⟩ := arc_putok_ghost1 h hb hk1 v _ (Nat.min_le_right _ _) rfl he
    have hfs : UMap.find s1.b1_map k = some i := by
      rw [he.findb1 k hne]
      exact hf
    obtain ⟨y, -, -, hy3⟩ := arc_findb1 he.wf hfs
    refine ⟨s1, hr, ?_, k0, hok⟩
    rw [arc_put_ghost h h1 h2]
    simp only [putB1, hf, hd, hr, hy3]
    rfl

/-- The state `put` builds for a key of `b2`. -/
theorem arc_put_b2 {s : ARCCache T} (h : WF s) (hb : Bounds s) {k : String}
    (hk : k ∈ keysOf ARCItem.key s.b2) (v : T) :
    ∃ s1, replace { s with p := s.p - max (s.b1.length / s.b2.length) 1 } true = some s1 ∧
      put s k v = some (pushT2 (dropB2 s1 k) k { key := k, value := v, is_ghost := false }) ∧
      ∃ k0, PutOK s (pushT2 (dropB2 s1 k) k { key := k, value := v, is_ghost := false }) k v
        (some k0) := by
  obtain ⟨d1, d2, d3⟩ := arc_disjoint h k
  have h1 : itemOf ARCItem.key s.t1 k = none := by
    rw [itemOf_eq_none]
    exact fun hm => (d1 hm).2.2 hk
  have h2 : itemOf ARCItem.key s.t2 k = none := by
    rw [itemOf_eq_none]
    exact fun hm => (d2 hm).2 hk
  have hf1 : UMap.find s.b1_map k = none := by
    rw [h.okb1.map_eq, find_entriesOf_none]
    exact fun hm => d3 hm hk
  cases hf : UMap.find s.b2_map k with
  | none =>
    rw [h.okb2.map_eq, find_entriesOf_none] at hf
    exact absurd hk hf
  | some i =>
    have hc := List.one_le_count_iff.2 hk
    have hu := h.uniq k
    unfold occ at hu
    have hk1 : (keysOf ARCItem.key s.b2).count k = 1 := by omega
    obtain ⟨b1, b2, b3, b4, b5, b6⟩ := id hb
    have hb1 : 1 ≤ s.b2.length := by
      have := List.count_le_length k (keysOf ARCItem.key s.b2)
      rw [length_keysOf] at this
      omega
    have hd := arc_delta s.b1.length s.b2.length (by omega)
    have hq : ∀ d : Nat, (if s.p > d then s.p - d else 0) ≤ s.capacity := by
      intro d
      split_ifs <;> omega
    have hpe : (if s.p > max (s.b1.length / s.b2.length) 1 then
        s.p - max (s.b1.length / s.b2.length) 1 else 0) =
        s.p - max (s.b1.length / s.b2.length) 1 := by
      split_ifs <;> omega
    have hwp := arc_wf_setP h
      (if s.p > max (s.b1.length / s.b2.length) 1 then s.p - max (s.b1.length / s.b2.length) 1
        else 0)
    obtain ⟨s1, k0, hr, he⟩ := arc_replace_evicts hwp true (by
      by_cases e : s.t2 = []
      · right
        rw [e] at b6 b4
        simp only [List.length_nil] at b6 b4
        have hne : s.t1 ≠ [] := by
          intro e1
          rw [e1] at b6
          simp only [List.length_nil] at b6
          omega
        refine ⟨hne, ?_⟩
        have hp := hq (max (s.b1.length / s.b2.length) 1)
        have ht : s.t1.length = s.capacity := by omega
        rw [← ht] at hp
        rcases Nat.lt_or_eq_of_le hp with hlt | heq
        · exact Or.inl hlt
        · exact Or.inr ⟨rfl, heq.symm⟩
      · exact Or.inl e)
    obtain ⟨hne, hok⟩ := arc_putok_ghost2 h hb hk1 v _ (hq _) rfl he
    have hfs : UMap.find s1.b2_map k = some i := by
      rw [he.findb2 k hne]
      exact hf
    obtain ⟨y, -, -, hy3⟩ := arc_findb2 he.wf hfs
    have hr2 := hr
    rw [hpe] at hr2
    refine ⟨s1, hr2, ?_, k0, hok⟩
    rw [arc_put_ghost h h1 h2]
    simp only [putB1, hf1, putB2, hf, hd, hr, hy3]
    rfl

end ARCCache


/-! ### The state `put` leaves for an unseen key in `ARCCache` -/

namespace ARCCache

variable {T : Type}

/-- The state `put` builds for a key that is in none of the four lists: room
is made in a state `s2`, then the entry is appended to `t1`. -/
theorem arc_put_unseen {s : ARCCache T} (h : WF s) (hb : Bounds s) {k : String}
    (hk : occ s k = 0) (v : T) :
    ∃ s2, put s k v = some (pushT1 s2 k { key := k, value := v, is_ghost := false }) ∧
      s2.p = s.p ∧ s2.t1 <:+ s.t1 ∧ s2.t2 <:+ s.t2 ∧
      (s.t1.length = s.capacity →
        ∃ n rest, s.t1 = n :: rest ∧ s2 = dropT1 s n.item.key ∧ s2.t1 = rest) := by
  obtain ⟨b1, b2, b3, b4, b5, b6⟩ := id hb
  rw [arc_put_new_eq h hk]
  by_cases hA : s.t1.length + s.b1.length = s.capacity
  · by_cases hB : s.t1.length < s.capacity
    · cases e : s.b1 with
      | nil => rw [e] at hA; simp only [List.length_nil] at hA; omega
      | cons nb restb =>
        obtain ⟨hp, -⟩ := arc_popB1_cons h e
        have hwa := arc_wf_dropB1 h nb.item.key
        have hne1 : s.b1.isEmpty = false := by rw [e]; rfl
        obtain ⟨s1, hrep⟩ := arc_replace_total (dropB1 s nb.item.key) false
        obtain ⟨f1, f2, f3, -, -⟩ := arc_replace_frame hwa hrep
        refine ⟨s1, ?_, f1, f2, f3, fun hl => by omega⟩
        simp only [putNew, hA, hB, hne1, if_true, hp, Option.map_some', hrep]
    · cases e : s.t1 with
      | nil => rw [e] at hA hB; simp only [List.length_nil] at hA hB; omega
      | cons n rest =>
        obtain ⟨hp, hr⟩ := arc_popT1_cons h e
        refine ⟨dropT1 s n.item.key, ?_, rfl, ?_, List.suffix_refl _,
          fun _ => ⟨n, rest, rfl, rfl, hr⟩⟩
        · simp only [putNew, hA, hB, if_true, if_false, hp, Option.map_some']
        · rw [hr]
          exact List.suffix_cons _ _
  · by_cases hC : s.t1.length + s.t2.length + s.b1.length + s.b2.length ≥ s.capacity
    · have hD : s.t1.length + s.t2.length < 2 * s.capacity := by omega
      obtain ⟨st, hst, ht⟩ := arc_removeGhostEntries_spec h b1
      obtain ⟨s1, hrep⟩ := arc_replace_total st false
      obtain ⟨f1, f2, f3, -, -⟩ := arc_replace_frame ht.wf hrep
      refine ⟨s1, ?_, f1.trans ht.p_eq, ?_, ?_, fun hl => by omega⟩
      · simp only [putNew, hA, if_false, hC, if_true, hD, hst, hrep]
      · rw [← ht.t1_eq]
        exact f2
      · rw [← ht.t2_eq]
        exact f3
    · refine ⟨s, ?_, rfl, List.suffix_refl _, List.suffix_refl _, fun hl => by omega⟩
      simp only [putNew, hA, if_false, hC]

/-- The keys of `t1` after a call: those it had, and the key put if it was in
none of the four lists. -/
theorem arc_step_t1 {s s1 : ARCCache T} (h : WF s) (hb : Bounds s) (op : Op T)
    (hs : step s op = some s1) (a : String) (ha : a ∈ keysOf ARCItem.key s1.t1) :
    a ∈ keysOf ARCItem.key s.t1 ∨ occ s a = 0 := by
  have hsub : ∀ {l1 l : List (Node (ARCItem T))}, l1.Sublist l →
      a ∈ keysOf ARCItem.key l1 → a ∈ keysOf ARCItem.key l :=
    fun hl hm => (hl.map _).subset hm
  cases op with
  | get k =>
    cases h1 : itemOf ARCItem.key s.t1 k with
    | some x =>
      have hg := arc_get_hit1 h h1
      simp only [step, hg, Option.map_some', Option.some.injEq] at hs
      subst hs
      exact Or.inl (hsub (without_sublist ARCItem.key k s.t1) ha)
    | none =>
      cases h2 : itemOf ARCItem.key s.t2 k with
      | some x =>
        have hg := arc_get_hit2 h h1 h2
        simp only [step, hg, Option.map_some', Option.some.injEq] at hs
        subst hs
        exact Or.inl ha
      | none =>
        have hg := arc_get_miss h h1 h2
        simp only [step, hg, Option.map_some', Option.some.injEq] at hs
        subst hs
        exact Or.inl ha
  | put k v =>
    have hs2 : put s k v = some s1 := hs
    cases h1 : itemOf ARCItem.key s.t1 k with
    | some x =>
      rw [arc_put_hit1 h h1 v] at hs2
      cases hs2
      exact Or.inl (hsub (without_sublist ARCItem.key k s.t1) ha)
    | none =>
      cases h2 : itemOf ARCItem.key s.t2 k with
      | some x =>
        rw [arc_put_hit2 h h1 h2 v] at hs2
        cases hs2
        exact Or.inl ha
      | none =>
        by_cases m1 : k ∈ keysOf ARCItem.key s.b1
        · obtain ⟨sr, hr, hput, -⟩ := arc_put_b1 h hb m1 v
          rw [hput] at hs2
          cases hs2
          have hf := (arc_replace_frame (arc_wf_setP h _) hr).2.1
          exact Or.inl (hsub hf.sublist ha)
        · by_cases m2 : k ∈ keysOf ARCItem.key s.b2
          · obtain ⟨sr, hr, hput, -⟩ := arc_put_b2 h hb m2 v
            rw [hput] at hs2
            cases hs2
            have hf := (arc_replace_frame (arc_wf_setP h _) hr).2.1
            exact Or.inl (hsub hf.sublist ha)
          · have hk : occ s k = 0 := by
              rw [itemOf_eq_none, ← List.count_eq_zero] at h1 h2
              rw [← List.count_eq_zero] at m1 m2
              unfold occ
              omega
            obtain ⟨s2, hput, -, hf, -, -⟩ := arc_put_unseen h hb hk v
            rw [hput] at hs2
            cases hs2
            have ha2 : a ∈ keysOf ARCItem.key (s2.t1 ++ [⟨s2.fresh, ⟨k, v, false⟩⟩]) := ha
            rw [keysOf_append, List.mem_append] at ha2
            rcases ha2 with ha2 | ha2
            · exact Or.inl (hsub hf.sublist ha2)
            · simp only [keysOf_cons, keysOf_nil, List.mem_singleton] at ha2
              rw [ha2]
              exact Or.inr hk

end ARCCache


/-! ### Access to a live key of `ARCCache` -/

namespace ARCCache

variable {T : Type}

theorem arc_promoted_eq1 {s : ARCCache T} (h : WF s) {k : String} {x : ARCItem T}
    (hx : itemOf ARCItem.key s.t1 k = some x) (y : ARCItem T) :
    pushT2 (dropT1 s k) k y = promoted s k y := by
  have hc := count_keysOf_pos _ hx
  have hu := h.uniq k
  unfold occ at hu
  have hk2 : k ∉ keysOf ARCItem.key s.t2 := List.count_eq_zero.1 (by omega)
  simp only [pushT2, dropT1, promoted, without_eq_self ARCItem.key hk2, umap_assign_erase]

theorem arc_promoted_eq2 {s : ARCCache T} (h : WF s) {k : String}
    (h1 : itemOf ARCItem.key s.t1 k = none) (y : ARCItem T) :
    pushT2 (dropT2 s k) k y = promoted s k y := by
  have hk1 : k ∉ keysOf ARCItem.key s.t1 := (itemOf_eq_none _).1 h1
  have hm : k ∉ UMap.keys s.t1_map := by
    rw [h.ok1.map_eq, keys_entriesOf]
    exact hk1
  simp only [pushT2, dropT2, promoted, without_eq_self ARCItem.key hk1,
    umap_erase_of_not_mem hm, umap_assign_erase]

/-- Both `get` and `put` on a live key take its entry to the end of `t2`. -/
theorem arc_live_access {s : ARCCache T} (h : WF s) (hb : Bounds s) {k : String}
    (hl : live s k) (v : T) :
    ∃ x, liveItem s k = some x ∧ x.key = k ∧ x.is_ghost = false ∧
      get s k = some (promoted s k x, some x.value) ∧
      put s k v = some (promoted s k { x with value := v }) ∧
      size (promoted s k x) = size s ∧ size (promoted s k { x with value := v }) = size s ∧
      lookup (promoted s k x) k = some x.value ∧
      lookup (promoted s k { x with value := v }) k = some v := by
  cases h1 : itemOf ARCItem.key s.t1 k with
  | some x =>
    have hg := arc_getok_hit1 h hb h1
    have hp := arc_putok_hit1 h hb h1 v
    rw [arc_promoted_eq1 h h1] at hg hp
    have hlen := hg.live_len
    have hlen2 : (promoted s k { x with value := v }).t1.length +
        (promoted s k { x with value := v }).t2.length = s.t1.length + s.t2.length := by
      simp only [promoted, List.length_append, List.length_singleton] at hlen ⊢
      exact hlen
    refine ⟨x, by simp only [liveItem, h1], itemOf_key _ h1, arc_live_of_item h.live1 h1, ?_, ?_,
      ?_, ?_, ?_, ?_⟩
    · rw [arc_get_hit1 h h1, arc_promoted_eq1 h h1]
    · rw [arc_put_hit1 h h1 v, arc_promoted_eq1 h h1]
    · rw [arc_size_eq hg.wf, arc_size_eq h, hlen]
    · rw [arc_size_eq hp.wf, arc_size_eq h, hlen2]
    · rw [arc_lookup_eq hg.wf hg.bounds, hg.live, arc_liveVal_item1 h1]
    · rw [arc_lookup_eq hp.wf hp.bounds, hp.live, if_pos rfl]
  | none =>
    cases h2 : itemOf ARCItem.key s.t2 k with
    | none =>
      exfalso
      rw [arc_live_mem h] at hl
      rw [itemOf_eq_none] at h1 h2
      rcases hl with hl | hl
      · exact h1 hl
      · exact h2 hl
    | some x =>
      have hg := arc_getok_hit2 h hb h1 h2
      have hp := arc_putok_hit2 h hb h2 v
      rw [arc_promoted_eq2 h h1] at hg hp
      have hlen := hg.live_len
      have hlen2 : (promoted s k { x with value := v }).t1.length +
          (promoted s k { x with value := v }).t2.length = s.t1.length + s.t2.length := by
        simp only [promoted, List.length_append, List.length_singleton] at hlen ⊢
        exact hlen
      refine ⟨x, by simp only [liveItem, h1, h2], itemOf_key _ h2,
        arc_live_of_item h.live2 h2, ?_, ?_, ?_, ?_, ?_, ?_⟩
      · rw [arc_get_hit2 h h1 h2, arc_promoted_eq2 h h1]
      · rw [arc_put_hit2 h h1 h2 v, arc_promoted_eq2 h h1]
      · rw [arc_size_eq hg.wf, arc_size_eq h, hlen]
      · rw [arc_size_eq hp.wf, arc_size_eq h, hlen2]
      · rw [arc_lookup_eq hg.wf hg.bounds, hg.live, arc_liveVal_item2 h1 h2]
      · rw [arc_lookup_eq hp.wf hp.bounds, hp.live, if_pos rfl]

/-- No call takes a key of `t2` to `t1`. -/
theorem arc_t2_not_to_t1 {cap : Nat} {s s1 : ARCCache T} (hr : Reachable cap s) (op : Op T)
    (hs : step s op = some s1) (a : String) (ha : a ∈ keysOf ARCItem.key s.t2) :
    a ∉ keysOf ARCItem.key s1.t1 := by
  rcases Nat.eq_zero_or_pos cap with e | hcap
  · subst e
    obtain ⟨ops, hops⟩ := hr
    rw [arc_run_zero ops hops] at ha
    cases ha
  · obtain ⟨h, hb, -⟩ := arc_reachable_inv hcap hr
    intro hm
    have hc := List.one_le_count_iff.2 ha
    have hu := h.uniq a
    unfold occ at hu
    rcases arc_step_t1 h hb op hs a hm with h1 | h1
    · have := List.one_le_count_iff.2 h1
      omega
    · unfold occ at h1
      omega

end ARCCache


/-! ## The claims -/

section Claims

variable {T : Type}

/-- C1: for every capacity of at least one and every finite sequence `ops` of
`get` and `put` calls on a freshly constructed `ARCCache`, every call returns,
and after every call (after the first `n` calls, for every `n`) `size()`,
which is `|T1| + |T2|`, is at most the capacity. -/
theorem arc_capacity_invariant (cap : Nat) (hcap : 1 ≤ cap) (ops : List (Op T)) (n : Nat) :
    ∃ s : ARCCache T, ARCCache.run (ARCCache.new cap) (ops.take n) = some s ∧
      ARCCache.size s = s.t1.length + s.t2.length ∧ ARCCache.size s ≤ cap := by
  obtain ⟨s, hs, hw, hb, hc⟩ :=
    ARCCache.arc_run_ok (ARCCache.arc_wf_new cap) (ARCCache.arc_bounds_new hcap) (T := T)
      (ops.take n)
  refine ⟨s, hs, ARCCache.arc_size_eq hw, ?_⟩
  rw [ARCCache.arc_size_eq hw]
  have := hb.live_le
  rw [hc] at this
  exact this

/-- C1 at capacity 2, after each of the four calls
`put(a,1); put(b,2); get(a); put(c,3)`, here after the third. -/
theorem arc_capacity_invariant_witness :
    1 ≤ 2 ∧ ∃ s : ARCCache Nat,
      ARCCache.run (ARCCache.new 2)
        (List.take 3 [Op.put "a" 1, Op.put "b" 2, Op.get "a", Op.put "c" 3]) = some s ∧
      ARCCache.size s = s.t1.length + s.t2.length ∧ ARCCache.size s ≤ 2 :=
  ⟨by decide, arc_capacity_invariant 2 (by decide) _ 3⟩

/-- C3: for each of the four policies, every capacity of at least one, every
state reachable from a fresh cache, every key `k` and value `v`, `put(k, v)`
returns and the `get(k)` that follows it returns `true` with the value `v`;
`k` is any key, absent, live or (for ARC) a ghost of `B1` or `B2`. -/
theorem put_get_round_trip (cap : Nat) (hcap : 1 ≤ cap) (k : String) (v : T) :
    (∀ s : FIFOCache T, FIFOCache.Reachable cap s →
        ∃ s1 s2, FIFOCache.put s k v = some s1 ∧ FIFOCache.get s1 k = some (s2, some v)) ∧
      (∀ s : LRUCache T, LRUCache.Reachable cap s →
        ∃ s1 s2, LRUCache.put s k v = some s1 ∧ LRUCache.get s1 k = some (s2, some v)) ∧
      (∀ s : LFUCache T, LFUCache.Reachable cap s →
        ∃ s1 s2, LFUCache.put s k v = some s1 ∧ LFUCache.get s1 k = some (s2, some v)) ∧
      (∀ s : ARCCache T, ARCCache.Reachable cap s →
        ∃ s1 s2, ARCCache.put s k v = some s1 ∧ ARCCache.get s1 k = some (s2, some v)) := by
  refine ⟨?_, ?_, ?_, ?_⟩
  · intro s hr
    obtain ⟨s1, s2, h1, h2, -⟩ := FIFOCache.fifo_put_frame hcap hr k v
    exact ⟨s1, s2, h1, h2⟩
  · intro s hr
    obtain ⟨s1, s2, h1, h2, -⟩ := LRUCache.lru_put_frame hcap hr k v
    exact ⟨s1, s2, h1, h2⟩
  · intro s hr
    obtain ⟨s1, s2, h1, h2, -⟩ := LFUCache.lfu_put_frame hcap hr k v
    exact ⟨s1, s2, h1, h2⟩
  · intro s hr
    obtain ⟨s1, s2, h1, h2, -⟩ := ARCCache.arc_put_frame hcap hr k v
    exact ⟨s1, s2, h1, h2⟩

/-- C3 at capacity 2 for the ARC state after `put(a,1); put(b,2); get(a);
put(c,3)`, where `b` is a ghost of `B1`: `put(b, 9)` and then `get(b)`. -/
theorem put_get_round_trip_witness :
    (1 ≤ 2 ∧ ARCCache.Reachable 2 arcTrace ∧ ARCCache.ghost arcTrace "b") ∧
      ∃ s1 s2, ARCCache.put arcTrace "b" 9 = some s1 ∧
        ARCCache.get s1 "b" = some (s2, some 9) :=
  ⟨⟨by decide, ⟨[Op.put "a" 1, Op.put "b" 2, Op.get "a", Op.put "c" 3], by decide⟩,
      Or.inl (by decide)⟩,
    (put_get_round_trip 2 (by decide) "b" 9).2.2.2 arcTrace
      ⟨[Op.put "a" 1, Op.put "b" 2, Op.get "a", Op.put "c" 3], by decide⟩⟩

/-- C4: for each of the four policies, every capacity of at least one, every
reachable state and every `put(k, v)`: the call returns; at most one key that
was live (present) before it is no longer live after it; no key is removed
when `k` was live or `size()` was below the capacity; and every other key
that is live afterwards has the value it had before. -/
theorem put_evicts_at_most_one (cap : Nat) (hcap : 1 ≤ cap) (k : String) (v : T) :
    (∀ s : FIFOCache T, FIFOCache.Reachable cap s → ∃ s1, FIFOCache.put s k v = some s1 ∧
        (∀ a b, FIFOCache.present s a → ¬ FIFOCache.present s1 a →
          FIFOCache.present s b → ¬ FIFOCache.present s1 b → a = b) ∧
        (FIFOCache.present s k ∨ FIFOCache.size s < cap →
          ∀ a, FIFOCache.present s a → FIFOCache.present s1 a) ∧
        (∀ a, a ≠ k → FIFOCache.present s1 a →
          FIFOCache.lookup s1 a = FIFOCache.lookup s a)) ∧
      (∀ s : LRUCache T, LRUCache.Reachable cap s → ∃ s1, LRUCache.put s k v = some s1 ∧
        (∀ a b, LRUCache.present s a → ¬ LRUCache.present s1 a →
          LRUCache.present s b → ¬ LRUCache.present s1 b → a = b) ∧
        (LRUCache.present s k ∨ LRUCache.size s < cap →
          ∀ a, LRUCache.present s a → LRUCache.present s1 a) ∧
        (∀ a, a ≠ k → LRUCache.present s1 a →
          LRUCache.lookup s1 a = LRUCache.lookup s a)) ∧
      (∀ s : LFUCache T, LFUCache.Reachable cap s → ∃ s1, LFUCache.put s k v = some s1 ∧
        (∀ a b, LFUCache.present s a → ¬ LFUCache.present s1 a →
          LFUCache.present s b → ¬ LFUCache.present s1 b → a = b) ∧
        (LFUCache.present s k ∨ LFUCache.size s < cap →
          ∀ a, LFUCache.present s a → LFUCache.present s1 a) ∧
        (∀ a, a ≠ k → LFUCache.present s1 a →
          LFUCache.lookup s1 a = LFUCache.lookup s a)) ∧
      (∀ s : ARCCache T, ARCCache.Reachable cap s → ∃ s1, ARCCache.put s k v = some s1 ∧
        (∀ a b, ARCCache.live s a → ¬ ARCCache.live s1 a →
          ARCCache.live s b → ¬ ARCCache.live s1 b → a = b) ∧
        (ARCCache.live s k ∨ ARCCache.size s < cap →
          ∀ a, ARCCache.live s a → ARCCache.live s1 a) ∧
        (∀ a, a ≠ k → ARCCache.live s1 a →
          ARCCache.lookup s1 a = ARCCache.lookup s a)) := by
  refine ⟨?_, ?_, ?_, ?_⟩
  · intro s hr
    obtain ⟨s1, s2, h1, -, h3⟩ := FIFOCache.fifo_put_frame hcap hr k v
    exact ⟨s1, h1, h3⟩
  · intro s hr
    obtain ⟨s1, s2, h1, -, h3⟩ := LRUCache.lru_put_frame hcap hr k v
    exact ⟨s1, h1, h3⟩
  · intro s hr
    obtain ⟨s1, s2, h1, -, h3⟩ := LFUCache.lfu_put_frame hcap hr k v
    exact ⟨s1, h1, h3⟩
  · intro s hr
    obtain ⟨s1, s2, h1, -, h3⟩ := ARCCache.arc_put_frame hcap hr k v
    exact ⟨s1, h1, h3⟩

/-- C4 at capacity 2 for the full LRU state after `put(a,1); put(b,2);
get(a)` and the new key `c`. -/
theorem put_evicts_at_most_one_witness :
    (1 ≤ 2 ∧ LRUCache.Reachable 2 lruFull) ∧
      ∃ s1, LRUCache.put lruFull "c" 3 = some s1 ∧
        (∀ a b, LRUCache.present lruFull a → ¬ LRUCache.present s1 a →
          LRUCache.present lruFull b → ¬ LRUCache.present s1 b → a = b) ∧
        (LRUCache.present lruFull "c" ∨ LRUCache.size lruFull < 2 →
          ∀ a, LRUCache.present lruFull a → LRUCache.present s1 a) ∧
        (∀ a, a ≠ "c" → LRUCache.present s1 a →
          LRUCache.lookup s1 a = LRUCache.lookup lruFull a) :=
  ⟨⟨by decide, ⟨[Op.put "a" 1, Op.put "b" 2, Op.get "a"], by decide⟩⟩,
    (put_evicts_at_most_one 2 (by decide) "c" 3).2.1 lruFull
      ⟨[Op.put "a" 1, Op.put "b" 2, Op.get "a"], by decide⟩⟩

/-- C5: in every state `s` an `ARCCache` of any capacity reaches by a
sequence `ops` of calls, the maps mirror the lists (a key is in `t1_map` or
`t2_map` exactly when it is in `T1` or `T2`, and in `b1_map` or `b2_map`
exactly when it is in `B1` or `B2`), `get(k)` returns, and it reports a value
exactly when `k` is live (in `T1` or `T2`); the value reported is the one of the
last `put` on `k`; when `k` is not live, in particular when it is a ghost of
`B1` or `B2`, `get` reports a miss and leaves the state as it was. -/
theorem arc_get_never_surfaces_ghost (cap : Nat) (ops : List (Op T))
    (s : ARCCache T) (hrun : ARCCache.run (ARCCache.new cap) ops = some s) (k : String) :
    (ARCCache.live s k ↔ k ∈ keysOf ARCItem.key s.t1 ∨ k ∈ keysOf ARCItem.key s.t2) ∧
      (ARCCache.ghost s k ↔ k ∈ keysOf ARCItem.key s.b1 ∨ k ∈ keysOf ARCItem.key s.b2) ∧
      ∃ s1 r, ARCCache.get s k = some (s1, r) ∧
        (r ≠ none ↔ ARCCache.live s k) ∧
        (∀ v, r = some v → lastPut ops k = some v) ∧
        (¬ ARCCache.live s k → r = none ∧ s1 = s) ∧
        (ARCCache.ghost s k → r = none ∧ s1 = s) := by
  rcases Nat.eq_zero_or_pos cap with e | hcap
  · subst e
    have hs := ARCCache.arc_run_zero ops hrun
    subst hs
    have hw0 := ARCCache.arc_wf_new (T := T) 0
    have hnl : ¬ ARCCache.live (ARCCache.new 0 : ARCCache T) k := by
      intro hl
      rcases hl with hl | hl <;> exact hl rfl
    refine ⟨ARCCache.arc_live_mem hw0 k, ARCCache.arc_ghost_mem hw0 k, ARCCache.new 0, none,
      rfl, ⟨fun hn => absurd rfl hn, fun hl => absurd hl hnl⟩, ?_,
      fun _ => ⟨rfl, rfl⟩, fun _ => ⟨rfl, rfl⟩⟩
    intro v hv
    cases hv
  · obtain ⟨hw, hb, -⟩ := ARCCache.arc_reachable_inv hcap ⟨ops, hrun⟩
    obtain ⟨s1, hg, -, hsame⟩ := ARCCache.arc_get_ok hw hb k
    have hmiss : ¬ ARCCache.live s k → ARCCache.liveVal s k = none ∧ s1 = s := by
      intro hl
      rw [ARCCache.arc_live_iff hw, not_not] at hl
      exact ⟨hl, hsame hl⟩
    refine ⟨ARCCache.arc_live_mem hw k, ARCCache.arc_ghost_mem hw k, s1, _, hg,
      (ARCCache.arc_live_iff hw k).symm, ?_, hmiss, ?_⟩
    · intro v hv
      exact ARCCache.arc_live_lastPut hcap ops s hrun k v hv
    · intro hgh
      exact hmiss (ARCCache.arc_ghost_not_live hw hgh)

/-- C5 at the state after `put(a,1); put(b,2); get(a); put(c,3)` with capacity
2, for the ghost `b`. -/
theorem arc_get_never_surfaces_ghost_witness :
    ARCCache.run (ARCCache.new 2)
        [Op.put "a" 1, Op.put "b" 2, Op.get "a", Op.put "c" 3] = some arcTrace ∧
      ∃ s1 r, ARCCache.get arcTrace "b" = some (s1, r) ∧
        (r ≠ none ↔ ARCCache.live arcTrace "b") ∧
        (∀ v, r = some v →
          lastPut [Op.put "a" 1, Op.put "b" 2, Op.get "a", Op.put "c" 3] "b" = some v) ∧
        (¬ ARCCache.live arcTrace "b" → r = none ∧ s1 = arcTrace) ∧
        (ARCCache.ghost arcTrace "b" → r = none ∧ s1 = arcTrace) :=
  ⟨by decide, (arc_get_never_surfaces_ghost 2 _ arcTrace (by decide) "b").2.2⟩

/-- C6: on a fresh `ARCCache` of capacity 2 the calls
`put(a,1); put(b,2); get(a); put(c,3)` end in the state `arcTrace`, where
`T1 = [c]`, `T2 = [a]`, `B1 = [b]`, `B2 = []` and `size() = 2`; then `get(b)`
misses and changes nothing, `get(c)` reports 3 and moves `c` to the end of
`T2`, `get(a)` reports 1, and `size()` is 2 after each of the three. -/
theorem arc_trace_capacity_two :
    ARCCache.run (ARCCache.new 2)
        [Op.put "a" 1, Op.put "b" 2, Op.get "a", Op.put "c" 3] = some arcTrace ∧
      keysOf ARCItem.key arcTrace.t1 = ["c"] ∧ keysOf ARCItem.key arcTrace.t2 = ["a"] ∧
      keysOf ARCItem.key arcTrace.b1 = ["b"] ∧ arcTrace.b2 = [] ∧
      ARCCache.size arcTrace = 2 ∧
      ARCCache.get arcTrace "b" = some (arcTrace, none) ∧
      ARCCache.get arcTrace "c" = some (arcTraceC, some 3) ∧
      arcTraceC.t1 = [] ∧ keysOf ARCItem.key arcTraceC.t2 = ["a", "c"] ∧
      ARCCache.size arcTraceC = 2 ∧
      ARCCache.get arcTraceC "a" = some (arcTraceA, some 1) ∧
      ARCCache.size arcTraceA = 2 := by
  decide

/-- C7: in every state `s` of an `LRUCache` of capacity `cap` reachable from
a fresh cache, the list holds the present keys, each once, in the order
of the stamps of their last touch, oldest first, all older than the clock; a
`get` hit and a `put` on a present key move the entry to the end of the list
with the clock as its stamp, and a `put` of an absent key appends an entry
stamped with the clock; a `get` miss leaves the state as it is; when
`cap ≥ 1`, a `put` of an absent key when `size()` equals the capacity removes
the head of the list, whose stamp is older than every other, and no other
key. At capacity 2, after `put(a,1); put(b,2); get(a); put(c,3)`, `get(b)`
misses, `get(a)` hits 1 and `get(c)` hits 3. -/
theorem lru_evicts_least_recently_touched (cap : Nat) (s : LRUCache T)
    (hr : LRUCache.Reachable cap s) (k : String) (v : T) :
    (s.cache_map = entriesOf CacheItem.key s.cache_list ∧
        (keysOf CacheItem.key s.cache_list).Nodup ∧
        (stampsOf s.cache_list).Pairwise (fun a b => a < b) ∧
        (∀ c ∈ s.cache_list, c.item.last_accessed < s.clock) ∧
        (∀ a, LRUCache.present s a ↔ a ∈ keysOf CacheItem.key s.cache_list)) ∧
      (LRUCache.present s k → ∃ x, itemOf CacheItem.key s.cache_list k = some x ∧
        LRUCache.get s k =
          some (LRUCache.touched s k { x with last_accessed := s.clock }, some x.value) ∧
        LRUCache.put s k v =
          some (LRUCache.touched s k { x with value := v, last_accessed := s.clock })) ∧
      (¬ LRUCache.present s k → LRUCache.get s k = some (s, none)) ∧
      (¬ LRUCache.present s k → LRUCache.size s < cap →
        LRUCache.put s k v = some (LRUCache.appended s k v)) ∧
      (1 ≤ cap → ¬ LRUCache.present s k → LRUCache.size s = cap →
        ∃ c rest s1, s.cache_list = c :: rest ∧ LRUCache.put s k v = some s1 ∧
          s1 = LRUCache.appended (LRUCache.dropped s c.item.key) k v ∧
          (∀ d ∈ rest, c.item.last_accessed < d.item.last_accessed) ∧
          LRUCache.present s c.item.key ∧ ¬ LRUCache.present s1 c.item.key ∧
          (∀ a, a ≠ c.item.key → LRUCache.present s a → LRUCache.present s1 a)) ∧
      (LRUCache.run (LRUCache.new 2) [Op.put "a" 1, Op.put "b" 2, Op.get "a", Op.put "c" 3] =
          some lruTrace ∧
        LRUCache.get lruTrace "b" = some (lruTrace, none) ∧
        LRUCache.get lruTrace "a" = some (lruTraceA, some 1) ∧
        ∃ s2, LRUCache.get lruTraceA "c" = some (s2, some 3)) := by
  rcases Nat.eq_zero_or_pos cap with e | hcap
  · subst e
    obtain ⟨ops, hops⟩ := hr
    have hs := LRUCache.lru_run_zero ops hops
    subst hs
    have hnp : ∀ a, ¬ LRUCache.present (LRUCache.new 0 : LRUCache T) a := fun a hp => hp rfl
    refine ⟨⟨rfl, List.nodup_nil, List.Pairwise.nil, ?_, ?_⟩, ?_, ?_, ?_, ?_, ?_⟩
    · intro c hc
      cases hc
    · intro a
      exact ⟨fun hp => absurd hp (hnp a), fun hm => by cases hm⟩
    · intro hp
      exact absurd hp (hnp k)
    · intro _
      rfl
    · intro _ hlt
      exact absurd hlt (Nat.not_lt_zero _)
    · intro h1
      exact absurd h1 (by decide)
    · exact ⟨by decide, by decide, by decide, _, rfl⟩
  · obtain ⟨h, hc⟩ := LRUCache.lru_reachable_inv hcap hr
    have hpres : ∀ a, LRUCache.present s a ↔ a ∈ keysOf CacheItem.key s.cache_list := by
      intro a
      rw [LRUCache.lru_present_iff h, LRUCache.lru_val_ne_none]
    refine ⟨⟨h.ok.map_eq, h.keys_nodup, h.sorted, h.stamps_lt, hpres⟩, ?_, ?_, ?_, ?_, ?_⟩
    · intro hp
      obtain ⟨x, hx⟩ := LRUCache.lru_item_of_present h hp
      exact ⟨x, hx, LRUCache.lru_get_hit h hx, LRUCache.lru_put_hit h hx v⟩
    · intro hp
      apply LRUCache.lru_get_miss h
      rw [itemOf_eq_none, ← hpres]
      exact hp
    · intro hp hlt
      rw [← hc] at hlt
      exact LRUCache.lru_put_room hp hlt v
    · intro _ hp hfull
      rw [← hc] at hfull
      obtain ⟨c, rest, e, hput, hleast⟩ := LRUCache.lru_put_full h hp hfull v
      have hpc : LRUCache.present s c.item.key := by
        rw [hpres, e]
        exact List.mem_cons_self _ _
      refine ⟨c, rest, _, e, hput, rfl, hleast, hpc, ?_, ?_⟩
      · intro hn
        rcases (umap_find_assign_erase s.cache_map k c.item.key c.item.key s.fresh).1 hn with
          e2 | ⟨-, e2⟩
        · rw [e2] at hpc
          exact hp hpc
        · exact e2 rfl
      · intro a ha hpa
        exact (umap_find_assign_erase s.cache_map k c.item.key a s.fresh).2 (Or.inr ⟨hpa, ha⟩)
    · exact ⟨by decide, by decide, by decide, _, rfl⟩

/-- C7 at capacity 2 for the full state after `put(a,1); put(b,2); get(a)` and
the absent key `c`: the head of the list, `b`, is removed. -/
theorem lru_evicts_least_recently_touched_witness :
    (1 ≤ 2 ∧ LRUCache.Reachable 2 lruFull ∧ ¬ LRUCache.present lruFull "c" ∧
        LRUCache.size lruFull = 2) ∧
      ∃ c rest s1, lruFull.cache_list = c :: rest ∧ LRUCache.put lruFull "c" 3 = some s1 ∧
        s1 = LRUCache.appended (LRUCache.dropped lruFull c.item.key) "c" 3 ∧
        (∀ d ∈ rest, c.item.last_accessed < d.item.last_accessed) ∧
        LRUCache.present lruFull c.item.key ∧ ¬ LRUCache.present s1 c.item.key ∧
        (∀ a, a ≠ c.item.key → LRUCache.present lruFull a → LRUCache.present s1 a) :=
  ⟨⟨by decide, ⟨[Op.put "a" 1, Op.put "b" 2, Op.get "a"], by decide⟩,
      by unfold LRUCache.present; decide, by decide⟩,
    (lru_evicts_least_recently_touched 2 lruFull
      ⟨[Op.put "a" 1, Op.put "b" 2, Op.get "a"], by decide⟩ "c" 3).2.2.2.2.1 (by decide)
      (by unfold LRUCache.present; decide) (by decide)⟩

/-- Victim selection of `LFUCache` on the runs where no counter has left the
range of `int`: let `s` be the state of an `LFUCache` of capacity `cap ≥ 1`
after the calls `ops` on a fresh cache, with `size()` equal to the capacity,
and let the frequency of a key be 1 at its insertion and one more on every
`get` hit and every `put` on the existing key. On a run where the frequency
of every present key is at most 2147483647, the largest `int`, the stored
counter of every present key is its frequency, and `put(k, v)` of an absent
key `k` removes exactly one key, the victim: every other present key has a
larger frequency, or the same frequency and a later access time; every other
key stays, and `k` is stored with the value `v` and the frequency 1. At
capacity 2, `put(a,1); put(b,2); get(a); put(c,3)` evicts `b`: `get(b)`
misses, `get(a)` hits 1 and `get(c)` hits 3. -/
theorem lfu_victim_selection (cap : Nat) (hcap : 1 ≤ cap) (ops : List (Op T))
    (s : LFUCache T) (hrun : LFUCache.run (LFUCache.new cap) ops = some s) (k : String) (v : T)
    (hk : ¬ LFUCache.present s k) (hfull : LFUCache.size s = cap)
    (hbound : ∀ a, LFUCache.present s a →
      LFUCache.specFrequency a (LFUCache.new cap) 0 ops ≤ 2147483647) :
    (∀ a, LFUCache.present s a → UMap.find s.frequency_map a =
        some (LFUCache.specFrequency a (LFUCache.new cap) 0 ops : Int)) ∧
      (∃ victim t s1, LFUCache.present s victim ∧
        UMap.find s.access_time_map victim = some t ∧
        LFUCache.put s k v = some s1 ∧
        s1 = LFUCache.inserted (LFUCache.evicted s victim) k v ∧
        (∀ a, LFUCache.present s a → a ≠ victim →
          ∃ ta, UMap.find s.access_time_map a = some ta ∧
            (LFUCache.specFrequency victim (LFUCache.new cap) 0 ops <
                LFUCache.specFrequency a (LFUCache.new cap) 0 ops ∨
              (LFUCache.specFrequency victim (LFUCache.new cap) 0 ops =
                  LFUCache.specFrequency a (LFUCache.new cap) 0 ops ∧ t < ta))) ∧
        ¬ LFUCache.present s1 victim ∧
        (∀ a, a ≠ victim → LFUCache.present s a → LFUCache.present s1 a) ∧
        UMap.find s1.frequency_map k = some 1 ∧ LFUCache.lookup s1 k = some v) ∧
      (LFUCache.run (LFUCache.new 2) [Op.put "a" 1, Op.put "b" 2, Op.get "a", Op.put "c" 3] =
          some lfuTrace ∧
        LFUCache.put lfuFull "c" 3 = some lfuTrace ∧
        LFUCache.get lfuTrace "b" = some (lfuTrace, none) ∧
        LFUCache.get lfuTrace "a" = some (lfuTraceA, some 1) ∧
        ∃ s2, LFUCache.get lfuTraceA "c" = some (s2, some 3)) := by
  obtain ⟨h, hc⟩ := LFUCache.lfu_reachable_inv hcap ⟨ops, hrun⟩
  have hmem : ∀ a, LFUCache.present s a → a ∈ UMap.keys s.cache_map := by
    intro a hp
    by_contra hn
    exact hp (umap_find_none_iff.2 hn)
  have hstored : ∀ a, LFUCache.present s a → UMap.find s.frequency_map a =
      some (LFUCache.specFrequency a (LFUCache.new cap) 0 ops : Int) := by
    intro a hp
    cases hf : UMap.find s.frequency_map a with
    | none =>
      rw [umap_find_none_iff, h.keys_f] at hf
      exact absurd (hmem a hp) hf
    | some f =>
      have h0 : ∀ f, UMap.find (LFUCache.new cap : LFUCache T).frequency_map a = some f →
          f = wrapInt (0 : Nat) := by
        intro f hf0
        cases hf0
      rw [LFUCache.lfu_freq_run a ops (LFUCache.lfu_inv_new hcap) 0 h0 hrun f hf,
        wrapInt_of_nat (hbound a hp)]
  refine ⟨hstored, ?_, ?_⟩
  · obtain ⟨victim, f, t, hv, hf, ht, hput, hleast⟩ :=
      LFUCache.lfu_put_full h (not_not.1 hk) (hfull.trans hc.symm) v
    have hpv : LFUCache.present s victim := fun hn => umap_find_none_iff.1 hn hv
    have hfv := hstored victim hpv
    rw [hf] at hfv
    have hfv2 := Option.some.inj hfv
    refine ⟨victim, t, _, hpv, ht, hput, rfl, ?_, ?_, ?_, ?_, ?_⟩
    · intro a hp hne
      obtain ⟨fa, ta, hfa, hta, hlt⟩ := hleast a (hmem a hp) hne
      have hfa2 := hstored a hp
      rw [hfa] at hfa2
      have hfa3 := Option.some.inj hfa2
      refine ⟨ta, hta, ?_⟩
      rw [hfv2, hfa3] at hlt
      rcases hlt with hlt | ⟨hlt, htt⟩
      · exact Or.inl (by exact_mod_cast hlt)
      · exact Or.inr ⟨by exact_mod_cast hlt, htt⟩
    · intro hn
      rcases (umap_find_assign_erase s.cache_map k victim victim v).1 hn with e2 | ⟨-, e2⟩
      · rw [e2] at hpv
        exact hk hpv
      · exact e2 rfl
    · intro a ha hpa
      exact (umap_find_assign_erase s.cache_map k victim a v).2 (Or.inr ⟨hpa, ha⟩)
    · show UMap.find (UMap.assign (UMap.erase s.frequency_map victim) k 1) k = some 1
      rw [umap_find_assign, if_pos rfl]
    · have hfk : UMap.find (LFUCache.inserted (LFUCache.evicted s victim) k v).cache_map k =
          some v := by
        show UMap.find (UMap.assign (UMap.erase s.cache_map victim) k v) k = some v
        rw [umap_find_assign, if_pos rfl]
      simp only [LFUCache.lookup, LFUCache.get, hfk]
  · exact ⟨by decide, by decide, by decide, by decide, _, rfl⟩

/-- Victim selection at capacity 2 for the full state after
`put(a,1); put(b,2); get(a)` and the absent key `c`: the frequencies are 2 and
1, and `b` is removed. -/
theorem lfu_victim_selection_witness :
    (1 ≤ 2 ∧
        LFUCache.run (LFUCache.new 2) [Op.put "a" 1, Op.put "b" 2, Op.get "a"] = some lfuFull ∧
        ¬ LFUCache.present lfuFull "c" ∧ LFUCache.size lfuFull = 2 ∧
        (∀ a, LFUCache.present lfuFull a → LFUCache.specFrequency a (LFUCache.new 2) 0
          [Op.put "a" 1, Op.put "b" 2, (Op.get "a" : Op Nat)] ≤ 2147483647)) ∧
      ∃ victim t s1, LFUCache.present lfuFull victim ∧
        UMap.find lfuFull.access_time_map victim = some t ∧
        LFUCache.put lfuFull "c" 3 = some s1 ∧
        s1 = LFUCache.inserted (LFUCache.evicted lfuFull victim) "c" 3 ∧
        (∀ a, LFUCache.present lfuFull a → a ≠ victim →
          ∃ ta, UMap.find lfuFull.access_time_map a = some ta ∧
            (LFUCache.specFrequency victim (LFUCache.new 2) 0
                  [Op.put "a" 1, Op.put "b" 2, (Op.get "a" : Op Nat)] <
                LFUCache.specFrequency a (LFUCache.new 2) 0
                  [Op.put "a" 1, Op.put "b" 2, (Op.get "a" : Op Nat)] ∨
              (LFUCache.specFrequency victim (LFUCache.new 2) 0
                    [Op.put "a" 1, Op.put "b" 2, (Op.get "a" : Op Nat)] =
                  LFUCache.specFrequency a (LFUCache.new 2) 0
                    [Op.put "a" 1, Op.put "b" 2, (Op.get "a" : Op Nat)] ∧ t < ta))) ∧
        ¬ LFUCache.present s1 victim ∧
        (∀ a, a ≠ victim → LFUCache.present lfuFull a → LFUCache.present s1 a) ∧
        UMap.find s1.frequency_map "c" = some 1 ∧ LFUCache.lookup s1 "c" = some 3 :=
  ⟨⟨by decide, by decide, by unfold LFUCache.present; decide, by decide, lfu_full_bound⟩,
    (lfu_victim_selection 2 (by decide) [Op.put "a" 1, Op.put "b" 2, Op.get "a"] lfuFull
      (by decide) "c" 3 (by unfold LFUCache.present; decide) (by decide) lfu_full_bound).2.1⟩

/-- C8, the code against the claim: at capacity 2, after `put(a,1)`, 2147483647
calls `get(a)` and `put(b,2)`, the cache is full, the frequency of `a` is
2147483648 and that of `b` is 1, but `frequency_map[a]++` has overflowed the
`int` and the stored counter of `a` is -2147483648; `put(c,3)` then removes
`a`, the key of the largest frequency, and keeps `b`, the key of the smallest,
where the claim and the comment above the scan in `LFUCache::put` have the key
of the smallest frequency removed. -/
theorem lfu_hot_key_evicted :
    LFUCache.run (LFUCache.new 2)
        (Op.put "a" 1 :: (List.replicate 2147483647 (Op.get "a") ++ [Op.put "b" 2])) =
        some lfuHot ∧
      LFUCache.specFrequency "a" (LFUCache.new 2) 0
        (Op.put "a" 1 :: (List.replicate 2147483647 (Op.get "a") ++ [Op.put "b" 2])) =
        2147483648 ∧
      LFUCache.specFrequency "b" (LFUCache.new 2) 0
        (Op.put "a" 1 :: (List.replicate 2147483647 (Op.get "a") ++ [Op.put "b" 2])) = 1 ∧
      LFUCache.size lfuHot = 2 ∧ ¬ LFUCache.present lfuHot "c" ∧
      UMap.find lfuHot.frequency_map "a" = some (-2147483648) ∧
      LFUCache.put lfuHot "c" 3 = some lfuHotC ∧
      LFUCache.present lfuHot "a" ∧ LFUCache.present lfuHot "b" ∧
      ¬ LFUCache.present lfuHotC "a" ∧ LFUCache.present lfuHotC "b" := by
  have h0 : LFUCache.step (LFUCache.new 2) (Op.put "a" 1) = some (LFUCache.hot 1) := by decide
  have h1 : LFUCache.step (LFUCache.hot (1 + 2147483647)) (Op.put "b" 2) = some lfuHot := by
    decide
  refine ⟨?_, ?_, ?_, by decide, by unfold LFUCache.present; decide, by decide, by decide,
    by unfold LFUCache.present; decide, by unfold LFUCache.present; decide,
    by unfold LFUCache.present; decide, by unfold LFUCache.present; decide⟩
  · rw [LFUCache.lfu_run_cons h0, LFUCache.lfu_hot_run, LFUCache.lfu_run_cons h1]
    rfl
  · rw [LFUCache.lfu_freq_cons "a" h0, LFUCache.lfu_hot_freq_a, LFUCache.lfu_freq_cons "a" h1]
    rfl
  · rw [LFUCache.lfu_freq_cons "b" h0, LFUCache.lfu_hot_freq_b, LFUCache.lfu_freq_cons "b" h1]
    rfl

/-- C9: in every state `s` of a `FIFOCache` of capacity `cap` reachable from
a fresh cache, the list holds the objects of the present keys, each once,
in the order of the stamps they got when they were made, all older than the
clock; `get` returns and leaves the whole state as it is; `put` on a present
key sets the value of that key's object and changes nothing else; a `put` of
an absent key below the capacity appends an object stamped with the clock;
when `cap ≥ 1`, a `put` of an absent key when `size()` equals the capacity
removes the head of the list, whose stamp is older than every other (the key inserted earliest),
and no other key, and appends. At capacity 2, after `put(a,1); put(b,2);
put(c,3)`, `get(a)` misses, `get(b)` hits 2 and `get(c)` hits 3. -/
theorem fifo_evicts_in_insertion_order (cap : Nat) (s : FIFOCache T)
    (hr : FIFOCache.Reachable cap s) (k : String) (v : T) :
    (s.cache_list = idsOf s.heap ∧ s.cache_map = entriesOf CacheItem.key s.heap ∧
        (keysOf CacheItem.key s.heap).Nodup ∧
        (stampsOf s.heap).Pairwise (fun a b => a < b) ∧
        (∀ c ∈ s.heap, c.item.last_accessed < s.clock) ∧
        (∀ a, FIFOCache.present s a ↔ a ∈ keysOf CacheItem.key s.heap)) ∧
      (∃ r, FIFOCache.get s k = some (s, r)) ∧
      (FIFOCache.present s k →
        FIFOCache.put s k v = some (FIFOCache.overwritten s k v) ∧
        ∀ a, FIFOCache.lookup (FIFOCache.overwritten s k v) a =
          if a = k then some v else FIFOCache.lookup s a) ∧
      (¬ FIFOCache.present s k → FIFOCache.size s < cap →
        FIFOCache.put s k v = some (FIFOCache.appended s k v)) ∧
      (1 ≤ cap → ¬ FIFOCache.present s k → FIFOCache.size s = cap →
        ∃ c rest s1, s.heap = c :: rest ∧ FIFOCache.put s k v = some s1 ∧
          s1 = FIFOCache.appended (FIFOCache.dropped s c.item.key) k v ∧
          (∀ d ∈ rest, c.item.last_accessed < d.item.last_accessed) ∧
          FIFOCache.present s c.item.key ∧ ¬ FIFOCache.present s1 c.item.key ∧
          (∀ a, a ≠ c.item.key → FIFOCache.present s a → FIFOCache.present s1 a)) ∧
      (FIFOCache.run (FIFOCache.new 2) [Op.put "a" 1, Op.put "b" 2, Op.put "c" 3] =
          some fifoTrace ∧
        FIFOCache.get fifoTrace "a" = some (fifoTrace, none) ∧
        FIFOCache.get fifoTrace "b" = some (fifoTrace, some 2) ∧
        FIFOCache.get fifoTrace "c" = some (fifoTrace, some 3)) := by
  rcases Nat.eq_zero_or_pos cap with e | hcap
  · subst e
    obtain ⟨ops, hops⟩ := hr
    have hs := FIFOCache.fifo_run_zero ops hops
    subst hs
    have hnp : ∀ a, ¬ FIFOCache.present (FIFOCache.new 0 : FIFOCache T) a :=
      fun a hp => hp rfl
    refine ⟨⟨rfl, rfl, List.nodup_nil, List.Pairwise.nil, ?_, ?_⟩, ⟨none, rfl⟩, ?_, ?_, ?_,
      ?_⟩
    · intro c hc
      cases hc
    · intro a
      exact ⟨fun hp => absurd hp (hnp a), fun hm => by cases hm⟩
    · intro hp
      exact absurd hp (hnp k)
    · intro _ hlt
      exact absurd hlt (Nat.not_lt_zero _)
    · intro h1
      exact absurd h1 (by decide)
    · decide
  · obtain ⟨h, hc⟩ := FIFOCache.fifo_reachable_inv hcap hr
    have hpres : ∀ a, FIFOCache.present s a ↔ a ∈ keysOf CacheItem.key s.heap := by
      intro a
      rw [FIFOCache.fifo_present_iff h, FIFOCache.fifo_val_ne_none]
    refine ⟨⟨h.list_eq, h.ok.map_eq, h.keys_nodup, h.sorted, h.stamps_lt, hpres⟩,
      ⟨_, FIFOCache.fifo_get_eq h k⟩, ?_, ?_, ?_, ?_⟩
    · intro hp
      have hput := FIFOCache.fifo_put_present h hp v
      refine ⟨hput, ?_⟩
      obtain ⟨s1, victim, hs1, hok⟩ := FIFOCache.fifo_put_ok h k v
      rw [hput] at hs1
      cases hs1
      have hvn : victim = none := by
        cases victim with
        | none => rfl
        | some a =>
          have := (hok.victim_full (by simp)).1
          exact absurd this ((FIFOCache.fifo_present_iff h k).1 hp)
      subst hvn
      intro a
      rw [FIFOCache.fifo_lookup_eq hok.inv, FIFOCache.fifo_lookup_eq h, hok.vals]
      simp
    · intro hp hlt
      rw [← hc] at hlt
      exact FIFOCache.fifo_put_room hp hlt v
    · intro _ hp hfull
      rw [← hc] at hfull
      obtain ⟨c, rest, e, hput, hleast⟩ := FIFOCache.fifo_put_full h hp hfull v
      have hpc : FIFOCache.present s c.item.key := by
        rw [hpres, e]
        exact List.mem_cons_self _ _
      refine ⟨c, rest, _, e, hput, rfl, hleast, hpc, ?_, ?_⟩
      · intro hn
        rcases (umap_find_assign_erase s.cache_map k c.item.key c.item.key s.fresh).1 hn with
          e2 | ⟨-, e2⟩
        · rw [e2] at hpc
          exact hp hpc
        · exact e2 rfl
      · intro a ha hpa
        exact (umap_find_assign_erase s.cache_map k c.item.key a s.fresh).2 (Or.inr ⟨hpa, ha⟩)
    · decide

/-- C9 at capacity 2 for the full state after `put(a,1); put(b,2)` and the
absent key `c`: the head of the list, `a`, is removed. -/
theorem fifo_evicts_in_insertion_order_witness :
    (1 ≤ 2 ∧ FIFOCache.Reachable 2 fifoFull ∧ ¬ FIFOCache.present fifoFull "c" ∧
        FIFOCache.size fifoFull = 2) ∧
      ∃ c rest s1, fifoFull.heap = c :: rest ∧ FIFOCache.put fifoFull "c" 3 = some s1 ∧
        s1 = FIFOCache.appended (FIFOCache.dropped fifoFull c.item.key) "c" 3 ∧
        (∀ d ∈ rest, c.item.last_accessed < d.item.last_accessed) ∧
        FIFOCache.present fifoFull c.item.key ∧ ¬ FIFOCache.present s1 c.item.key ∧
        (∀ a, a ≠ c.item.key → FIFOCache.present fifoFull a → FIFOCache.present s1 a) :=
  ⟨⟨by decide, ⟨[Op.put "a" 1, Op.put "b" 2], by decide⟩,
      by unfold FIFOCache.present; decide, by decide⟩,
    (fifo_evicts_in_insertion_order 2 fifoFull
      ⟨[Op.put "a" 1, Op.put "b" 2], by decide⟩ "c" 3).2.2.2.2.1 (by decide)
      (by unfold FIFOCache.present; decide) (by decide)⟩

/-- C10: for each of the four policies, every capacity, every state reachable
from a fresh cache and every key `k`, two `get(k)` calls in a row return,
report the same found flag and the same value, and `size()` is the same
before the first call, between the two and after the second. -/
theorem get_twice_same (cap : Nat) (k : String) :
    (∀ s : FIFOCache T, FIFOCache.Reachable cap s →
        ∃ s1 s2 r, FIFOCache.get s k = some (s1, r) ∧ FIFOCache.get s1 k = some (s2, r) ∧
          FIFOCache.size s1 = FIFOCache.size s ∧ FIFOCache.size s2 = FIFOCache.size s) ∧
      (∀ s : LRUCache T, LRUCache.Reachable cap s →
        ∃ s1 s2 r, LRUCache.get s k = some (s1, r) ∧ LRUCache.get s1 k = some (s2, r) ∧
          LRUCache.size s1 = LRUCache.size s ∧ LRUCache.size s2 = LRUCache.size s) ∧
      (∀ s : LFUCache T, LFUCache.Reachable cap s →
        ∃ s1 s2 r, LFUCache.get s k = some (s1, r) ∧ LFUCache.get s1 k = some (s2, r) ∧
          LFUCache.size s1 = LFUCache.size s ∧ LFUCache.size s2 = LFUCache.size s) ∧
      (∀ s : ARCCache T, ARCCache.Reachable cap s →
        ∃ s1 s2 r, ARCCache.get s k = some (s1, r) ∧ ARCCache.get s1 k = some (s2, r) ∧
          ARCCache.size s1 = ARCCache.size s ∧ ARCCache.size s2 = ARCCache.size s) :=
  ⟨fun _ hr => FIFOCache.fifo_get_twice hr k, fun _ hr => LRUCache.lru_get_twice hr k,
    fun s _ => LFUCache.lfu_get_twice s k, fun _ hr => ARCCache.arc_get_twice hr k⟩

/-- C10 at capacity 2 for the ARC state after `put(a,1); put(b,2); get(a);
put(c,3)` and the key `c`, which the first `get` moves from `T1` to `T2`. -/
theorem get_twice_same_witness :
    ARCCache.Reachable 2 arcTrace ∧
      ∃ s1 s2 r, ARCCache.get arcTrace "c" = some (s1, r) ∧
        ARCCache.get s1 "c" = some (s2, r) ∧
        ARCCache.size s1 = ARCCache.size arcTrace ∧
        ARCCache.size s2 = ARCCache.size arcTrace :=
  ⟨⟨[Op.put "a" 1, Op.put "b" 2, Op.get "a", Op.put "c" 3], by decide⟩,
    (get_twice_same 2 "c").2.2.2 arcTrace
      ⟨[Op.put "a" 1, Op.put "b" 2, Op.get "a", Op.put "c" 3], by decide⟩⟩

/-- C11, amended: the constructors of the four caches check nothing and throw
nothing, so that they return a cache object for every capacity, 0 included. On
the cache of capacity 0 `get` misses and changes nothing; the first `put` has
no defined result for `FIFOCache`, `LRUCache` and `ARCCache`, where it reads
the front of an empty list; for `LFUCache` it returns and stores the key, so
that `size()` is 1 and exceeds the capacity. -/
theorem capacity_not_checked (cap : Nat) (k : String) (v : T) :
    (FIFOCache.construct cap = some (FIFOCache.new cap : FIFOCache T) ∧
        LRUCache.construct cap = some (LRUCache.new cap : LRUCache T) ∧
        LFUCache.construct cap = some (LFUCache.new cap : LFUCache T) ∧
        ARCCache.construct cap = some (ARCCache.new cap : ARCCache T)) ∧
      ((FIFOCache.new cap : FIFOCache T).capacity = cap ∧
        (LRUCache.new cap : LRUCache T).capacity = cap ∧
        (LFUCache.new cap : LFUCache T).capacity = cap ∧
        (ARCCache.new cap : ARCCache T).capacity = cap) ∧
      (FIFOCache.get (FIFOCache.new 0 : FIFOCache T) k = some (FIFOCache.new 0, none) ∧
        LRUCache.get (LRUCache.new 0 : LRUCache T) k = some (LRUCache.new 0, none) ∧
        LFUCache.get (LFUCache.new 0 : LFUCache T) k = some (LFUCache.new 0, none) ∧
        ARCCache.get (ARCCache.new 0 : ARCCache T) k = some (ARCCache.new 0, none)) ∧
      (FIFOCache.put (FIFOCache.new 0) k v = none ∧
        LRUCache.put (LRUCache.new 0) k v = none ∧
        ARCCache.put (ARCCache.new 0) k v = none) ∧
      ∃ s, LFUCache.put (LFUCache.new 0) k v = some s ∧ LFUCache.size s = 1 ∧
        s.capacity = 0 :=
  ⟨⟨rfl, rfl, rfl, rfl⟩, ⟨rfl, rfl, rfl, rfl⟩, ⟨rfl, rfl, rfl, rfl⟩, ⟨rfl, rfl, rfl⟩,
    ⟨_, rfl, rfl, rfl⟩⟩

/-- C11 as it is stated fails: the construction of each of the four caches
with capacity 0 does not fail; it returns a cache object, and `put` can be
called on it: with no defined result for `FIFOCache`, `LRUCache` and
`ARCCache`, and with a result of size 1 for `LFUCache`. -/
theorem zero_capacity_accepted :
    (∃ s : FIFOCache Nat, FIFOCache.construct 0 = some s ∧ FIFOCache.put s "a" 1 = none) ∧
      (∃ s : LRUCache Nat, LRUCache.construct 0 = some s ∧ LRUCache.put s "a" 1 = none) ∧
      (∃ s : ARCCache Nat, ARCCache.construct 0 = some s ∧ ARCCache.put s "a" 1 = none) ∧
      (∃ s s1 : LFUCache Nat, LFUCache.construct 0 = some s ∧
        LFUCache.put s "a" 1 = some s1 ∧ LFUCache.size s1 = 1) :=
  ⟨⟨_, rfl, by decide⟩, ⟨_, rfl, by decide⟩, ⟨_, rfl, by decide⟩, ⟨_, _, rfl, rfl, by decide⟩⟩

/-- C13: in every state reachable from a fresh `ARCCache` of capacity at least
one, no key occurs twice within `T1`, `T2`, `B1` or `B2`; a key of one list is
in no other; each index map has exactly the keys of its list and maps every
key to the node that holds it; and `size()` is `|T1| + |T2|`, the ghosts not
counted. -/
theorem arc_structural_invariant (cap : Nat) (hcap : 1 ≤ cap) (s : ARCCache T)
    (hr : ARCCache.Reachable cap s) :
    ((keysOf ARCItem.key s.t1).Nodup ∧ (keysOf ARCItem.key s.t2).Nodup ∧
        (keysOf ARCItem.key s.b1).Nodup ∧ (keysOf ARCItem.key s.b2).Nodup) ∧
      (∀ k, (k ∈ keysOf ARCItem.key s.t1 → k ∉ keysOf ARCItem.key s.t2 ∧
            k ∉ keysOf ARCItem.key s.b1 ∧ k ∉ keysOf ARCItem.key s.b2) ∧
          (k ∈ keysOf ARCItem.key s.t2 → k ∉ keysOf ARCItem.key s.b1 ∧
            k ∉ keysOf ARCItem.key s.b2) ∧
          (k ∈ keysOf ARCItem.key s.b1 → k ∉ keysOf ARCItem.key s.b2)) ∧
      (ARCCache.Mirrors s.t1 s.t1_map ∧ ARCCache.Mirrors s.t2 s.t2_map ∧
        ARCCache.Mirrors s.b1 s.b1_map ∧ ARCCache.Mirrors s.b2 s.b2_map) ∧
      ARCCache.size s = s.t1.length + s.t2.length := by
  obtain ⟨h, -, -⟩ := ARCCache.arc_reachable_inv hcap hr
  exact ⟨⟨ARCCache.arc_nodup1 h, ARCCache.arc_nodup2 h, ARCCache.arc_nodupb1 h,
      ARCCache.arc_nodupb2 h⟩, ARCCache.arc_disjoint h,
    ⟨ARCCache.arc_mirrors1 h, ARCCache.arc_mirrors2 h, ARCCache.arc_mirrorsb1 h,
      ARCCache.arc_mirrorsb2 h⟩, ARCCache.arc_size_eq h⟩

/-- C13 at capacity 2 for the state after `put(a,1); put(b,2); get(a);
put(c,3)`, which has a ghost. -/
theorem arc_structural_invariant_witness :
    (1 ≤ 2 ∧ ARCCache.Reachable 2 arcTrace) ∧
      (ARCCache.Mirrors arcTrace.t1 arcTrace.t1_map ∧
        ARCCache.Mirrors arcTrace.t2 arcTrace.t2_map ∧
        ARCCache.Mirrors arcTrace.b1 arcTrace.b1_map ∧
        ARCCache.Mirrors arcTrace.b2 arcTrace.b2_map) ∧
      ARCCache.size arcTrace = arcTrace.t1.length + arcTrace.t2.length :=
  ⟨⟨by decide, ⟨[Op.put "a" 1, Op.put "b" 2, Op.get "a", Op.put "c" 3], by decide⟩⟩,
    (arc_structural_invariant 2 (by decide) arcTrace
      ⟨[Op.put "a" 1, Op.put "b" 2, Op.get "a", Op.put "c" 3], by decide⟩).2.2⟩

/-- C14: in every state reachable from a fresh `ARCCache` of capacity at least
one by `get` and `put` calls, `|T1| + |B1|` is at most the capacity and `p`
is between 0 and the capacity. -/
theorem arc_recency_and_balance_bounds (cap : Nat) (hcap : 1 ≤ cap) (s : ARCCache T)
    (hr : ARCCache.Reachable cap s) :
    s.t1.length + s.b1.length ≤ cap ∧ 0 ≤ s.p ∧ s.p ≤ cap := by
  obtain ⟨-, hb, hc⟩ := ARCCache.arc_reachable_inv hcap hr
  rw [← hc]
  exact ⟨hb.l1_le, Nat.zero_le _, hb.p_le⟩

/-- C14 at capacity 2 for the state after `put(a,1); put(b,2); get(a);
put(c,3); put(b,9)`, where `p` is 1. -/
theorem arc_recency_and_balance_bounds_witness :
    (1 ≤ 2 ∧ ARCCache.Reachable 2 arcTraceB) ∧
      arcTraceB.t1.length + arcTraceB.b1.length ≤ 2 ∧ 0 ≤ arcTraceB.p ∧ arcTraceB.p ≤ 2 :=
  ⟨⟨by decide,
      ⟨[Op.put "a" 1, Op.put "b" 2, Op.get "a", Op.put "c" 3, Op.put "b" 9], by decide⟩⟩,
    arc_recency_and_balance_bounds 2 (by decide) arcTraceB
      ⟨[Op.put "a" 1, Op.put "b" 2, Op.get "a", Op.put "c" 3, Op.put "b" 9], by decide⟩⟩

/-- C15: in every state `s` reachable from a fresh `ARCCache` of capacity
`cap ≥ 1` and for every key `k` of `B1`, `B1` is not empty and `put(k, v)`
returns; it sets `p` to `min(cap, p + max(1, |B2| / |B1|))`, with the integer
quotient and the sizes and `p` of `s` (the increase is 1 when `B2` is empty),
runs `replace(false)` with the new `p`, which leaves a state `s1`, and ends in
the state `s2` where `k` is taken out of `B1` and a live entry for `k` with
value `v` is the last of `T2`: `k` is in neither `T1`, `B1` nor `B2`, and
`get(k)` would report `v`. -/
theorem arc_b1_ghost_hit (cap : Nat) (hcap : 1 ≤ cap) (s : ARCCache T)
    (hr : ARCCache.Reachable cap s) (k : String) (v : T)
    (hk : k ∈ keysOf ARCItem.key s.b1) :
    s.b1 ≠ [] ∧
      ∃ s1 s2,
        ARCCache.replace
          { s with p := min cap (s.p + max 1 (s.b2.length / s.b1.length)) } false = some s1 ∧
        ARCCache.put s k v = some s2 ∧
        s2.p = min cap (s.p + max 1 (s.b2.length / s.b1.length)) ∧
        (s.b2 = [] → s2.p = min cap (s.p + 1)) ∧
        s2.t1 = s1.t1 ∧
        s2.t2 = s1.t2 ++ [⟨s1.fresh, { key := k, value := v, is_ghost := false }⟩] ∧
        s2.b1 = without ARCItem.key k s1.b1 ∧ s2.b2 = s1.b2 ∧
        k ∉ keysOf ARCItem.key s2.t1 ∧ k ∉ keysOf ARCItem.key s2.b1 ∧
        k ∉ keysOf ARCItem.key s2.b2 ∧
        ARCCache.live s2 k ∧ ARCCache.lookup s2 k = some v := by
  obtain ⟨h, hb, hc⟩ := ARCCache.arc_reachable_inv hcap hr
  obtain ⟨s1, hrep, hput, k0, hok⟩ := ARCCache.arc_put_b1 h hb hk v
  have hpe : min (s.p + max (s.b2.length / s.b1.length) 1) s.capacity =
      min cap (s.p + max 1 (s.b2.length / s.b1.length)) := by
    rw [hc, Nat.min_comm, Nat.max_comm]
  rw [hpe] at hrep
  have hp1 : s1.p = min cap (s.p + max 1 (s.b2.length / s.b1.length)) :=
    (ARCCache.arc_replace_frame (ARCCache.arc_wf_setP h _) hrep).1
  have hmem : k ∈ keysOf ARCItem.key
      (ARCCache.pushT2 (ARCCache.dropB1 s1 k) k
        { key := k, value := v, is_ghost := false }).t2 := by
    show k ∈ keysOf ARCItem.key (s1.t2 ++ [_])
    simp
  obtain ⟨d1, d2, -⟩ := ARCCache.arc_disjoint hok.wf k
  refine ⟨?_, s1, _, hrep, hput, hp1, ?_, rfl, rfl, rfl, rfl, fun hm => (d1 hm).1 hmem,
    (d2 hmem).1, (d2 hmem).2, (ARCCache.arc_live_mem hok.wf k).2 (Or.inr hmem), ?_⟩
  · intro e
    rw [e] at hk
    cases hk
  · intro e
    show s1.p = _
    rw [hp1, e]
    simp
  · rw [ARCCache.arc_lookup_eq hok.wf hok.bounds, hok.live, if_pos rfl]

/-- C15 at capacity 2 for the state after `put(a,1); put(b,2); get(a);
put(c,3)`, where `B1 = [b]`, `B2 = []` and `p = 0`: `put(b,9)` sets `p` to
1. -/
theorem arc_b1_ghost_hit_witness :
    (1 ≤ 2 ∧ ARCCache.Reachable 2 arcTrace ∧ "b" ∈ keysOf ARCItem.key arcTrace.b1) ∧
      ARCCache.put arcTrace "b" 9 = some arcTraceB ∧ arcTraceB.p = 1 ∧
      arcTrace.b1 ≠ [] :=
  ⟨⟨by decide, ⟨[Op.put "a" 1, Op.put "b" 2, Op.get "a", Op.put "c" 3], by decide⟩,
      by decide⟩,
    by decide, by decide,
    (arc_b1_ghost_hit 2 (by decide) arcTrace
      ⟨[Op.put "a" 1, Op.put "b" 2, Op.get "a", Op.put "c" 3], by decide⟩ "b" 9
      (by decide)).1⟩

/-- C16: in every state `s` reachable from a fresh `ARCCache` of capacity
`cap ≥ 1` and for every key `k` of `B2`, `B2` is not empty and `put(k, v)`
returns; it sets `p` to `max(0, p - max(1, |B1| / |B2|))`, with the integer
quotient and the sizes and `p` of `s` (the decrease is 1 when `B1` is empty,
and `p` stays at 0 when the decrease exceeds it), runs `replace(true)` with
the new `p`, which leaves a state `s1`, and ends in the state `s2` where `k`
is taken out of `B2` and a live entry for `k` with value `v` is the last of
`T2`: `k` is in neither `T1`, `B1` nor `B2`, and `get(k)` would report `v`. -/
theorem arc_b2_ghost_hit (cap : Nat) (hcap : 1 ≤ cap) (s : ARCCache T)
    (hr : ARCCache.Reachable cap s) (k : String) (v : T)
    (hk : k ∈ keysOf ARCItem.key s.b2) :
    s.b2 ≠ [] ∧
      ∃ s1 s2,
        ARCCache.replace
          { s with p := s.p - max 1 (s.b1.length / s.b2.length) } true = some s1 ∧
        ARCCache.put s k v = some s2 ∧
        s2.p = s.p - max 1 (s.b1.length / s.b2.length) ∧
        (s2.p : Int) = max 0 ((s.p : Int) - max 1 ((s.b1.length : Int) / s.b2.length)) ∧
        (s.b1 = [] → s2.p = s.p - 1) ∧
        s2.t1 = s1.t1 ∧
        s2.t2 = s1.t2 ++ [⟨s1.fresh, { key := k, value := v, is_ghost := false }⟩] ∧
        s2.b1 = s1.b1 ∧ s2.b2 = without ARCItem.key k s1.b2 ∧
        k ∉ keysOf ARCItem.key s2.t1 ∧ k ∉ keysOf ARCItem.key s2.b1 ∧
        k ∉ keysOf ARCItem.key s2.b2 ∧
        ARCCache.live s2 k ∧ ARCCache.lookup s2 k = some v := by
  obtain ⟨h, hb, hc⟩ := ARCCache.arc_reachable_inv hcap hr
  obtain ⟨s1, hrep, hput, k0, hok⟩ := ARCCache.arc_put_b2 h hb hk v
  rw [Nat.max_comm] at hrep
  have hp1 : s1.p = s.p - max 1 (s.b1.length / s.b2.length) :=
    (ARCCache.arc_replace_frame (ARCCache.arc_wf_setP h _) hrep).1
  have hmem : k ∈ keysOf ARCItem.key
      (ARCCache.pushT2 (ARCCache.dropB2 s1 k) k
        { key := k, value := v, is_ghost := false }).t2 := by
    show k ∈ keysOf ARCItem.key (s1.t2 ++ [_])
    simp
  obtain ⟨d1, d2, d3⟩ := ARCCache.arc_disjoint hok.wf k
  refine ⟨?_, s1, _, hrep, hput, hp1, ?_, ?_, rfl, rfl, rfl, rfl, fun hm => (d1 hm).1 hmem,
    (d2 hmem).1, (d2 hmem).2, (ARCCache.arc_live_mem hok.wf k).2 (Or.inr hmem), ?_⟩
  · intro e
    rw [e] at hk
    cases hk
  · show ((s1.p : Nat) : Int) = _
    rw [hp1]
    have hq : ((s.b1.length / s.b2.length : Nat) : Int) =
        (s.b1.length : Int) / (s.b2.length : Int) := Int.natCast_ediv _ _
    rw [← hq]
    omega
  · intro e
    show s1.p = _
    rw [hp1, e]
    simp
  · rw [ARCCache.arc_lookup_eq hok.wf hok.bounds, hok.live, if_pos rfl]

/-- C16 at capacity 2 for the state after `put(a,1); put(b,2); get(a);
put(c,3); put(b,9)`, where `B1 = []`, `B2 = [a]` and `p = 1`. -/
theorem arc_b2_ghost_hit_witness :
    (1 ≤ 2 ∧ ARCCache.Reachable 2 arcTraceB ∧ "a" ∈ keysOf ARCItem.key arcTraceB.b2) ∧
      arcTraceB.b2 ≠ [] ∧
      ∃ s2, ARCCache.put arcTraceB "a" 7 = some s2 ∧ s2.p = 0 :=
  ⟨⟨by decide,
      ⟨[Op.put "a" 1, Op.put "b" 2, Op.get "a", Op.put "c" 3, Op.put "b" 9], by decide⟩,
      by decide⟩,
    (arc_b2_ghost_hit 2 (by decide) arcTraceB
      ⟨[Op.put "a" 1, Op.put "b" 2, Op.get "a", Op.put "c" 3, Op.put "b" 9], by decide⟩ "a" 7
      (by decide)).1,
    _, rfl, by decide⟩

/-- C17: in every reachable state `s` of an `ARCCache` and for every key `k`
that is live, in `T1` or `T2` with the entry `x`, `get(k)` reports the value of
`x` and `put(k, v)` returns, and both end in the state where the entry of `k`
is taken out of `T1` and `T2`, the other entries keeping their order and their
values, and is appended to `T2`, unchanged by `get` and with the value `v` by
`put`; `B1`, `B2`, their maps, `p` and `size()` are as before. And no `get` or
`put`, on any key, takes a key of `T2` to `T1`. -/
theorem arc_live_access_promotes (cap : Nat) (s : ARCCache T)
    (hr : ARCCache.Reachable cap s) (k : String) (v : T) :
    (ARCCache.live s k → ∃ x s1 s2, ARCCache.liveItem s k = some x ∧ x.key = k ∧
        ARCCache.get s k = some (s1, some x.value) ∧ ARCCache.put s k v = some s2 ∧
        (s1.t1 = without ARCItem.key k s.t1 ∧
          s1.t2 = without ARCItem.key k s.t2 ++ [⟨s.fresh, x⟩] ∧
          s1.b1 = s.b1 ∧ s1.b2 = s.b2 ∧ s1.b1_map = s.b1_map ∧ s1.b2_map = s.b2_map ∧
          s1.p = s.p ∧ ARCCache.size s1 = ARCCache.size s ∧
          ARCCache.lookup s1 k = some x.value) ∧
        (s2.t1 = without ARCItem.key k s.t1 ∧
          s2.t2 = without ARCItem.key k s.t2 ++ [⟨s.fresh, { x with value := v }⟩] ∧
          s2.b1 = s.b1 ∧ s2.b2 = s.b2 ∧ s2.b1_map = s.b1_map ∧ s2.b2_map = s.b2_map ∧
          s2.p = s.p ∧ ARCCache.size s2 = ARCCache.size s ∧
          ARCCache.lookup s2 k = some v) ∧
        k ∉ keysOf ARCItem.key (without ARCItem.key k s.t1) ∧
        k ∉ keysOf ARCItem.key (without ARCItem.key k s.t2)) ∧
      (∀ op s1, ARCCache.step s op = some s1 →
        ∀ a, a ∈ keysOf ARCItem.key s.t2 → a ∉ keysOf ARCItem.key s1.t1) := by
  refine ⟨?_, fun op s1 hs a ha => ARCCache.arc_t2_not_to_t1 hr op hs a ha⟩
  intro hl
  rcases Nat.eq_zero_or_pos cap with e | hcap
  · subst e
    obtain ⟨ops, hops⟩ := hr
    rw [ARCCache.arc_run_zero ops hops] at hl
    rcases hl with hl | hl <;> exact absurd rfl hl
  · obtain ⟨h, hb, -⟩ := ARCCache.arc_reachable_inv hcap hr
    obtain ⟨x, hx, hkey, -, hg, hp, z1, z2, l1, l2⟩ := ARCCache.arc_live_access h hb hl v
    have hnot : ∀ l : List (Node (ARCItem T)),
        k ∉ keysOf ARCItem.key (without ARCItem.key k l) := by
      intro l
      rw [← List.count_eq_zero, count_keysOf_without, if_pos rfl]
    exact ⟨x, _, _, hx, hkey, hg, hp, ⟨rfl, rfl, rfl, rfl, rfl, rfl, rfl, z1, l1⟩,
      ⟨rfl, rfl, rfl, rfl, rfl, rfl, rfl, z2, l2⟩, hnot _, hnot _⟩

/-- C17 at capacity 2 for the state after `put(a,1); put(b,2); get(a);
put(c,3)` and the key `c` of `T1`: `get(c)` takes it to the end of `T2`. -/
theorem arc_live_access_promotes_witness :
    (ARCCache.Reachable 2 arcTrace ∧ ARCCache.live arcTrace "c") ∧
      ∃ x s1 s2, ARCCache.liveItem arcTrace "c" = some x ∧ x.key = "c" ∧
        ARCCache.get arcTrace "c" = some (s1, some x.value) ∧
        ARCCache.put arcTrace "c" 5 = some s2 ∧
        (s1.t1 = without ARCItem.key "c" arcTrace.t1 ∧
          s1.t2 = without ARCItem.key "c" arcTrace.t2 ++ [⟨arcTrace.fresh, x⟩] ∧
          s1.b1 = arcTrace.b1 ∧ s1.b2 = arcTrace.b2 ∧ s1.b1_map = arcTrace.b1_map ∧
          s1.b2_map = arcTrace.b2_map ∧ s1.p = arcTrace.p ∧
          ARCCache.size s1 = ARCCache.size arcTrace ∧
          ARCCache.lookup s1 "c" = some x.value) ∧
        (s2.t1 = without ARCItem.key "c" arcTrace.t1 ∧
          s2.t2 = without ARCItem.key "c" arcTrace.t2 ++
            [⟨arcTrace.fresh, { x with value := 5 }⟩] ∧
          s2.b1 = arcTrace.b1 ∧ s2.b2 = arcTrace.b2 ∧ s2.b1_map = arcTrace.b1_map ∧
          s2.b2_map = arcTrace.b2_map ∧ s2.p = arcTrace.p ∧
          ARCCache.size s2 = ARCCache.size arcTrace ∧
          ARCCache.lookup s2 "c" = some 5) ∧
        "c" ∉ keysOf ARCItem.key (without ARCItem.key "c" arcTrace.t1) ∧
        "c" ∉ keysOf ARCItem.key (without ARCItem.key "c" arcTrace.t2) :=
  ⟨⟨⟨[Op.put "a" 1, Op.put "b" 2, Op.get "a", Op.put "c" 3], by decide⟩,
      Or.inl (by decide)⟩,
    (arc_live_access_promotes 2 arcTrace
      ⟨[Op.put "a" 1, Op.put "b" 2, Op.get "a", Op.put "c" 3], by decide⟩ "c" 5).1
      (Or.inl (by decide))⟩

/-- C18: in every state `s` reachable from a fresh `ARCCache` of capacity
`cap ≥ 1` and for every key `k` that is in none of `T1`, `T2`, `B1`, `B2`,
`put(k, v)` returns; room is made in a state `s2`, whose `T1` is what is left
of the `T1` of `s`, and the call ends in the state `s3` that has a live entry
for `k` with value `v` appended to the `T1` of `s2`: `k` is in no other list,
`get(k)` would report `v`, and `p` is the one of `s`. When `|T1| = cap` in
`s`, the head of `T1` is removed and is then in none of the four lists, no
ghost is made of it, and `T2`, `B1` and `B2` are those of `s`. -/
theorem arc_put_unseen_key (cap : Nat) (hcap : 1 ≤ cap) (s : ARCCache T)
    (hr : ARCCache.Reachable cap s) (k : String) (v : T)
    (h1 : k ∉ keysOf ARCItem.key s.t1) (h2 : k ∉ keysOf ARCItem.key s.t2)
    (h3 : k ∉ keysOf ARCItem.key s.b1) (h4 : k ∉ keysOf ARCItem.key s.b2) :
    ∃ s2 s3 : ARCCache T, ARCCache.put s k v = some s3 ∧ s2.t1 <:+ s.t1 ∧
      s3.t1 = s2.t1 ++ [⟨s2.fresh, { key := k, value := v, is_ghost := false }⟩] ∧
      s3.t2 = s2.t2 ∧ s3.b1 = s2.b1 ∧ s3.b2 = s2.b2 ∧ s3.p = s.p ∧
      k ∉ keysOf ARCItem.key s2.t1 ∧ k ∉ keysOf ARCItem.key s3.t2 ∧
      k ∉ keysOf ARCItem.key s3.b1 ∧ k ∉ keysOf ARCItem.key s3.b2 ∧
      ARCCache.live s3 k ∧ ARCCache.lookup s3 k = some v ∧
      (s.t1.length = cap → ∃ n rest, s.t1 = n :: rest ∧
        s3.t1 = rest ++ [⟨s.fresh, { key := k, value := v, is_ghost := false }⟩] ∧
        s3.t2 = s.t2 ∧ s3.b1 = s.b1 ∧ s3.b2 = s.b2 ∧
        n.item.key ∉ keysOf ARCItem.key s3.t1 ∧ n.item.key ∉ keysOf ARCItem.key s3.t2 ∧
        n.item.key ∉ keysOf ARCItem.key s3.b1 ∧ n.item.key ∉ keysOf ARCItem.key s3.b2) := by
  obtain ⟨h, hb, hc⟩ := ARCCache.arc_reachable_inv hcap hr
  have hocc : ARCCache.occ s k = 0 := by
    rw [← List.count_eq_zero] at h1 h2 h3 h4
    unfold ARCCache.occ
    omega
  obtain ⟨s2, hput, hp2, hsuf, -, hfull⟩ := ARCCache.arc_put_unseen h hb hocc v
  obtain ⟨s3, victim, hput3, hok⟩ := ARCCache.arc_put_ok h hb k v
  rw [hput] at hput3
  have hs3 := Option.some.inj hput3
  subst hs3
  have hmem : k ∈ keysOf ARCItem.key
      (ARCCache.pushT1 s2 k { key := k, value := v, is_ghost := false }).t1 := by
    show k ∈ keysOf ARCItem.key (s2.t1 ++ [_])
    simp
  obtain ⟨d1, -, -⟩ := ARCCache.arc_disjoint hok.wf k
  have hnd := ARCCache.arc_nodup1 hok.wf
  have hnd2 : (keysOf ARCItem.key s2.t1 ++ [k]).Nodup := by
    have e : keysOf ARCItem.key
        (ARCCache.pushT1 s2 k { key := k, value := v, is_ghost := false }).t1 =
        keysOf ARCItem.key s2.t1 ++ [k] := by
      show keysOf ARCItem.key (s2.t1 ++ [_]) = _
      simp
    rw [e] at hnd
    exact hnd
  have hk2 : k ∉ keysOf ARCItem.key s2.t1 := by
    intro hm
    exact (List.nodup_append.1 hnd2).2.2 hm (List.mem_singleton_self k)
  refine ⟨s2, _, hput, hsuf, rfl, rfl, rfl, rfl, hp2, hk2, (d1 hmem).1, (d1 hmem).2.1,
    (d1 hmem).2.2, (ARCCache.arc_live_mem hok.wf k).2 (Or.inl hmem), ?_, ?_⟩
  · rw [ARCCache.arc_lookup_eq hok.wf hok.bounds, hok.live, if_pos rfl]
  · intro hl
    rw [← hc] at hl
    obtain ⟨n, rest, e, hs2, hrest⟩ := hfull hl
    subst hs2
    have hn1 : n.item.key ∈ keysOf ARCItem.key s.t1 := by
      rw [e]
      simp
    obtain ⟨e1, -, -⟩ := ARCCache.arc_disjoint h n.item.key
    have hndt := ARCCache.arc_nodup1 h
    rw [e, keysOf_cons, List.nodup_cons] at hndt
    refine ⟨n, rest, e, ?_, rfl, rfl, rfl, ?_, (e1 hn1).1, (e1 hn1).2.1, (e1 hn1).2.2⟩
    · show (ARCCache.dropT1 s n.item.key).t1 ++ [_] = _
      rw [hrest]
      rfl
    · show n.item.key ∉ keysOf ARCItem.key ((ARCCache.dropT1 s n.item.key).t1 ++ [_])
      rw [hrest, keysOf_append, List.mem_append, not_or]
      refine ⟨hndt.1, ?_⟩
      simp only [keysOf_cons, keysOf_nil, List.mem_singleton]
      intro e2
      exact h1 (e2 ▸ hn1)

/-- C18 at capacity 2 for the state after `put(a,1); put(b,2); get(a);
put(c,3)` and the unseen key `d`. -/
theorem arc_put_unseen_key_witness :
    (1 ≤ 2 ∧ ARCCache.Reachable 2 arcTrace ∧ "d" ∉ keysOf ARCItem.key arcTrace.t1 ∧
        "d" ∉ keysOf ARCItem.key arcTrace.t2 ∧ "d" ∉ keysOf ARCItem.key arcTrace.b1 ∧
        "d" ∉ keysOf ARCItem.key arcTrace.b2) ∧
      ∃ s3, ARCCache.put arcTrace "d" 4 = some s3 ∧ s3.p = arcTrace.p ∧
        ARCCache.lookup s3 "d" = some 4 :=
  ⟨⟨by decide, ⟨[Op.put "a" 1, Op.put "b" 2, Op.get "a", Op.put "c" 3], by decide⟩,
      by decide, by decide, by decide, by decide⟩,
    (arc_put_unseen_key 2 (by decide) arcTrace
      ⟨[Op.put "a" 1, Op.put "b" 2, Op.get "a", Op.put "c" 3], by decide⟩ "d" 4
      (by decide) (by decide) (by decide) (by decide)).elim fun _ h2 =>
        h2.elim fun s3 h3 => ⟨s3, h3.1, h3.2.2.2.2.2.2.1, h3.2.2.2.2.2.2.2.2.2.2.2.2.1⟩⟩

/-- C19: in every reachable state `s` of an `ARCCache` and for every flag
`preferB2`, `replace(preferB2)` returns; when `T1` is not empty and `|T1| > p`,
or `preferB2` holds and `|T1| = p`, it removes the head of `T1` and appends it,
flagged as a ghost, to `B1`; otherwise, when `T2` is not empty, it removes the
head of `T2` and appends it, flagged as a ghost, to `B2`; otherwise it changes
nothing. In all cases `p` and `|T1| + |T2| + |B1| + |B2|` are unchanged. -/
theorem arc_replace_moves_one (cap : Nat) (s : ARCCache T) (hr : ARCCache.Reachable cap s)
    (preferB2 : Bool) :
    ∃ s1, ARCCache.replace s preferB2 = some s1 ∧ s1.p = s.p ∧ s1.capacity = s.capacity ∧
      s1.t1.length + s1.t2.length + s1.b1.length + s1.b2.length =
        s.t1.length + s.t2.length + s.b1.length + s.b2.length ∧
      (ARCCache.fromT1 s preferB2 → ∃ n rest, s.t1 = n :: rest ∧ s1.t1 = rest ∧
        s1.t2 = s.t2 ∧ s1.b1 = s.b1 ++ [⟨s.fresh, { n.item with is_ghost := true }⟩] ∧
        s1.b2 = s.b2) ∧
      (¬ ARCCache.fromT1 s preferB2 → s.t2 ≠ [] → ∃ n rest, s.t2 = n :: rest ∧
        s1.t1 = s.t1 ∧ s1.t2 = rest ∧ s1.b1 = s.b1 ∧
        s1.b2 = s.b2 ++ [⟨s.fresh, { n.item with is_ghost := true }⟩]) ∧
      (¬ ARCCache.fromT1 s preferB2 → s.t2 = [] → s1 = s) :=
  ARCCache.arc_replace_spec (ARCCache.arc_reachable_wf hr) preferB2

/-- C19 at capacity 2 for the state after `put(a,1); put(b,2); get(a);
put(c,3)`, where `T1 = [c]` and `p = 0`: `replace(false)` moves `c` to `B1`. -/
theorem arc_replace_moves_one_witness :
    (ARCCache.Reachable 2 arcTrace ∧ ARCCache.fromT1 arcTrace false) ∧
      ∃ s1, ARCCache.replace arcTrace false = some s1 ∧ s1.p = arcTrace.p ∧
        s1.capacity = arcTrace.capacity ∧
        s1.t1.length + s1.t2.length + s1.b1.length + s1.b2.length =
          arcTrace.t1.length + arcTrace.t2.length + arcTrace.b1.length +
            arcTrace.b2.length ∧
        (ARCCache.fromT1 arcTrace false → ∃ n rest, arcTrace.t1 = n :: rest ∧ s1.t1 = rest ∧
          s1.t2 = arcTrace.t2 ∧
          s1.b1 = arcTrace.b1 ++ [⟨arcTrace.fresh, { n.item with is_ghost := true }⟩] ∧
          s1.b2 = arcTrace.b2) ∧
        (¬ ARCCache.fromT1 arcTrace false → arcTrace.t2 ≠ [] → ∃ n rest,
          arcTrace.t2 = n :: rest ∧ s1.t1 = arcTrace.t1 ∧ s1.t2 = rest ∧
          s1.b1 = arcTrace.b1 ∧
          s1.b2 = arcTrace.b2 ++ [⟨arcTrace.fresh, { n.item with is_ghost := true }⟩]) ∧
        (¬ ARCCache.fromT1 arcTrace false → arcTrace.t2 = [] → s1 = arcTrace) :=
  ⟨⟨⟨[Op.put "a" 1, Op.put "b" 2, Op.get "a", Op.put "c" 3], by decide⟩,
      by unfold ARCCache.fromT1; decide⟩,
    arc_replace_moves_one 2 arcTrace
      ⟨[Op.put "a" 1, Op.put "b" 2, Op.get "a", Op.put "c" 3], by decide⟩ false⟩

/-- C20: on every state `s` of capacity at least one, whatever its lists,
`removeGhostEntries()` returns, with the fuel the model gives it and with any
more; a pass of the loop, taken while `|B1| + |B2| ≥ capacity`, drops the head
of `B1` when `|B1| > |B2|`, or `|B1| = |B2|` and `B2` is not empty, and drops
the head of `B2` otherwise; on exit `|B1| + |B2| < capacity`, what is left of
`B1` and `B2` are suffixes of the lists at entry, the state is the one at
entry when `|B1| + |B2| < capacity` held there, and `T1`, `T2` and `p` are
unchanged. -/
theorem arc_trim_ghosts_terminates (s : ARCCache T) (hcap : 1 ≤ s.capacity) :
    ∃ s1, ARCCache.removeGhostEntries s = some s1 ∧
      (∀ fuel, s.b1.length + s.b2.length < fuel →
        ARCCache.removeGhostLoop fuel s = some s1) ∧
      s1.b1.length + s1.b2.length < s.capacity ∧
      s1.b1.length + s1.b2.length = min (s.b1.length + s.b2.length) (s.capacity - 1) ∧
      s1.b1 <:+ s.b1 ∧ s1.b2 <:+ s.b2 ∧
      (s.b1.length + s.b2.length < s.capacity → s1 = s) ∧
      (s1.t1 = s.t1 ∧ s1.t2 = s.t2 ∧ s1.t1_map = s.t1_map ∧ s1.t2_map = s.t2_map ∧
        s1.p = s.p ∧ s1.capacity = s.capacity) ∧
      (s.capacity ≤ s.b1.length + s.b2.length → ARCCache.fromB1 s →
        ∃ n rest, s.b1 = n :: rest ∧ ARCCache.removeGhostEntries s =
          ARCCache.removeGhostEntries
            { s with b1 := rest, b1_map := UMap.erase s.b1_map n.item.key }) ∧
      (s.capacity ≤ s.b1.length + s.b2.length → ¬ ARCCache.fromB1 s →
        ∃ n rest, s.b2 = n :: rest ∧ ARCCache.removeGhostEntries s =
          ARCCache.removeGhostEntries
            { s with b2 := rest, b2_map := UMap.erase s.b2_map n.item.key }) := by
  obtain ⟨s1, hs1, a1, a2, a3, a4, a5, a6, -, a8, a9, a10, a11⟩ :=
    ARCCache.arc_trim_loop (s.b1.length + s.b2.length + 1) s hcap (Nat.lt_succ_self _)
  refine ⟨s1, hs1, ?_, by omega, a10, a8, a9, a11, ⟨a1, a2, a3, a4, a5, a6⟩, ?_, ?_⟩
  · intro fuel hf
    obtain ⟨m, hm⟩ := Nat.exists_eq_add_of_le (Nat.succ_le_of_lt hf)
    rw [hm]
    exact ARCCache.arc_trim_fuel hs1 m
  · intro hc hB
    obtain ⟨n, rest, e, hstep⟩ := ARCCache.arc_trim_b1 hc hB (s.b1.length + s.b2.length)
    refine ⟨n, rest, e, ?_⟩
    unfold ARCCache.removeGhostEntries
    rw [hstep]
    show _ = ARCCache.removeGhostLoop (rest.length + s.b2.length + 1) _
    rw [e]
    simp only [List.length_cons]
    rw [Nat.add_right_comm]
  · intro hc hB
    obtain ⟨n, rest, e, hstep⟩ := ARCCache.arc_trim_b2 hcap hc hB (s.b1.length + s.b2.length)
    refine ⟨n, rest, e, ?_⟩
    unfold ARCCache.removeGhostEntries
    rw [hstep]
    show _ = ARCCache.removeGhostLoop (s.b1.length + rest.length + 1) _
    rw [e]
    simp only [List.length_cons]
    rfl

/-- C20 on a state of capacity 2 with `B1 = [x, y]` and `B2 = [z]`: the loop
drops `x` and `y` and leaves `B1 = []`, `B2 = [z]`. -/
theorem arc_trim_ghosts_terminates_witness :
    1 ≤ arcGhosts.capacity ∧
      ∃ s1, ARCCache.removeGhostEntries arcGhosts = some s1 ∧ s1.b1 = [] ∧
        s1.b2 = arcGhosts.b2 ∧ s1.b1.length + s1.b2.length < arcGhosts.capacity :=
  ⟨by decide,
    (arc_trim_ghosts_terminates arcGhosts (by decide)).elim fun s1 h =>
      ⟨s1, h.1, by
        have e : ARCCache.removeGhostEntries arcGhosts =
            some { arcGhosts with b1 := [], b1_map := [] } := by decide
        have := h.1
        rw [e] at this
        cases this
        exact ⟨rfl, rfl, by decide⟩⟩⟩

/-- C21: in every state reachable from a fresh `ARCCache` of capacity at least
one by `get` and `put` calls, `|B1| + |B2|` is at most the capacity, and the
four lists together hold at most `2 * capacity` entries. -/
theorem arc_total_size_bound (cap : Nat) (hcap : 1 ≤ cap) (s : ARCCache T)
    (hr : ARCCache.Reachable cap s) :
    s.b1.length + s.b2.length ≤ cap ∧
      s.t1.length + s.t2.length + s.b1.length + s.b2.length ≤ 2 * cap := by
  obtain ⟨-, hb, hc⟩ := ARCCache.arc_reachable_inv hcap hr
  have h1 := hb.ghost_le
  have h2 := hb.live_le
  rw [hc] at h1 h2
  exact ⟨h1, by omega⟩

/-- C21 at capacity 2 for the state after `put(a,1); put(b,2); get(a);
put(c,3)`, which holds two live entries and one ghost. -/
theorem arc_total_size_bound_witness :
    (1 ≤ 2 ∧ ARCCache.Reachable 2 arcTrace) ∧
      arcTrace.b1.length + arcTrace.b2.length ≤ 2 ∧
      arcTrace.t1.length + arcTrace.t2.length + arcTrace.b1.length + arcTrace.b2.length ≤
        2 * 2 :=
  ⟨⟨by decide, ⟨[Op.put "a" 1, Op.put "b" 2, Op.get "a", Op.put "c" 3], by decide⟩⟩,
    arc_total_size_bound 2 (by decide) arcTrace
      ⟨[Op.put "a" 1, Op.put "b" 2, Op.get "a", Op.put "c" 3], by decide⟩⟩

/-- C22: in every state reachable from a fresh `ARCCache`, whatever the
capacity, every entry of `T1` and `T2` has `is_ghost = false` and every entry
of `B1` and `B2` has `is_ghost = true`; so the entry that `get` or `put` finds
through `t1_map` or `t2_map` is never flagged, and `put` on a key of `t1_map`,
or of `t2_map` and not of `t1_map`, takes the branch that sets the value and
moves the entry to the end of `T2`, with `p` as it was: the branches for a
flagged entry, which change `p` and erase from `T1` or `T2`, are not run. -/
theorem arc_no_ghost_in_live_list (cap : Nat) (s : ARCCache T)
    (hr : ARCCache.Reachable cap s) :
    ((∀ n ∈ s.t1, n.item.is_ghost = false) ∧ (∀ n ∈ s.t2, n.item.is_ghost = false) ∧
        (∀ n ∈ s.b1, n.item.is_ghost = true) ∧ (∀ n ∈ s.b2, n.item.is_ghost = true)) ∧
      (∀ k it item, UMap.find s.t1_map k = some it → StdList.deref s.t1 it = some item →
        item.is_ghost = false) ∧
      (∀ k it item, UMap.find s.t2_map k = some it → StdList.deref s.t2 it = some item →
        item.is_ghost = false) ∧
      (∀ k v, UMap.find s.t1_map k ≠ none →
        ∃ (x : ARCItem T) (s1 : ARCCache T), ARCCache.put s k v = some s1 ∧
        s1 = ARCCache.pushT2 (ARCCache.dropT1 s k) k { x with value := v } ∧ s1.p = s.p) ∧
      (∀ k v, UMap.find s.t1_map k = none → UMap.find s.t2_map k ≠ none →
        ∃ (x : ARCItem T) (s1 : ARCCache T), ARCCache.put s k v = some s1 ∧
          s1 = ARCCache.pushT2 (ARCCache.dropT2 s k) k { x with value := v } ∧
          s1.p = s.p) := by
  have h := ARCCache.arc_reachable_wf hr
  refine ⟨⟨h.live1, h.live2, h.ghost1, h.ghost2⟩, ?_, ?_, ?_, ?_⟩
  · intro k it item hf hd
    obtain ⟨x, hx, hdx, -⟩ := ARCCache.arc_find1 h hf
    rw [hdx] at hd
    cases hd
    exact ARCCache.arc_live_of_item h.live1 hx
  · intro k it item hf hd
    obtain ⟨x, hx, hdx, -⟩ := ARCCache.arc_find2 h hf
    rw [hdx] at hd
    cases hd
    exact ARCCache.arc_live_of_item h.live2 hx
  · intro k v hf
    cases hfi : UMap.find s.t1_map k with
    | none => exact absurd hfi hf
    | some it =>
      obtain ⟨x, hx, -, -⟩ := ARCCache.arc_find1 h hfi
      exact ⟨x, _, ARCCache.arc_put_hit1 h hx v, rfl, rfl⟩
  · intro k v hf1 hf
    cases hfi : UMap.find s.t2_map k with
    | none => exact absurd hfi hf
    | some it =>
      obtain ⟨x, hx, -, -⟩ := ARCCache.arc_find2 h hfi
      have h1 : itemOf ARCItem.key s.t1 k = none := by
        rw [itemOf_eq_none, ← find_entriesOf_none, ← h.ok1.map_eq]
        exact hf1
      exact ⟨x, _, ARCCache.arc_put_hit2 h h1 hx v, rfl, rfl⟩

/-- C22 at capacity 2 for the state after `put(a,1); put(b,2); get(a);
put(c,3)`, where `c` is in `T1`, `a` in `T2` and `b` in `B1`. -/
theorem arc_no_ghost_in_live_list_witness :
    ARCCache.Reachable 2 arcTrace ∧
      (∀ n ∈ arcTrace.t1, n.item.is_ghost = false) ∧
      (∀ n ∈ arcTrace.t2, n.item.is_ghost = false) ∧
      (∀ n ∈ arcTrace.b1, n.item.is_ghost = true) ∧
      (∀ n ∈ arcTrace.b2, n.item.is_ghost = true) :=
  ⟨⟨[Op.put "a" 1, Op.put "b" 2, Op.get "a", Op.put "c" 3], by decide⟩,
    (arc_no_ghost_in_live_list 2 arcTrace
      ⟨[Op.put "a" 1, Op.put "b" 2, Op.get "a", Op.put "c" 3], by decide⟩).1⟩

/-- C23: in every state reachable from a fresh `ARCCache` of capacity at least
one and for every key `k`, `put(k, v)` returns; when `k` is found in `b1_map`
the list `B1` is not empty, so that the quotient `|B2| / |B1|` is defined, the
step is `max(|B2| / |B1|, 1)`, and it is 1 when `B2` is empty; when `k` is
found in `b2_map` the list `B2` is not empty, so that the quotient
`|B1| / |B2|` is defined, the step is `max(|B1| / |B2|, 1)`, and it is 1 when
`B1` is empty. -/
theorem arc_delta_never_divides_by_zero (cap : Nat) (hcap : 1 ≤ cap) (s : ARCCache T)
    (hr : ARCCache.Reachable cap s) (k : String) :
    (∀ v, ∃ s1, ARCCache.put s k v = some s1) ∧
      (UMap.find s.b1_map k ≠ none → s.b1 ≠ [] ∧
        ARCCache.udiv s.b2.length s.b1.length = some (s.b2.length / s.b1.length) ∧
        (if s.b2.length > 0 then
            (ARCCache.udiv s.b2.length s.b1.length).map (fun q => max q 1)
          else some 1) = some (max (s.b2.length / s.b1.length) 1) ∧
        (s.b2 = [] → max (s.b2.length / s.b1.length) 1 = 1 ∧
          (if s.b2.length > 0 then
              (ARCCache.udiv s.b2.length s.b1.length).map (fun q => max q 1)
            else some 1) = some 1)) ∧
      (UMap.find s.b2_map k ≠ none → s.b2 ≠ [] ∧
        ARCCache.udiv s.b1.length s.b2.length = some (s.b1.length / s.b2.length) ∧
        (if s.b1.length > 0 then
            (ARCCache.udiv s.b1.length s.b2.length).map (fun q => max q 1)
          else some 1) = some (max (s.b1.length / s.b2.length) 1) ∧
        (s.b1 = [] → max (s.b1.length / s.b2.length) 1 = 1 ∧
          (if s.b1.length > 0 then
              (ARCCache.udiv s.b1.length s.b2.length).map (fun q => max q 1)
            else some 1) = some 1)) := by
  obtain ⟨h, hb, -⟩ := ARCCache.arc_reachable_inv hcap hr
  have hne : ∀ (l : List (Node (ARCItem T))) (m : UMap Nat), m = entriesOf ARCItem.key l →
      UMap.find m k ≠ none → l ≠ [] ∧ l.length ≠ 0 := by
    intro l m hm hf
    rw [hm, Ne, find_entriesOf_none, not_not] at hf
    have hl : l ≠ [] := by
      intro e
      rw [e] at hf
      cases hf
    exact ⟨hl, fun e => hl (List.length_eq_zero.1 e)⟩
  refine ⟨?_, ?_, ?_⟩
  · intro v
    obtain ⟨s1, victim, hp, -⟩ := ARCCache.arc_put_ok h hb k v
    exact ⟨s1, hp⟩
  · intro hf
    obtain ⟨hl, hlen⟩ := hne s.b1 s.b1_map h.okb1.map_eq hf
    refine ⟨hl, ?_, ARCCache.arc_delta _ _ hlen, ?_⟩
    · rw [ARCCache.udiv, if_neg hlen]
    · intro e
      rw [e]
      exact ⟨by simp, by simp⟩
  · intro hf
    obtain ⟨hl, hlen⟩ := hne s.b2 s.b2_map h.okb2.map_eq hf
    refine ⟨hl, ?_, ARCCache.arc_delta _ _ hlen, ?_⟩
    · rw [ARCCache.udiv, if_neg hlen]
    · intro e
      rw [e]
      exact ⟨by simp, by simp⟩

/-- C23 at capacity 2 for the state after `put(a,1); put(b,2); get(a);
put(c,3)` and the key `b` of `B1`, with `B2` empty: the step is 1. -/
theorem arc_delta_never_divides_by_zero_witness :
    (1 ≤ 2 ∧ ARCCache.Reachable 2 arcTrace ∧ UMap.find arcTrace.b1_map "b" ≠ none) ∧
      arcTrace.b1 ≠ [] ∧
      ARCCache.udiv arcTrace.b2.length arcTrace.b1.length =
        some (arcTrace.b2.length / arcTrace.b1.length) ∧
      (if arcTrace.b2.length > 0 then
          (ARCCache.udiv arcTrace.b2.length arcTrace.b1.length).map (fun q => max q 1)
        else some 1) = some (max (arcTrace.b2.length / arcTrace.b1.length) 1) ∧
      (arcTrace.b2 = [] → max (arcTrace.b2.length / arcTrace.b1.length) 1 = 1 ∧
        (if arcTrace.b2.length > 0 then
            (ARCCache.udiv arcTrace.b2.length arcTrace.b1.length).map (fun q => max q 1)
          else some 1) = some 1) :=
  ⟨⟨by decide, ⟨[Op.put "a" 1, Op.put "b" 2, Op.get "a", Op.put "c" 3], by decide⟩,
      by decide⟩,
    (arc_delta_never_divides_by_zero 2 (by decide) arcTrace
      ⟨[Op.put "a" 1, Op.put "b" 2, Op.get "a", Op.put "c" 3], by decide⟩ "b").2.1
      (by decide)⟩

end Claims

end CacheTest
